import Mathlib

/-!
# A feed-forward neural network with back-propagation (`neural_net.cpp`)

Shallow embedding of `src/neural_net.cpp`.

* The code is written over any type `R` with the arithmetic operations of `double`.  The
  theorems read `double` as an arbitrary field `R`: finite values with exact arithmetic.
  `tanh` and `sqrt` of `<cmath>` are function parameters (instantiated with `Real.tanh`
  where the analytic content matters).
* Where the infinities and NaN of IEEE 754 or the rounding of `tanh` decide what the
  program does, the code is run on `Double` (finite values, `+inf`, `-inf`, NaN), and
  `IsNearestDouble` says which value of type `double` a function that rounds to nearest
  returns.
* `vector<T>` is `List T`.  An access outside the bounds of a vector, or `back()` of an
  empty vector, stops the run with `Fault.outOfRange`; a failed `assert` stops it with
  `Fault.assertion`.  A stopped run keeps the state it had when it stopped.
* Members the constructors never assign (`m_outputVal`, `m_gradient`, `m_error`, ...)
  start with indeterminate values, supplied by the environment `Env`.
* `size_t` subtraction wraps around `2^64`; the `unsigned` counters of `Net::Net`, whose
  bounds come from the caller, count modulo `2^32`, and the constructor takes fuel: it
  gives no network when a loop of it does not end.
-/

set_option linter.unusedSectionVars false

namespace NeuralNet

/-! ## Runs that may stop early -/

/-- Reasons for which a run stops before the end of the function. -/
inductive Fault where
  /-- An `assert` whose condition is false. -/
  | assertion
  /-- An index outside the bounds of a vector, or `back()` of an empty vector. -/
  | outOfRange
  deriving DecidableEq, Repr

/-- Outcome of running a piece of code on a state of type `σ`: either it runs to its end
(`done`), or it stops at a fault, with the state reached at that moment. -/
inductive Run (σ : Type) where
  | done (s : σ)
  | fault (f : Fault) (s : σ)
  deriving Repr

/-- Sequencing: continue with `k` when the first part ran to its end. -/
def Run.bind {σ : Type} (r : Run σ) (k : σ → Run σ) : Run σ :=
  match r with
  | .done s => k s
  | .fault f s => .fault f s

/-- Transport of the state of a run (used when the code works on a part of the state). -/
def Run.lift {α β : Type} (r : Run α) (g : α → β) : Run β :=
  match r with
  | .done a => .done (g a)
  | .fault f a => .fault f (g a)

/-- Upward loop `for (unsigned n = start; n < start + count; ++n) body`.  The bounds of all
loops of the program are sizes that the body does not change, so the number of iterations
`count` is fixed on entry.  The loop stops at the first fault.  The counter of the source
has 32 bits: this is the loop of the source for bounds below `2^32`, which every size in a
network built by `Net::Net` is. -/
def forLoop {σ : Type} (body : Nat → σ → Run σ) : Nat → Nat → σ → Run σ
  | 0, _, s => .done s
  | count + 1, n, s =>
    match body n s with
    | .done s1 => forLoop body count (n + 1) s1
    | .fault f s1 => .fault f s1

/-- Downward loop `for (unsigned n = start; n > 0; --n) body`. -/
def downLoop {σ : Type} (body : Nat → σ → Run σ) : Nat → σ → Run σ
  | 0, s => .done s
  | n + 1, s =>
    match body (n + 1) s with
    | .done s1 => downLoop body n s1
    | .fault f s1 => .fault f s1

/-- Subtraction `a - b` of two `size_t` values (64 bits): the difference wraps around
`2^64` when `b` exceeds `a`. -/
def sizeSub (a b : Nat) : Nat := if b ≤ a then a - b else 2 ^ 64 - (b - a)

/-- Conversion of a `size_t` to `unsigned` (32 bits). -/
def toUnsigned (a : Nat) : Nat := a % 2 ^ 32

/-! ## Data model -/

/-- Source: `struct Connection`. -/
structure Connection (R : Type) where
  weight : R
  deltaWeight : R
  deriving Repr, DecidableEq

/-- Source: `class Neuron` (data members). -/
structure Neuron (R : Type) where
  m_outputVal : R
  m_outputWeights : List (Connection R)
  m_myIndex : Nat
  m_gradient : R
  deriving Repr, DecidableEq

/-- Source: `typedef vector<Neuron> Layer`. -/
abbrev Layer (R : Type) := List (Neuron R)

/-- Source: `class Net` (data members). -/
structure Net (R : Type) where
  m_layers : List (Layer R)
  m_error : R
  m_recentAverageError : R
  m_recentAverageSmoothingFactor : R
  deriving Repr, DecidableEq

/-- What the program takes from outside: the pseudo-random generator of `<cstdlib>` and the
indeterminate contents of the members that no constructor assigns. -/
structure Env (R : Type) where
  /-- The constant `RAND_MAX`. -/
  RAND_MAX : Nat
  /-- Value returned by the call number `k` of `rand()`. -/
  rand : Nat → Nat
  /-- Indeterminate initial `m_outputVal` of the neuron at (layer, position). -/
  indetOutputVal : Nat → Nat → R
  /-- Indeterminate initial `m_gradient` of the neuron at (layer, position). -/
  indetGradient : Nat → Nat → R
  /-- Indeterminate initial `m_error`. -/
  indetError : R
  /-- Indeterminate initial `m_recentAverageError`. -/
  indetRecentAverageError : R
  /-- Indeterminate initial `m_recentAverageSmoothingFactor`. -/
  indetRecentAverageSmoothingFactor : R

section Code

variable {R : Type} [Add R] [Sub R] [Mul R] [Div R] [Zero R] [NatCast R] [OfScientific R]

/-! ## class Neuron -/

/-- Source: `double Neuron::eta = 0.15; // learning rate`. -/
def Neuron.eta : R := 0.15

/-- Source: `double Neuron::alpha = 0.5; // momentum`. -/
def Neuron.alpha : R := 0.5

/-- Source: `Neuron::randomWeight`: `rand() / double(RAND_MAX)`, for the value `r` returned
by `rand()`. -/
def Neuron.randomWeight (RAND_MAX r : Nat) : R := (r : R) / (RAND_MAX : R)

/-- Source: `Neuron::transferFunction`. -/
def Neuron.transferFunction (tanh : R → R) (x : R) : R := tanh x

/-- Source: `Neuron::transferFunctionDerivative`. -/
def Neuron.transferFunctionDerivative (x : R) : R := 1.0 - x * x

/-- Source: `Neuron::updateInputWeights(Layer &prevLayer)`: the state is `prevLayer`. -/
def Neuron.updateInputWeights (self : Neuron R) (prevLayer : Layer R) : Run (Layer R) :=
  forLoop (fun n prevLayer =>
    match prevLayer[n]? with
    | none => .fault .outOfRange prevLayer
    | some neuron =>
      match neuron.m_outputWeights[self.m_myIndex]? with
      | none => .fault .outOfRange prevLayer
      | some conn =>
        let oldDeltaWeight := conn.deltaWeight
        let newDeltaWeight :=
          Neuron.eta * neuron.m_outputVal * self.m_gradient + Neuron.alpha * oldDeltaWeight
        .done (prevLayer.set n { neuron with
          m_outputWeights := neuron.m_outputWeights.set self.m_myIndex
            { weight := conn.weight + newDeltaWeight, deltaWeight := newDeltaWeight } }))
    prevLayer.length 0 prevLayer

/-- Source: `Neuron::sumDOW(const Layer &nextLayer)`: the state is the local `sum`. -/
def Neuron.sumDOW (self : Neuron R) (nextLayer : Layer R) : Run R :=
  forLoop (fun n sum =>
    match self.m_outputWeights[n]?, nextLayer[n]? with
    | some conn, some next => .done (sum + conn.weight * next.m_gradient)
    | _, _ => .fault .outOfRange sum)
    (sizeSub nextLayer.length 1) 0 0.0

/-- Source: `Neuron::calcOutputGradients(double targetVal)`. -/
def Neuron.calcOutputGradients (self : Neuron R) (targetVal : R) : Neuron R :=
  let delta := targetVal - self.m_outputVal
  { self with m_gradient := delta * Neuron.transferFunctionDerivative self.m_outputVal }

/-- Source: `Neuron::calcHiddenGradients(const Layer &nextLayer)`. -/
def Neuron.calcHiddenGradients (self : Neuron R) (nextLayer : Layer R) : Run (Neuron R) :=
  match self.sumDOW nextLayer with
  | .fault f _ => .fault f self
  | .done dow =>
    .done { self with m_gradient := dow * Neuron.transferFunctionDerivative self.m_outputVal }

/-- The summation loop of `Neuron::feedForward`: the state is the local `sum`. -/
def Neuron.feedForwardSum (self : Neuron R) (prevLayer : Layer R) : Run R :=
  forLoop (fun n sum =>
    match prevLayer[n]? with
    | none => .fault .outOfRange sum
    | some prev =>
      match prev.m_outputWeights[self.m_myIndex]? with
      | none => .fault .outOfRange sum
      | some conn => .done (sum + prev.m_outputVal * conn.weight))
    prevLayer.length 0 0.0

/-- Source: `Neuron::feedForward(const Layer &prevLayer)`. -/
def Neuron.feedForward (tanh : R → R) (self : Neuron R) (prevLayer : Layer R) :
    Run (Neuron R) :=
  match self.feedForwardSum prevLayer with
  | .fault f _ => .fault f self
  | .done sum => .done { self with m_outputVal := Neuron.transferFunction tanh sum }

/-- The loop of `Neuron::Neuron`: `count` more connections are pushed; `k` counts the calls
of `rand()` made so far.  `Connection()` is value-initialised, so `deltaWeight` is `0`. -/
def Neuron.ctorLoop (env : Env R) : Nat → List (Connection R) → Nat → List (Connection R) × Nat
  | 0, weights, k => (weights, k)
  | count + 1, weights, k =>
    Neuron.ctorLoop env count
      (weights ++ [{ weight := Neuron.randomWeight env.RAND_MAX (env.rand k), deltaWeight := 0 }])
      (k + 1)

/-- Source: `Neuron::Neuron(unsigned numOutputs, unsigned myIndex)`.  `m_outputVal` and
`m_gradient` are not assigned: they keep the indeterminate values `outputVal0` and
`gradient0`.  Returns the neuron and the new count of calls of `rand()`. -/
def Neuron.ctor (env : Env R) (k : Nat) (outputVal0 gradient0 : R) (numOutputs myIndex : Nat) :
    Neuron R × Nat :=
  let r := Neuron.ctorLoop env numOutputs [] k
  ({ m_outputVal := outputVal0, m_outputWeights := r.1, m_myIndex := myIndex,
     m_gradient := gradient0 }, r.2)

/-! ## class Net -/

/-- The neuron `m_layers[l][n]`, when both indices are in range. -/
def Net.neuron? (net : Net R) (l n : Nat) : Option (Neuron R) :=
  match net.m_layers[l]? with
  | none => none
  | some layer => layer[n]?

/-- Assignment to the layer `m_layers[l]`. -/
def Net.setLayer (net : Net R) (l : Nat) (layer : Layer R) : Net R :=
  { net with m_layers := net.m_layers.set l layer }

/-- Assignment to the neuron `m_layers[l][n]`. -/
def Net.setNeuron (net : Net R) (l n : Nat) (x : Neuron R) : Net R :=
  match net.m_layers[l]? with
  | none => net
  | some layer => net.setLayer l (layer.set n x)

/-- Source: `Net::getResults(vector<double> &resultVals)`: the state is `resultVals`. -/
def Net.getResults (net : Net R) (resultVals : List R) : Run (List R) :=
  match net.m_layers.getLast? with
  | none => .fault .outOfRange resultVals
  | some back =>
    forLoop (fun n resultVals =>
      match back[n]? with
      | none => .fault .outOfRange resultVals
      | some neuron => .done (resultVals ++ [neuron.m_outputVal]))
      (sizeSub back.length 1) 0 []

/-- Body of the first loop of `Net::feedForward`:
`m_layers[0][i].setOutputVal(inputVals[i])`. -/
def Net.feedForwardInput (inputVals : List R) (i : Nat) (net : Net R) : Run (Net R) :=
  match inputVals[i]?, net.neuron? 0 i with
  | some v, some neuron => .done (net.setNeuron 0 i { neuron with m_outputVal := v })
  | _, _ => .fault .outOfRange net

/-- Body of the inner loop of the forward propagation:
`m_layers[layerNum][n].feedForward(prevLayer)` with `prevLayer = m_layers[layerNum - 1]`. -/
def Net.feedForwardNeuron (tanh : R → R) (layerNum n : Nat) (net : Net R) : Run (Net R) :=
  match net.m_layers[layerNum - 1]?, net.neuron? layerNum n with
  | some prevLayer, some neuron =>
    (neuron.feedForward tanh prevLayer).lift (net.setNeuron layerNum n)
  | _, _ => .fault .outOfRange net

/-- Body of the outer loop of the forward propagation:
`for (unsigned n = 0; n < m_layers[layerNum].size() - 1; ++n)`. -/
def Net.feedForwardLayer (tanh : R → R) (layerNum : Nat) (net : Net R) : Run (Net R) :=
  match net.m_layers[layerNum - 1]?, net.m_layers[layerNum]? with
  | some _, some layer =>
    forLoop (Net.feedForwardNeuron tanh layerNum) (sizeSub layer.length 1) 0 net
  | _, _ => .fault .outOfRange net

/-- Source: `Net::feedForward(const vector<double> &inputVals)`. -/
def Net.feedForward (tanh : R → R) (net : Net R) (inputVals : List R) : Run (Net R) :=
  match net.m_layers[0]? with
  | none => .fault .outOfRange net
  | some layer0 =>
    -- assert(inputVals.size() == m_layers[0].size() - 1)
    if inputVals.length ≠ sizeSub layer0.length 1 then .fault .assertion net
    else
      (forLoop (Net.feedForwardInput inputVals) inputVals.length 0 net).bind fun net =>
      -- Forward propagation
      forLoop (Net.feedForwardLayer tanh) (net.m_layers.length - 1) 1 net

/-- Body of the error loop of `Net::backProp`, with `last` the index of `m_layers.back()`:
`delta = targetVals[n] - outputLayer[n].getOutputVal(); m_error += delta * delta`. -/
def Net.backPropError (targetVals : List R) (last n : Nat) (net : Net R) : Run (Net R) :=
  match targetVals[n]?, net.neuron? last n with
  | some t, some neuron =>
    let delta := t - neuron.m_outputVal
    .done { net with m_error := net.m_error + delta * delta }
  | _, _ => .fault .outOfRange net

/-- Body of the loop of the output gradients:
`outputLayer[n].calcOutputGradients(targetVals[n])`. -/
def Net.backPropOutput (targetVals : List R) (last n : Nat) (net : Net R) : Run (Net R) :=
  match targetVals[n]?, net.neuron? last n with
  | some t, some neuron => .done (net.setNeuron last n (neuron.calcOutputGradients t))
  | _, _ => .fault .outOfRange net

/-- Body of the inner loop of the hidden gradients:
`hiddenLayer[n].calcHiddenGradients(nextLayer)` with `hiddenLayer = m_layers[layerNum]` and
`nextLayer = m_layers[layerNum + 1]` (`layerNum + 1` in `unsigned`). -/
def Net.backPropHiddenNeuron (layerNum n : Nat) (net : Net R) : Run (Net R) :=
  match net.neuron? layerNum n, net.m_layers[toUnsigned (layerNum + 1)]? with
  | some neuron, some nextLayer =>
    (neuron.calcHiddenGradients nextLayer).lift (net.setNeuron layerNum n)
  | _, _ => .fault .outOfRange net

/-- Body of the outer loop of the hidden gradients:
`for (unsigned n = 0; n < hiddenLayer.size(); ++n)`. -/
def Net.backPropHiddenLayer (layerNum : Nat) (net : Net R) : Run (Net R) :=
  match net.m_layers[layerNum]?, net.m_layers[toUnsigned (layerNum + 1)]? with
  | some hiddenLayer, some _ =>
    forLoop (Net.backPropHiddenNeuron layerNum) hiddenLayer.length 0 net
  | _, _ => .fault .outOfRange net

/-- Body of the inner loop of the weight update:
`layer[n].updateInputWeights(prevLayer)` with `layer = m_layers[layerNum]` and
`prevLayer = m_layers[layerNum - 1]`. -/
def Net.backPropUpdateNeuron (layerNum n : Nat) (net : Net R) : Run (Net R) :=
  match net.neuron? layerNum n, net.m_layers[layerNum - 1]? with
  | some neuron, some prevLayer =>
    (neuron.updateInputWeights prevLayer).lift (net.setLayer (layerNum - 1))
  | _, _ => .fault .outOfRange net

/-- Body of the outer loop of the weight update:
`for (unsigned n = 0; n < layer.size() - 1; ++n)`. -/
def Net.backPropUpdateLayer (layerNum : Nat) (net : Net R) : Run (Net R) :=
  match net.m_layers[layerNum]?, net.m_layers[layerNum - 1]? with
  | some layer, some _ =>
    forLoop (Net.backPropUpdateNeuron layerNum) (sizeSub layer.length 1) 0 net
  | _, _ => .fault .outOfRange net

/-- The assignments of `Net::backProp` between the error loop and the gradient loops:
`m_error /= outputLayer.size() - 1; m_error = sqrt(m_error);` and the recent average. -/
def Net.backPropAverage (sqrt : R → R) (outputSize : Nat) (net : Net R) : Net R :=
  -- get average error squared
  let net := { net with m_error := net.m_error / ((sizeSub outputSize 1 : Nat) : R) }
  -- RMS
  let net := { net with m_error := sqrt net.m_error }
  -- Implement a recent average measurement
  { net with
    m_recentAverageError :=
      (net.m_recentAverageError * net.m_recentAverageSmoothingFactor + net.m_error)
        / (net.m_recentAverageSmoothingFactor + 1.0) }

/-- Source: `Net::backProp(const vector<double> &targetVals)`.  `outputLayer` is
`m_layers.back()`, that is `m_layers[m_layers.size() - 1]`. -/
def Net.backProp (sqrt : R → R) (net : Net R) (targetVals : List R) : Run (Net R) :=
  match net.m_layers.getLast? with
  | none => .fault .outOfRange net
  | some outputLayer =>
    let last := net.m_layers.length - 1
    -- Calculate overall net error (RMS of output neuron errors)
    (forLoop (Net.backPropError targetVals last) (sizeSub outputLayer.length 1) 0
      { net with m_error := 0.0 }).bind fun net =>
    let net := Net.backPropAverage sqrt outputLayer.length net
    -- Calculate output layer gradients
    (forLoop (Net.backPropOutput targetVals last) (sizeSub outputLayer.length 1) 0 net).bind
      fun net =>
    -- Calculate gradients on hidden layers
    (downLoop Net.backPropHiddenLayer (toUnsigned (sizeSub net.m_layers.length 2)) net).bind
      fun net =>
    -- For all layers from outputs to first hidden layer, update connection weights
    downLoop Net.backPropUpdateLayer (toUnsigned (sizeSub net.m_layers.length 1)) net

/-- The inner loop of `Net::Net`,
`for (unsigned neuronNum = 0; neuronNum <= topology[layerNum]; ++neuronNum)`, with `bound`
for `topology[layerNum]` and `layer` for `m_layers.back()`.  The counter is 32 bits wide;
`fuel` bounds the number of evaluations of the loop condition, and `none` means that the
loop has not ended within that bound. -/
def Net.ctorNeurons (env : Env R) (layerNum numOutputs bound : Nat) :
    Nat → Nat → Layer R → Nat → Option (Layer R × Nat)
  | 0, _, _, _ => none
  | fuel + 1, neuronNum, layer, k =>
    if neuronNum ≤ bound then
      let r := Neuron.ctor env k (env.indetOutputVal layerNum neuronNum)
        (env.indetGradient layerNum neuronNum) numOutputs neuronNum
      Net.ctorNeurons env layerNum numOutputs bound fuel ((neuronNum + 1) % 2 ^ 32)
        (layer ++ [r.1]) r.2
    else some (layer, k)

/-- The outer loop of `Net::Net`,
`for (unsigned layerNum = 0; layerNum < numLayers; ++layerNum)`, with `count` iterations
left.  The accesses `topology[layerNum]` and `topology[layerNum + 1]` are in range
(`layerNum < numLayers <= topology.size()`, and the second is evaluated only when
`layerNum != topology.size() - 1`). -/
def Net.ctorLayers (env : Env R) (topology : List Nat) (fuel : Nat) :
    Nat → Nat → List (Layer R) → Nat → Option (List (Layer R) × Nat)
  | 0, _, m_layers, k => some (m_layers, k)
  | count + 1, layerNum, m_layers, k =>
    let numOutputs :=
      if layerNum = sizeSub topology.length 1 then 0 else topology.getD (layerNum + 1) 0
    match Net.ctorNeurons env layerNum numOutputs (topology.getD layerNum 0) fuel 0 [] k with
    | none => none
    | some (layer, k1) =>
      Net.ctorLayers env topology fuel count (layerNum + 1) (m_layers ++ [layer]) k1

/-- Source: `Net::Net(const vector<unsigned> &topology)`.  `fuel` bounds the length of each
run of the inner loop; the result is `none` when an inner loop has not ended within that
bound.  `m_error`, `m_recentAverageError` and `m_recentAverageSmoothingFactor` are not
assigned. -/
def Net.ctor (env : Env R) (fuel : Nat) (topology : List Nat) : Option (Net R) :=
  let numLayers := toUnsigned topology.length
  match Net.ctorLayers env topology fuel numLayers 0 [] 0 with
  | none => none
  | some (m_layers, _) =>
    some { m_layers := m_layers, m_error := env.indetError,
           m_recentAverageError := env.indetRecentAverageError,
           m_recentAverageSmoothingFactor := env.indetRecentAverageSmoothingFactor }

/-! ## Shape of a network -/

/-- The shape that `Net::Net` gives to a network for `topology`: one layer per entry, layer
`i` with `topology[i] + 1` neurons, the neuron at position `p` with index `p` and with as
many connections as the next entry of the topology says (none for the last layer). -/
def Net.HasShape (net : Net R) (topology : List Nat) : Prop :=
  net.m_layers.length = topology.length ∧
  ∀ i, i < topology.length → ∃ layer ∈ net.m_layers[i]?,
    layer.length = topology.getD i 0 + 1 ∧
    ∀ p, p < layer.length → ∃ x ∈ layer[p]?,
      x.m_myIndex = p ∧
      x.m_outputWeights.length = if i + 1 < topology.length then topology.getD (i + 1) 0 else 0

instance (net : Net R) (topology : List Nat) : Decidable (net.HasShape topology) := by
  unfold Net.HasShape; infer_instance

/-- A topology whose sizes the 32-bit counters of `Net::Net` can count: fewer than `2^32`
layers, each of a size below `2^32 - 1`. -/
def Representable (topology : List Nat) : Prop :=
  topology.length < 2 ^ 32 ∧ ∀ L ∈ topology, L < 2 ^ 32 - 1

instance (topology : List Nat) : Decidable (Representable topology) := by
  unfold Representable; infer_instance

/-- A well-formed network: it has the shape of a non-empty representable topology. -/
def Net.WellFormed (net : Net R) (topology : List Nat) : Prop :=
  topology ≠ [] ∧ Representable topology ∧ net.HasShape topology

instance (net : Net R) (topology : List Nat) : Decidable (net.WellFormed topology) := by
  unfold Net.WellFormed; infer_instance

end Code

variable {R : Type} [Field R]

/-- The layer that the inner loop of `Net::Net` has to produce, extending `layer`: every
neuron pushed at position `p` has index `neuronNum + (p - layer.length)`, `numOutputs`
connections and the indeterminate output value of that index. -/
def LayerExtends (env : Env R) (layerNum numOutputs neuronNum : Nat) (layer layer1 : Layer R) :
    Prop :=
  (∀ p, p < layer.length → layer1[p]? = layer[p]?) ∧
  ∀ p, layer.length ≤ p → p < layer1.length → ∃ x, layer1[p]? = some x ∧
    x.m_myIndex = neuronNum + (p - layer.length) ∧
    x.m_outputWeights.length = numOutputs ∧
    x.m_outputVal = env.indetOutputVal layerNum (neuronNum + (p - layer.length))

/-- What `Net::Net` has to make of layer `i`. -/
def LayerBuilt (env : Env R) (topology : List Nat) (i : Nat) (layer : Layer R) : Prop :=
  layer.length = topology.getD i 0 + 1 ∧
  ∀ p, p < layer.length → ∃ x, layer[p]? = some x ∧
    x.m_myIndex = p ∧
    x.m_outputWeights.length = (if i + 1 < topology.length then topology.getD (i + 1) 0 else 0) ∧
    x.m_outputVal = env.indetOutputVal i p

/-- Projection of every neuron of a network by `f`. -/
def Net.proj {β : Type} (f : Neuron R → β) (net : Net R) : List (List β) :=
  net.m_layers.map (List.map f)

/-- The part of a neuron that the shape of a network speaks of. -/
def Neuron.shape (x : Neuron R) : Nat × Nat := (x.m_myIndex, x.m_outputWeights.length)

/-- Weight of the connection number `j` of a neuron (`0` when there is no such connection). -/
def Neuron.weightTo (x : Neuron R) (j : Nat) : R :=
  match x.m_outputWeights[j]? with
  | some conn => conn.weight
  | none => 0

/-- Sum, over all the neurons `n` of `prevLayer`, of the output of `n` times the weight of the
connection number `j` of `n`. -/
def weightedSum (prevLayer : Layer R) (j : Nat) : R :=
  (prevLayer.map fun n => n.m_outputVal * n.weightTo j).sum

/-- The output of the neuron `j` of layer `l` is the activation of the weighted sum of the
outputs of ALL the neurons of layer `l - 1` (its last neuron included), each multiplied by
the weight of its connection number `j`. -/
def Net.OutputIsActivation (tanh : R → R) (net : Net R) (l j : Nat) : Prop :=
  ∃ prevLayer x, net.m_layers[l - 1]? = some prevLayer ∧ net.neuron? l j = some x ∧
    x.m_outputVal = tanh (weightedSum prevLayer j)

/-- All of a neuron but its output value. -/
def Neuron.frame (x : Neuron R) : List (Connection R) × Nat × R :=
  (x.m_outputWeights, x.m_myIndex, x.m_gradient)

/-- The neuron `x` of `prevLayer` once `self.updateInputWeights(prevLayer)` has gone through
it: its connection number `self.m_myIndex` has the new `deltaWeight` and `weight`. -/
def Neuron.updatedBy (self x : Neuron R) : Neuron R :=
  match x.m_outputWeights[self.m_myIndex]? with
  | none => x
  | some conn =>
    let newDeltaWeight :=
      Neuron.eta * x.m_outputVal * self.m_gradient + Neuron.alpha * conn.deltaWeight
    { x with
      m_outputWeights := x.m_outputWeights.set self.m_myIndex
        { weight := conn.weight + newDeltaWeight, deltaWeight := newDeltaWeight } }

/-- The part of a neuron that `Net::backProp` leaves alone: output value, index and number
of connections. -/
def Neuron.outShape (x : Neuron R) : R × Nat × Nat :=
  (x.m_outputVal, x.m_myIndex, x.m_outputWeights.length)

/-- The state in which a run ends. -/
def Run.state {σ : Type} : Run σ → σ
  | .done s => s
  | .fault _ s => s

/-- Output value of the neuron `m_layers[l][n]` (`0` when there is no such neuron). -/
def Net.outputVal (net : Net R) (l n : Nat) : R :=
  match net.neuron? l n with
  | some x => x.m_outputVal
  | none => 0

/-- Size of the last layer of a topology, `topology[last]`. -/
def lastSize (topology : List Nat) : Nat := topology.getD (topology.length - 1) 0

/-- Gradient of the neuron at position `n` of a layer (`0` when there is no such neuron). -/
def gradientAt (layer : Layer R) (n : Nat) : R :=
  match layer[n]? with
  | some x => x.m_gradient
  | none => 0

/-! ## Data for the examples -/

/-- An environment for the examples: `RAND_MAX = 4`, `rand()` returns `0, 3, 1, 4, 2, ...`,
and the storage of a neuron at (layer, position) holds `7 + layer + position` where its
output value will be and `9` where its gradient will be. -/
def sampleEnv (R : Type) [Field R] : Env R :=
  { RAND_MAX := 4, rand := fun k => (k * 3) % 5,
    indetOutputVal := fun l n => ((7 + l + n : Nat) : R),
    indetGradient := fun _ _ => 9, indetError := 11, indetRecentAverageError := 12,
    indetRecentAverageSmoothingFactor := 13 }

/-- A network of topology `[1, 1]` for the examples. -/
def sampleNet (R : Type) [Field R] : Net R :=
  { m_layers :=
      [[{ m_outputVal := 2, m_outputWeights := [{ weight := 1, deltaWeight := 0 }],
          m_myIndex := 0, m_gradient := 0 },
        { m_outputVal := 3, m_outputWeights := [{ weight := 2, deltaWeight := 1 }],
          m_myIndex := 1, m_gradient := 0 }],
       [{ m_outputVal := 4, m_outputWeights := [], m_myIndex := 0, m_gradient := 5 },
        { m_outputVal := 6, m_outputWeights := [], m_myIndex := 1, m_gradient := 0 }]],
    m_error := 0, m_recentAverageError := 0, m_recentAverageSmoothingFactor := 100 }

/-! ## Frames, reachable states and updates -/

/-- The neuron `y` is the neuron `x` but for the connection number `j`: output value,
gradient, index and number of connections are the same, and so is every other connection. -/
def Neuron.SameButConn (j : Nat) (x y : Neuron R) : Prop :=
  y.m_outputVal = x.m_outputVal ∧ y.m_gradient = x.m_gradient ∧ y.m_myIndex = x.m_myIndex ∧
  y.m_outputWeights.length = x.m_outputWeights.length ∧
  ∀ k, k ≠ j → y.m_outputWeights[k]? = x.m_outputWeights[k]?

/-- The states that a program can bring the network `net0` to by calls of `feedForward` and
`backProp`, with any arguments and whether the call runs to its end or stops at a fault
(`getResults` is `const`: it has no effect on the network). -/
inductive Net.Reachable (tanh sqrt : R → R) (net0 : Net R) : Net R → Prop where
  | start : Net.Reachable tanh sqrt net0 net0
  | feedForward {net : Net R} (inputVals : List R) :
      Net.Reachable tanh sqrt net0 net →
      Net.Reachable tanh sqrt net0 (net.feedForward tanh inputVals).state
  | backProp {net : Net R} (targetVals : List R) :
      Net.Reachable tanh sqrt net0 net →
      Net.Reachable tanh sqrt net0 (net.backProp sqrt targetVals).state

/-- All of a neuron but its gradient. -/
def Neuron.noGrad (x : Neuron R) : R × List (Connection R) × Nat :=
  (x.m_outputVal, x.m_outputWeights, x.m_myIndex)

/-- All of a neuron but the contents of its connections. -/
def Neuron.noWeights (x : Neuron R) : R × R × Nat × Nat :=
  (x.m_outputVal, x.m_gradient, x.m_myIndex, x.m_outputWeights.length)

/-- The connection `conn` once `updateInputWeights` has gone through it, for a source neuron
of output `out` and a target neuron of gradient `grad`:
`newDeltaWeight = eta * out * grad + alpha * oldDeltaWeight`, added to the weight. -/
def Connection.updated (conn : Connection R) (out grad : R) : Connection R :=
  { weight := conn.weight + (Neuron.eta * out * grad + Neuron.alpha * conn.deltaWeight),
    deltaWeight := Neuron.eta * out * grad + Neuron.alpha * conn.deltaWeight }

/-- Gradient of the neuron `m_layers[l][n]` (`0` when there is no such neuron). -/
def Net.gradient (net : Net R) (l n : Nat) : R :=
  match net.neuron? l n with
  | some x => x.m_gradient
  | none => 0

/-- The gradient that `calcHiddenGradients` gives to the neuron `x` for the next layer
`nextLayer`, of which the first `m` neurons count:
`sumDOW(nextLayer) * transferFunctionDerivative(m_outputVal)`. -/
def Neuron.hiddenGradient (x : Neuron R) (nextLayer : Layer R) (m : Nat) : R :=
  (∑ k in Finset.range m, x.weightTo k * gradientAt nextLayer k)
    * Neuron.transferFunctionDerivative x.m_outputVal

/-! ## More data for the examples -/

/-- A network of topology `[1, 1, 1]` for the examples, with one hidden layer; every
`deltaWeight` in it is `0`. -/
def sampleNet3 (R : Type) [Field R] : Net R :=
  { m_layers :=
      [[{ m_outputVal := 1/2, m_outputWeights := [{ weight := 1/4, deltaWeight := 0 }],
          m_myIndex := 0, m_gradient := 0 },
        { m_outputVal := 1, m_outputWeights := [{ weight := 3/4, deltaWeight := 0 }],
          m_myIndex := 1, m_gradient := 0 }],
       [{ m_outputVal := 1/3, m_outputWeights := [{ weight := 1/5, deltaWeight := 0 }],
          m_myIndex := 0, m_gradient := 0 },
        { m_outputVal := 1, m_outputWeights := [{ weight := 2/5, deltaWeight := 0 }],
          m_myIndex := 1, m_gradient := 0 }],
       [{ m_outputVal := 1/7, m_outputWeights := [], m_myIndex := 0, m_gradient := 0 },
        { m_outputVal := 5, m_outputWeights := [], m_myIndex := 1, m_gradient := 0 }]],
    m_error := 0, m_recentAverageError := 0, m_recentAverageSmoothingFactor := 100 }

/-- A network of topology `[1, 1, 1]` as a training pass leaves it: gradients and error are
not `0`; every `deltaWeight` in it is `0`. -/
def trainedNet3 (R : Type) [Field R] : Net R :=
  { m_layers :=
      [[{ m_outputVal := 1/2, m_outputWeights := [{ weight := 1/4, deltaWeight := 0 }],
          m_myIndex := 0, m_gradient := 2 },
        { m_outputVal := 1, m_outputWeights := [{ weight := 3/4, deltaWeight := 0 }],
          m_myIndex := 1, m_gradient := 3 }],
       [{ m_outputVal := 1/3, m_outputWeights := [{ weight := 1/5, deltaWeight := 0 }],
          m_myIndex := 0, m_gradient := 4 },
        { m_outputVal := 1, m_outputWeights := [{ weight := 2/5, deltaWeight := 0 }],
          m_myIndex := 1, m_gradient := 5 }],
       [{ m_outputVal := 1/7, m_outputWeights := [], m_myIndex := 0, m_gradient := 6 },
        { m_outputVal := 5, m_outputWeights := [], m_myIndex := 1, m_gradient := 7 }]],
    m_error := 8, m_recentAverageError := 9, m_recentAverageSmoothingFactor := 100 }

/-- An environment in which `rand()` always returns `RAND_MAX` (every weight is `1`) and
every member left unassigned holds `1` (so every bias output is `1`). -/
def biasEnv (R : Type) [Field R] : Env R :=
  { RAND_MAX := 1, rand := fun _ => 1, indetOutputVal := fun _ _ => 1,
    indetGradient := fun _ _ => 0, indetError := 0, indetRecentAverageError := 0,
    indetRecentAverageSmoothingFactor := 0 }

/-- The values of type `double` with the special values of IEEE 754: the finite values, the
two infinities and NaN.  The finite values are taken without rounding and without overflow,
as rational numbers, and the sign of zero is left out. -/
inductive Double where
  | finite (q : ℚ)
  | posInf
  | negInf
  | nan
  deriving DecidableEq

/-- The infinity that has the sign of `q`; NaN when `q` is zero (as in `0 * inf`). -/
def Double.infOfSign (q : ℚ) : Double :=
  if q = 0 then .nan else if 0 < q then .posInf else .negInf

/-- Addition of two `double` values. -/
def Double.add : Double → Double → Double
  | .finite a, .finite b => .finite (a + b)
  | .finite _, .posInf => .posInf
  | .finite _, .negInf => .negInf
  | .posInf, .finite _ => .posInf
  | .posInf, .posInf => .posInf
  | .posInf, .negInf => .nan
  | .negInf, .finite _ => .negInf
  | .negInf, .posInf => .nan
  | .negInf, .negInf => .negInf
  | .nan, _ => .nan
  | _, .nan => .nan

/-- Subtraction of two `double` values. -/
def Double.sub : Double → Double → Double
  | .finite a, .finite b => .finite (a - b)
  | .finite _, .posInf => .negInf
  | .finite _, .negInf => .posInf
  | .posInf, .finite _ => .posInf
  | .posInf, .posInf => .nan
  | .posInf, .negInf => .posInf
  | .negInf, .finite _ => .negInf
  | .negInf, .posInf => .negInf
  | .negInf, .negInf => .nan
  | .nan, _ => .nan
  | _, .nan => .nan

/-- Multiplication of two `double` values: zero times an infinity is NaN. -/
def Double.mul : Double → Double → Double
  | .finite a, .finite b => .finite (a * b)
  | .finite a, .posInf => Double.infOfSign a
  | .finite a, .negInf => Double.infOfSign (-a)
  | .posInf, .finite b => Double.infOfSign b
  | .posInf, .posInf => .posInf
  | .posInf, .negInf => .negInf
  | .negInf, .finite b => Double.infOfSign (-b)
  | .negInf, .posInf => .negInf
  | .negInf, .negInf => .posInf
  | .nan, _ => .nan
  | _, .nan => .nan

/-- Division of two `double` values: `0 / 0` and `inf / inf` are NaN, another finite value
divided by zero is an infinity. -/
def Double.div : Double → Double → Double
  | .finite a, .finite b => if b = 0 then Double.infOfSign a else .finite (a / b)
  | .finite _, .posInf => .finite 0
  | .finite _, .negInf => .finite 0
  | .posInf, .finite b => if 0 ≤ b then .posInf else .negInf
  | .posInf, .posInf => .nan
  | .posInf, .negInf => .nan
  | .negInf, .finite b => if 0 ≤ b then .negInf else .posInf
  | .negInf, .posInf => .nan
  | .negInf, .negInf => .nan
  | .nan, _ => .nan
  | _, .nan => .nan

instance : Add Double := ⟨Double.add⟩

instance : Sub Double := ⟨Double.sub⟩

instance : Mul Double := ⟨Double.mul⟩

instance : Div Double := ⟨Double.div⟩

instance : Zero Double := ⟨.finite 0⟩

instance : NatCast Double := ⟨fun n => .finite n⟩

instance : OfScientific Double := ⟨fun m s e => .finite (OfScientific.ofScientific m s e)⟩

/-- The function `tanh` of `<cmath>` on the special values: `tanh(+inf) = 1`,
`tanh(-inf) = -1`, `tanh(NaN) = NaN`; `t` gives its values on the finite arguments. -/
def Double.tanh (t : ℚ → ℚ) : Double → Double
  | .finite q => .finite (t q)
  | .posInf => .finite 1
  | .negInf => .finite (-1)
  | .nan => .nan

/-- The function `sqrt` of `<cmath>` on the special values: `sqrt(+inf) = +inf`, and NaN for
`-inf`, NaN and the negative arguments; `s` gives its values on the other finite
arguments. -/
def Double.sqrt (s : ℚ → ℚ) : Double → Double
  | .finite q => if q < 0 then .nan else .finite (s q)
  | .posInf => .posInf
  | .negInf => .nan
  | .nan => .nan

/-- A network of topology `[1, 1]` over `Double`, all of whose values are finite: weights
`1`, every `deltaWeight` at `0`, bias outputs `1`. -/
def finiteNet : Net Double :=
  { m_layers :=
      [[{ m_outputVal := .finite 0,
          m_outputWeights := [{ weight := .finite 1, deltaWeight := .finite 0 }],
          m_myIndex := 0, m_gradient := .finite 0 },
        { m_outputVal := .finite 1,
          m_outputWeights := [{ weight := .finite 1, deltaWeight := .finite 0 }],
          m_myIndex := 1, m_gradient := .finite 0 }],
       [{ m_outputVal := .finite 0, m_outputWeights := [], m_myIndex := 0,
          m_gradient := .finite 0 },
        { m_outputVal := .finite 1, m_outputWeights := [], m_myIndex := 1,
          m_gradient := .finite 0 }]],
    m_error := .finite 0, m_recentAverageError := .finite 0,
    m_recentAverageSmoothingFactor := .finite 100 }

/-- The network `finiteNet` once `feedForward` has been called with the input `[+inf]`: the
input neuron holds `+inf` and the output neuron holds `tanh(+inf) = 1`. -/
def infNet : Net Double :=
  { m_layers :=
      [[{ m_outputVal := .posInf,
          m_outputWeights := [{ weight := .finite 1, deltaWeight := .finite 0 }],
          m_myIndex := 0, m_gradient := .finite 0 },
        { m_outputVal := .finite 1,
          m_outputWeights := [{ weight := .finite 1, deltaWeight := .finite 0 }],
          m_myIndex := 1, m_gradient := .finite 0 }],
       [{ m_outputVal := .finite 1, m_outputWeights := [], m_myIndex := 0,
          m_gradient := .finite 0 },
        { m_outputVal := .finite 1, m_outputWeights := [], m_myIndex := 1,
          m_gradient := .finite 0 }]],
    m_error := .finite 0, m_recentAverageError := .finite 0,
    m_recentAverageSmoothingFactor := .finite 100 }

/-! ## Rounding to the nearest `double` -/

/-- The real numbers that are finite values of type `double` (IEEE 754 binary64): the
numbers `m * 2^(a - b)` with an integer `m` of at most 53 bits and an exponent `a - b`
from `-1074` to `971`. -/
def IsDouble (d : ℝ) : Prop :=
  ∃ (m : ℤ) (a b : ℕ), |m| < 2 ^ 53 ∧ a ≤ 971 ∧ b ≤ 1074 ∧ d = m * 2 ^ a / 2 ^ b

/-- The number `d` is a value of type `double` nearest to the real number `y`: what a
function of `<cmath>` returns for an exact value `y` when it rounds to nearest. -/
def IsNearestDouble (y d : ℝ) : Prop :=
  IsDouble d ∧ ∀ d', IsDouble d' → |d - y| ≤ |d' - y|

/-- The network that `Net::Net` builds for the topology `[1, 1]` in `biasEnv`: every weight
is `1` and every output value is `1`. -/
def oneNet (R : Type) [Field R] : Net R :=
  { m_layers :=
      [[{ m_outputVal := 1, m_outputWeights := [{ weight := 1, deltaWeight := 0 }],
          m_myIndex := 0, m_gradient := 0 },
        { m_outputVal := 1, m_outputWeights := [{ weight := 1, deltaWeight := 0 }],
          m_myIndex := 1, m_gradient := 0 }],
       [{ m_outputVal := 1, m_outputWeights := [], m_myIndex := 0, m_gradient := 0 },
        { m_outputVal := 1, m_outputWeights := [], m_myIndex := 1, m_gradient := 0 }]],
    m_error := 0, m_recentAverageError := 0, m_recentAverageSmoothingFactor := 0 }

/-! ## Loop rules -/

/-- Invariant rule for `forLoop`: when every iteration runs to its end and carries the
invariant from `n` to `n + 1`, the loop runs to its end and the invariant holds at the
exit. -/
theorem forLoop_done {σ : Type} (body : Nat → σ → Run σ) (I : Nat → σ → Prop) :
    ∀ (count start : Nat) (s : σ), I start s →
      (∀ n t, start ≤ n → n < start + count → I n t →
        ∃ t1, body n t = .done t1 ∧ I (n + 1) t1) →
      ∃ s1, forLoop body count start s = .done s1 ∧ I (start + count) s1 := by
  intro count
  induction count with
  | zero => intro start s h0 _; exact ⟨s, rfl, by simpa using h0⟩
  | succ c ih =>
    intro start s h0 hstep
    obtain ⟨t1, hb, h1⟩ := hstep start s (Nat.le_refl _) (by omega) h0
    obtain ⟨s1, hl, hI⟩ := ih (start + 1) t1 h1
      (fun n t hn hlt hI => hstep n t (by omega) (by omega) hI)
    refine ⟨s1, ?_, ?_⟩
    · simp only [forLoop, hb]; exact hl
    · have : start + (c + 1) = start + 1 + c := by omega
      rw [this]; exact hI

/-- Invariant rule for `downLoop`. -/
theorem downLoop_done {σ : Type} (body : Nat → σ → Run σ) (I : Nat → σ → Prop) :
    ∀ (start : Nat) (s : σ), I start s →
      (∀ n t, n < start → I (n + 1) t → ∃ t1, body (n + 1) t = .done t1 ∧ I n t1) →
      ∃ s1, downLoop body start s = .done s1 ∧ I 0 s1 := by
  intro start
  induction start with
  | zero => intro s h0 _; exact ⟨s, rfl, h0⟩
  | succ c ih =>
    intro s h0 hstep
    obtain ⟨t1, hb, h1⟩ := hstep c s (by omega) h0
    obtain ⟨s1, hl, hI⟩ := ih t1 h1 (fun n t hn hI => hstep n t (by omega) hI)
    refine ⟨s1, ?_, hI⟩
    simp only [downLoop, hb]; exact hl

theorem sizeSub_one {a : Nat} (h0 : 0 < a) : sizeSub a 1 = a - 1 := by
  unfold sizeSub; exact if_pos h0

/-! ## Construction -/

theorem Neuron.ctorLoop_length (env : Env R) :
    ∀ (count : Nat) (weights : List (Connection R)) (k : Nat),
      (Neuron.ctorLoop env count weights k).1.length = weights.length + count := by
  intro count
  induction count with
  | zero => intro weights k; simp [Neuron.ctorLoop]
  | succ c ih =>
    intro weights k
    simp only [Neuron.ctorLoop, ih, List.length_append, List.length_singleton]
    omega

theorem Neuron.ctor_index (env : Env R) (k : Nat) (o g : R) (numOutputs myIndex : Nat) :
    (Neuron.ctor env k o g numOutputs myIndex).1.m_myIndex = myIndex := rfl

theorem Neuron.ctor_outputVal (env : Env R) (k : Nat) (o g : R) (numOutputs myIndex : Nat) :
    (Neuron.ctor env k o g numOutputs myIndex).1.m_outputVal = o := rfl

theorem Neuron.ctor_numOutputs (env : Env R) (k : Nat) (o g : R) (numOutputs myIndex : Nat) :
    (Neuron.ctor env k o g numOutputs myIndex).1.m_outputWeights.length = numOutputs := by
  simp [Neuron.ctor, Neuron.ctorLoop_length]



/-- The inner loop of `Net::Net` ends when the size is below `2^32 - 1` and the fuel
suffices, and pushes the neurons `neuronNum .. bound`. -/
theorem Net.ctorNeurons_some (env : Env R) (layerNum numOutputs bound : Nat)
    (hb : bound < 2 ^ 32 - 1) :
    ∀ (fuel neuronNum : Nat) (layer : Layer R) (k : Nat),
      neuronNum ≤ bound + 1 → bound + 2 ≤ fuel + neuronNum →
      ∃ layer1 k1, Net.ctorNeurons env layerNum numOutputs bound fuel neuronNum layer k
          = some (layer1, k1) ∧
        layer1.length = layer.length + (bound + 1 - neuronNum) ∧
        LayerExtends env layerNum numOutputs neuronNum layer layer1 := by
  intro fuel
  induction fuel with
  | zero => intro neuronNum layer k h1 h2; omega
  | succ f ih =>
    intro neuronNum layer k h1 h2
    by_cases hle : neuronNum ≤ bound
    · have hmod : (neuronNum + 1) % 2 ^ 32 = neuronNum + 1 := Nat.mod_eq_of_lt (by omega)
      obtain ⟨layer1, k1, heq, hlen, hpre, hnew⟩ := ih (neuronNum + 1)
        (layer ++ [(Neuron.ctor env k (env.indetOutputVal layerNum neuronNum)
          (env.indetGradient layerNum neuronNum) numOutputs neuronNum).1])
        (Neuron.ctor env k (env.indetOutputVal layerNum neuronNum)
          (env.indetGradient layerNum neuronNum) numOutputs neuronNum).2 (by omega) (by omega)
      refine ⟨layer1, k1, ?_, ?_, ?_, ?_⟩
      · simp only [Net.ctorNeurons, hle, if_true, hmod]; exact heq
      · rw [hlen]; simp only [List.length_append, List.length_singleton]; omega
      · intro p hp
        rw [hpre p (by simp only [List.length_append, List.length_singleton]; omega)]
        exact List.getElem?_append_left hp
      · intro p hp1 hp2
        by_cases hpe : p = layer.length
        · subst hpe
          rw [hpre _ (by simp only [List.length_append, List.length_singleton]; omega)]
          refine ⟨(Neuron.ctor env k (env.indetOutputVal layerNum neuronNum)
            (env.indetGradient layerNum neuronNum) numOutputs neuronNum).1, by simp, ?_, ?_, ?_⟩
          · simp [Neuron.ctor_index]
          · exact Neuron.ctor_numOutputs _ _ _ _ _ _
          · simp [Neuron.ctor_outputVal]
        · obtain ⟨x, hx, hi, hw, ho⟩ := hnew p
            (by simp only [List.length_append, List.length_singleton]; omega) hp2
          simp only [List.length_append, List.length_singleton] at hi ho
          have e : neuronNum + 1 + (p - (layer.length + 1)) = neuronNum + (p - layer.length) := by
            omega
          rw [e] at hi ho
          exact ⟨x, hx, hi, hw, ho⟩
    · have : neuronNum = bound + 1 := by omega
      refine ⟨layer, k, ?_, ?_, ?_, ?_⟩
      · simp only [Net.ctorNeurons, hle, if_false]
      · omega
      · intro p _; rfl
      · intro p hp1 hp2; omega

/-- With `topology[layerNum]` at its largest value `2^32 - 1` the condition
`neuronNum <= topology[layerNum]` holds for every value of the 32-bit counter: the inner
loop of `Net::Net` never ends. -/
theorem Net.ctorNeurons_none (env : Env R) (layerNum numOutputs : Nat) :
    ∀ (fuel neuronNum : Nat) (layer : Layer R) (k : Nat), neuronNum < 2 ^ 32 →
      Net.ctorNeurons env layerNum numOutputs (2 ^ 32 - 1) fuel neuronNum layer k = none := by
  intro fuel
  induction fuel with
  | zero => intro neuronNum layer k _; rfl
  | succ f ih =>
    intro neuronNum layer k h
    have hle : neuronNum ≤ 2 ^ 32 - 1 := by omega
    simp only [Net.ctorNeurons, hle, if_true]
    exact ih _ _ _ (Nat.mod_lt _ (by norm_num))




/-- The outer loop of `Net::Net` on a representable topology, with enough fuel. -/
theorem Net.ctorLayers_some (env : Env R) (topology : List Nat) (fuel : Nat)
    (hrep : Representable topology) (hfuel : ∀ L ∈ topology, L + 2 ≤ fuel) :
    ∀ (count layerNum : Nat) (ls : List (Layer R)) (k : Nat),
      layerNum + count ≤ topology.length →
      ∃ ls1 k1, Net.ctorLayers env topology fuel count layerNum ls k = some (ls1, k1) ∧
        ls1.length = ls.length + count ∧
        (∀ j, j < ls.length → ls1[j]? = ls[j]?) ∧
        ∀ j, j < count → ∃ layer, ls1[ls.length + j]? = some layer ∧
          LayerBuilt env topology (layerNum + j) layer := by
  intro count
  induction count with
  | zero => intro layerNum ls k _; exact ⟨ls, k, rfl, rfl, fun _ _ => rfl, fun j hj => by omega⟩
  | succ c ih =>
    intro layerNum ls k hle
    have hlt : layerNum < topology.length := by omega
    have hmem : topology.getD layerNum 0 ∈ topology := by
      rw [List.getD_eq_getElem _ _ hlt]; exact List.getElem_mem _
    have hb := hrep.2 _ hmem
    have hf := hfuel _ hmem
    have hnum : (if layerNum = sizeSub topology.length 1 then 0
        else topology.getD (layerNum + 1) 0)
        = (if layerNum + 1 < topology.length then topology.getD (layerNum + 1) 0 else 0) := by
      have h64 : topology.length < 2 ^ 64 := by have := hrep.1; omega
      rw [sizeSub_one (by omega)]
      by_cases h : layerNum + 1 < topology.length
      · rw [if_neg (by omega), if_pos h]
      · rw [if_pos (by omega), if_neg h]
    obtain ⟨layer, k1, heq, hlen, _, hnew⟩ := Net.ctorNeurons_some env layerNum
      (if layerNum + 1 < topology.length then topology.getD (layerNum + 1) 0 else 0)
      (topology.getD layerNum 0) hb fuel 0 [] k (by omega) (by omega)
    obtain ⟨ls1, k2, heq2, hlen2, hpre2, hnew2⟩ := ih (layerNum + 1) (ls ++ [layer]) k1 (by omega)
    refine ⟨ls1, k2, ?_, ?_, ?_, ?_⟩
    · simp only [Net.ctorLayers, hnum, heq]; exact heq2
    · rw [hlen2]; simp only [List.length_append, List.length_singleton]; omega
    · intro j hj
      rw [hpre2 j (by simp only [List.length_append, List.length_singleton]; omega)]
      exact List.getElem?_append_left hj
    · intro j hj
      by_cases hj0 : j = 0
      · subst hj0
        refine ⟨layer, ?_, ?_, ?_⟩
        · rw [Nat.add_zero,
            hpre2 _ (by simp only [List.length_append, List.length_singleton]; omega)]
          simp
        · simpa using hlen
        · intro p hp
          obtain ⟨x, hx, hi, hw, ho⟩ := hnew p (by simp) hp
          exact ⟨x, hx, by simpa using hi, by simpa using hw, by simpa using ho⟩
      · obtain ⟨layer2, hl2, hb2⟩ := hnew2 (j - 1) (by omega)
        simp only [List.length_append, List.length_singleton] at hl2
        have e1 : ls.length + 1 + (j - 1) = ls.length + j := by omega
        have e2 : layerNum + 1 + (j - 1) = layerNum + j := by omega
        rw [e1] at hl2; rw [e2] at hb2
        exact ⟨layer2, hl2, hb2⟩

/-- Function `Net::Net` on a representable topology, with enough fuel: a network is built, it has the
shape of the topology, and the output value of every neuron is the indeterminate value it
started with. -/
theorem Net.ctor_some (env : Env R) (topology : List Nat) (fuel : Nat)
    (hrep : Representable topology) (hfuel : ∀ L ∈ topology, L + 2 ≤ fuel) :
    ∃ net, Net.ctor env fuel topology = some net ∧ net.HasShape topology ∧
      (∀ i p x, net.neuron? i p = some x → x.m_outputVal = env.indetOutputVal i p) := by
  have hlen : toUnsigned topology.length = topology.length := Nat.mod_eq_of_lt hrep.1
  obtain ⟨ls1, k1, heq, hl, _, hnew⟩ := Net.ctorLayers_some env topology fuel hrep hfuel
    topology.length 0 [] 0 (by omega)
  simp only [List.length_nil, Nat.zero_add] at hnew hl
  refine ⟨{ m_layers := ls1, m_error := env.indetError,
            m_recentAverageError := env.indetRecentAverageError,
            m_recentAverageSmoothingFactor := env.indetRecentAverageSmoothingFactor },
    by simp only [Net.ctor, hlen, heq], ?_, ?_⟩
  · refine ⟨hl, ?_⟩
    intro i hi
    obtain ⟨layer, hlay, hsz, hn⟩ := hnew i hi
    refine ⟨layer, hlay, hsz, ?_⟩
    intro p hp
    obtain ⟨x, hx, h1, h2, _⟩ := hn p hp
    exact ⟨x, hx, h1, h2⟩
  · intro i p x hx
    simp only [Net.neuron?] at hx
    by_cases hi : i < topology.length
    · obtain ⟨layer, hlay, hsz, hn⟩ := hnew i hi
      rw [hlay] at hx
      simp only at hx
      have hp : p < layer.length := by
        by_contra hc
        rw [List.getElem?_eq_none (by omega)] at hx
        exact Option.noConfusion hx
      obtain ⟨y, hy, _, _, ho⟩ := hn p hp
      rw [hy] at hx
      cases hx
      exact ho
    · have hl2 : ls1.length ≤ i := by omega
      rw [List.getElem?_eq_none hl2] at hx
      exact Option.noConfusion hx


/-! ## Reading and writing neurons -/

theorem zero_lit : (0.0 : R) = 0 := by norm_num

theorem one_lit : (1.0 : R) = 1 := by norm_num

theorem Net.neuron?_eq {net : Net R} {l : Nat} {layer : Layer R} (h : net.m_layers[l]? = some layer)
    (n : Nat) : net.neuron? l n = layer[n]? := by
  simp only [Net.neuron?, h]

theorem Net.neuron?_some {net : Net R} {l n : Nat} {x : Neuron R} (h : net.neuron? l n = some x) :
    ∃ layer, net.m_layers[l]? = some layer ∧ layer[n]? = some x := by
  unfold Net.neuron? at h
  cases hl : net.m_layers[l]? with
  | none => rw [hl] at h; exact Option.noConfusion h
  | some layer => rw [hl] at h; exact ⟨layer, rfl, h⟩

theorem Net.neuron?_congr {a b : Net R} {l : Nat} (h : a.m_layers[l]? = b.m_layers[l]?) (n : Nat) :
    a.neuron? l n = b.neuron? l n := by
  simp only [Net.neuron?, h]

theorem Net.setLayer_length (net : Net R) (l : Nat) (layer : Layer R) :
    (net.setLayer l layer).m_layers.length = net.m_layers.length := by
  simp [Net.setLayer]

theorem Net.setLayer_get_ne (net : Net R) {l k : Nat} (layer : Layer R) (h : l ≠ k) :
    (net.setLayer l layer).m_layers[k]? = net.m_layers[k]? := by
  simp [Net.setLayer, List.getElem?_set_ne h]

theorem Net.setLayer_get_self (net : Net R) {l : Nat} (layer : Layer R)
    (h : l < net.m_layers.length) : (net.setLayer l layer).m_layers[l]? = some layer := by
  simp [Net.setLayer, List.getElem?_set_self h]

theorem Net.setNeuron_eq {net : Net R} {l : Nat} {layer : Layer R}
    (h : net.m_layers[l]? = some layer) (n : Nat) (x : Neuron R) :
    net.setNeuron l n x = net.setLayer l (layer.set n x) := by
  simp only [Net.setNeuron, h]

theorem Net.setNeuron_length (net : Net R) (l n : Nat) (x : Neuron R) :
    (net.setNeuron l n x).m_layers.length = net.m_layers.length := by
  unfold Net.setNeuron
  cases net.m_layers[l]? with
  | none => rfl
  | some layer => exact Net.setLayer_length _ _ _

theorem Net.setNeuron_get_ne (net : Net R) {l k : Nat} (n : Nat) (x : Neuron R) (h : l ≠ k) :
    (net.setNeuron l n x).m_layers[k]? = net.m_layers[k]? := by
  unfold Net.setNeuron
  cases net.m_layers[l]? with
  | none => rfl
  | some layer => exact Net.setLayer_get_ne _ _ h

theorem Net.setNeuron_get_self {net : Net R} {l : Nat} {layer : Layer R}
    (h : net.m_layers[l]? = some layer) (n : Nat) (x : Neuron R) :
    (net.setNeuron l n x).m_layers[l]? = some (layer.set n x) := by
  rw [Net.setNeuron_eq h]
  exact Net.setLayer_get_self _ _ (List.getElem?_eq_some.1 h).1

theorem Net.neuron?_setNeuron_self {net : Net R} {l n : Nat} {x : Neuron R}
    (h : net.neuron? l n = some x) (y : Neuron R) :
    (net.setNeuron l n y).neuron? l n = some y := by
  obtain ⟨layer, hl, hn⟩ := Net.neuron?_some h
  rw [Net.neuron?_eq (Net.setNeuron_get_self hl n y)]
  exact List.getElem?_set_self (List.getElem?_eq_some.1 hn).1

theorem Net.neuron?_setNeuron_ne (net : Net R) {l n k m : Nat} (y : Neuron R)
    (h : l ≠ k ∨ n ≠ m) : (net.setNeuron l n y).neuron? k m = net.neuron? k m := by
  by_cases hlk : l = k
  · subst hlk
    have hnm : n ≠ m := by
      cases h with
      | inl h => exact absurd rfl h
      | inr h => exact h
    cases hl : net.m_layers[l]? with
    | none => simp only [Net.setNeuron, hl]
    | some layer =>
      rw [Net.neuron?_eq (Net.setNeuron_get_self hl n y), Net.neuron?_eq hl]
      exact List.getElem?_set_ne hnm
  · exact Net.neuron?_congr (Net.setNeuron_get_ne net n y hlk) m

/-! ## Projections kept by an assignment -/

theorem map_set_of_eq {α β : Type} (f : α → β) {l : List α} {n : Nat} {x y : α}
    (h : l[n]? = some x) (hf : f y = f x) : (l.set n y).map f = l.map f := by
  apply List.ext_getElem?
  intro i
  simp only [List.getElem?_map, List.getElem?_set]
  by_cases hi : n = i
  · subst hi
    have hlt := (List.getElem?_eq_some.1 h).1
    simp [hlt, h, hf]
  · simp [hi]



theorem Net.proj_setLayer {β : Type} (f : Neuron R → β) {net : Net R} {l : Nat}
    {layer : Layer R} (h : net.m_layers[l]? = some layer) {layer1 : Layer R}
    (hf : layer1.map f = layer.map f) : (net.setLayer l layer1).proj f = net.proj f :=
  map_set_of_eq (List.map f) h hf

theorem Net.proj_setNeuron {β : Type} (f : Neuron R → β) {net : Net R} {l n : Nat}
    {x : Neuron R} (h : net.neuron? l n = some x) {y : Neuron R} (hf : f y = f x) :
    (net.setNeuron l n y).proj f = net.proj f := by
  obtain ⟨layer, hl, hn⟩ := Net.neuron?_some h
  rw [Net.setNeuron_eq hl]
  exact Net.proj_setLayer f hl (map_set_of_eq f hn hf)

theorem Net.proj_length {β : Type} (f : Neuron R → β) {a b : Net R}
    (h : a.proj f = b.proj f) : a.m_layers.length = b.m_layers.length := by
  have := congrArg List.length h
  simpa [Net.proj] using this

theorem Net.proj_layer {β : Type} (f : Neuron R → β) {a b : Net R}
    (h : a.proj f = b.proj f) {l : Nat} {layer : Layer R} (hl : b.m_layers[l]? = some layer) :
    ∃ layer1, a.m_layers[l]? = some layer1 ∧ layer1.map f = layer.map f := by
  have h1 := congrArg (fun ls => ls[l]?) h
  simp only [Net.proj, List.getElem?_map, hl, Option.map_some'] at h1
  cases ha : a.m_layers[l]? with
  | none => rw [ha] at h1; exact Option.noConfusion h1
  | some layer1 =>
    rw [ha] at h1
    exact ⟨layer1, rfl, Option.some.inj h1⟩

theorem Net.proj_neuron {β : Type} (f : Neuron R → β) {a b : Net R}
    (h : a.proj f = b.proj f) {l n : Nat} {x : Neuron R} (hx : b.neuron? l n = some x) :
    ∃ y, a.neuron? l n = some y ∧ f y = f x := by
  obtain ⟨layer, hl, hn⟩ := Net.neuron?_some hx
  obtain ⟨layer1, hl1, hm⟩ := Net.proj_layer f h hl
  have h1 := congrArg (fun ls => ls[n]?) hm
  simp only [List.getElem?_map, hn, Option.map_some'] at h1
  rw [Net.neuron?_eq hl1]
  cases hy : layer1[n]? with
  | none => rw [hy] at h1; exact Option.noConfusion h1
  | some y =>
    rw [hy] at h1
    exact ⟨y, rfl, Option.some.inj h1⟩



theorem Net.HasShape.congr {a b : Net R} {topology : List Nat}
    (h : a.proj Neuron.shape = b.proj Neuron.shape) (hb : b.HasShape topology) :
    a.HasShape topology := by
  refine ⟨(Net.proj_length _ h).trans hb.1, ?_⟩
  intro i hi
  obtain ⟨layer, hl, hsz, hn⟩ := hb.2 i hi
  obtain ⟨layer1, hl1, hm⟩ := Net.proj_layer _ h hl
  have hlen : layer1.length = layer.length := by
    have := congrArg List.length hm
    simpa using this
  refine ⟨layer1, hl1, hlen.trans hsz, ?_⟩
  intro p hp
  obtain ⟨x, hx, h1, h2⟩ := hn p (hlen ▸ hp)
  have hxn : b.neuron? i p = some x := by rw [Net.neuron?_eq hl]; exact hx
  obtain ⟨y, hy, hs⟩ := Net.proj_neuron _ h hxn
  rw [Net.neuron?_eq hl1] at hy
  simp only [Neuron.shape, Prod.mk.injEq] at hs
  exact ⟨y, hy, hs.1.trans h1, hs.2.trans h2⟩

/-! ## Consequences of the shape -/

theorem Net.HasShape.layer {net : Net R} {topology : List Nat} (h : net.HasShape topology)
    {i : Nat} (hi : i < topology.length) :
    ∃ layer, net.m_layers[i]? = some layer ∧ layer.length = topology.getD i 0 + 1 := by
  obtain ⟨layer, hl, hsz, _⟩ := h.2 i hi
  exact ⟨layer, hl, hsz⟩

theorem Net.HasShape.neuron {net : Net R} {topology : List Nat} (h : net.HasShape topology)
    {i p : Nat} (hi : i < topology.length) (hp : p ≤ topology.getD i 0) :
    ∃ x, net.neuron? i p = some x ∧ x.m_myIndex = p ∧
      x.m_outputWeights.length = if i + 1 < topology.length then topology.getD (i + 1) 0 else 0 := by
  obtain ⟨layer, hl, hsz, hn⟩ := h.2 i hi
  obtain ⟨x, hx, h1, h2⟩ := hn p (by omega)
  exact ⟨x, by rw [Net.neuron?_eq hl]; exact hx, h1, h2⟩

theorem Net.HasShape.weights {net : Net R} {topology : List Nat} (h : net.HasShape topology)
    {i : Nat} (hi : i + 1 < topology.length) {layer : Layer R}
    (hl : net.m_layers[i]? = some layer) {p : Nat} {x : Neuron R} (hx : layer[p]? = some x) :
    x.m_outputWeights.length = topology.getD (i + 1) 0 := by
  obtain ⟨layer1, hl1, _, hn⟩ := h.2 i (by omega)
  have e : layer1 = layer := Option.some.inj (hl1.symm.trans hl)
  subst e
  obtain ⟨y, hy, _, h2⟩ := hn p (List.getElem?_eq_some.1 hx).1
  have e2 : y = x := Option.some.inj (hy.symm.trans hx)
  subst e2
  rw [h2, if_pos hi]

theorem Representable.size_lt {topology : List Nat} (h : Representable topology) (i : Nat) :
    topology.getD i 0 < 2 ^ 32 - 1 := by
  by_cases hi : i < topology.length
  · rw [List.getD_eq_getElem _ _ hi]; exact h.2 _ (List.getElem_mem _)
  · rw [List.getD_eq_default _ _ (by omega)]; norm_num

/-- When the number of entries of the topology is `0` as an `unsigned`, `Net::Net` builds a
network without layers. -/
theorem Net.ctor_no_layers (env : Env R) (fuel : Nat) (topology : List Nat)
    (h : toUnsigned topology.length = 0) :
    Net.ctor env fuel topology
      = some { m_layers := [],
               m_error := env.indetError,
               m_recentAverageError := env.indetRecentAverageError,
               m_recentAverageSmoothingFactor := env.indetRecentAverageSmoothingFactor } := by
  simp only [Net.ctor, h, Net.ctorLayers]

/-! ## Forward pass -/

theorem weightedSum_take_succ (prevLayer : Layer R) (j n : Nat) (prev : Neuron R)
    (h : prevLayer[n]? = some prev) :
    weightedSum (prevLayer.take (n + 1)) j
      = weightedSum (prevLayer.take n) j + prev.m_outputVal * prev.weightTo j := by
  simp [weightedSum, List.take_succ, h]

/-- The summation loop of `Neuron::feedForward` runs to its end when every neuron of
`prevLayer` has a connection number `m_myIndex`, and computes the weighted sum. -/
theorem Neuron.feedForwardSum_done (self : Neuron R) (prevLayer : Layer R)
    (h : ∀ (n : Nat) (prev : Neuron R), prevLayer[n]? = some prev →
      self.m_myIndex < prev.m_outputWeights.length) :
    self.feedForwardSum prevLayer = .done (weightedSum prevLayer self.m_myIndex) := by
  obtain ⟨s1, hrun, hI⟩ := forLoop_done
    (fun n sum =>
      match prevLayer[n]? with
      | none => Run.fault Fault.outOfRange sum
      | some prev =>
        match prev.m_outputWeights[self.m_myIndex]? with
        | none => Run.fault Fault.outOfRange sum
        | some conn => Run.done (sum + prev.m_outputVal * conn.weight))
    (fun n sum => sum = weightedSum (prevLayer.take n) self.m_myIndex)
    prevLayer.length 0 (0.0 : R) (by simp [weightedSum, zero_lit])
    (by
      intro n t _ hn hI
      have hn' : n < prevLayer.length := by omega
      have hp : prevLayer[n]? = some prevLayer[n] := List.getElem?_eq_getElem hn'
      have hw := h n _ hp
      have hc : prevLayer[n].m_outputWeights[self.m_myIndex]?
          = some prevLayer[n].m_outputWeights[self.m_myIndex] := List.getElem?_eq_getElem hw
      refine ⟨t + prevLayer[n].m_outputVal * prevLayer[n].m_outputWeights[self.m_myIndex].weight,
        ?_, ?_⟩
      · simp only [hp, hc]
      · show _ = weightedSum (prevLayer.take (n + 1)) self.m_myIndex
        rw [weightedSum_take_succ _ _ _ _ hp, hI]
        simp only [Neuron.weightTo, hc])
  simp only [Nat.zero_add, List.take_length] at hI
  rw [Neuron.feedForwardSum, hrun, hI]

theorem Neuron.feedForward_run (tanh : R → R) (self : Neuron R) (prevLayer : Layer R)
    (h : ∀ (n : Nat) (prev : Neuron R), prevLayer[n]? = some prev →
      self.m_myIndex < prev.m_outputWeights.length) :
    self.feedForward tanh prevLayer
      = .done { self with m_outputVal := tanh (weightedSum prevLayer self.m_myIndex) } := by
  simp only [Neuron.feedForward, Neuron.feedForwardSum_done self prevLayer h,
    Neuron.transferFunction]

theorem Net.proj_of_proj {β γ : Type} (f : Neuron R → β) (g : Neuron R → γ) (h : β → γ)
    (hg : ∀ x, g x = h (f x)) {a b : Net R} (hab : a.proj f = b.proj f) :
    a.proj g = b.proj g := by
  have e : ∀ net : Net R, net.proj g = (net.proj f).map (List.map h) := by
    intro net
    simp only [Net.proj, List.map_map]
    congr 1
    funext layer
    simp only [Function.comp, List.map_map]
    congr 1
    funext x
    exact hg x
  rw [e a, e b, hab]

theorem Net.shape_of_frame {a b : Net R} (h : a.proj Neuron.frame = b.proj Neuron.frame) :
    a.proj Neuron.shape = b.proj Neuron.shape :=
  Net.proj_of_proj Neuron.frame Neuron.shape (fun t => (t.2.1, t.1.length)) (fun _ => rfl) h

/-- One step of the forward propagation on a network with the shape of `topology`. -/
theorem Net.feedForwardNeuron_done (tanh : R → R) {topology : List Nat} {s : Net R}
    (hs : s.HasShape topology) {l n : Nat} (hl1 : 1 ≤ l) (hl : l < topology.length)
    (hn : n < topology.getD l 0) :
    ∃ prevLayer neuron, s.m_layers[l - 1]? = some prevLayer ∧ s.neuron? l n = some neuron ∧
      Net.feedForwardNeuron tanh l n s
        = .done (s.setNeuron l n { neuron with m_outputVal := tanh (weightedSum prevLayer n) }) := by
  obtain ⟨prevLayer, hp, _⟩ := hs.layer (i := l - 1) (by omega)
  obtain ⟨neuron, hx, hidx, _⟩ := hs.neuron hl (Nat.le_of_lt hn)
  refine ⟨prevLayer, neuron, hp, hx, ?_⟩
  have hw : ∀ (m : Nat) (prev : Neuron R), prevLayer[m]? = some prev →
      neuron.m_myIndex < prev.m_outputWeights.length := by
    intro m prev hm
    have := hs.weights (i := l - 1) (by omega) hp hm
    have e : l - 1 + 1 = l := by omega
    rw [e] at this
    omega
  simp only [Net.feedForwardNeuron, hp, hx, Neuron.feedForward_run tanh neuron prevLayer hw,
    Run.lift, hidx]

/-- The inner loop of the forward propagation, for one layer `l >= 1`. -/
theorem Net.feedForwardLayer_done (tanh : R → R) {topology : List Nat}
    (hrep : Representable topology) {s : Net R} (hs : s.HasShape topology) {l : Nat}
    (hl1 : 1 ≤ l) (hl : l < topology.length) :
    ∃ s1, Net.feedForwardLayer tanh l s = .done s1 ∧
      s1.proj Neuron.frame = s.proj Neuron.frame ∧
      (∀ k, k ≠ l → s1.m_layers[k]? = s.m_layers[k]?) ∧
      (∀ j, topology.getD l 0 ≤ j → s1.neuron? l j = s.neuron? l j) ∧
      ∀ j, j < topology.getD l 0 → s1.OutputIsActivation tanh l j := by
  obtain ⟨prevLayer, hp, _⟩ := hs.layer (i := l - 1) (by omega)
  obtain ⟨layer, hlay, hsz⟩ := hs.layer hl
  have hcount : sizeSub layer.length 1 = topology.getD l 0 := by
    have := hrep.size_lt l
    rw [sizeSub_one (by omega), hsz]; rfl
  obtain ⟨s1, hrun, hI⟩ := forLoop_done (Net.feedForwardNeuron tanh l)
    (fun n t => t.proj Neuron.frame = s.proj Neuron.frame ∧
      (∀ k, k ≠ l → t.m_layers[k]? = s.m_layers[k]?) ∧
      (∀ j, n ≤ j → t.neuron? l j = s.neuron? l j) ∧
      ∀ j, j < n → t.OutputIsActivation tanh l j)
    (topology.getD l 0) 0 s
    ⟨rfl, fun _ _ => rfl, fun _ _ => rfl, fun j hj => absurd hj (Nat.not_lt_zero j)⟩
    (by
      intro n t _ hn hI
      obtain ⟨hfr, hoth, hrest, hact⟩ := hI
      have ht : t.HasShape topology := Net.HasShape.congr (Net.shape_of_frame hfr) hs
      obtain ⟨prev, neuron, hprev, hneu, hstep⟩ :=
        Net.feedForwardNeuron_done tanh ht hl1 hl (n := n) (by omega)
      refine ⟨_, hstep, ?_, ?_, ?_, ?_⟩
      · refine Eq.trans ?_ hfr
        apply Net.proj_setNeuron Neuron.frame hneu
        rfl
      · intro k hk
        rw [Net.setNeuron_get_ne t n _ (Ne.symm hk)]; exact hoth k hk
      · intro j hj
        rw [Net.neuron?_setNeuron_ne t _ (Or.inr (by omega))]
        exact hrest j (by omega)
      · intro j hj
        have hprev1 : (t.setNeuron l n
            { neuron with m_outputVal := tanh (weightedSum prev n) }).m_layers[l - 1]?
            = some prev := by
          rw [Net.setNeuron_get_ne t n _ (by omega)]; exact hprev
        by_cases hjn : j = n
        · subst hjn
          exact ⟨prev, _, hprev1, Net.neuron?_setNeuron_self hneu _, rfl⟩
        · obtain ⟨prev0, x, h1, h2, h3⟩ := hact j (by omega)
          have e : prev0 = prev := Option.some.inj (h1.symm.trans hprev)
          subst e
          refine ⟨prev0, x, hprev1, ?_, h3⟩
          rw [Net.neuron?_setNeuron_ne t _ (Or.inr (Ne.symm hjn))]; exact h2)
  refine ⟨s1, ?_, ?_⟩
  · simp only [Net.feedForwardLayer, hp, hlay, hcount]; exact hrun
  · simpa using hI

/-- The first loop of `Net::feedForward`, on an input vector as long as the first entry of
the topology. -/
theorem Net.feedForwardInput_done {topology : List Nat} {s : Net R}
    (hs : s.HasShape topology) (h0 : 0 < topology.length) (inputVals : List R)
    (hin : inputVals.length = topology.getD 0 0) :
    ∃ s1, forLoop (Net.feedForwardInput inputVals) inputVals.length 0 s = .done s1 ∧
      s1.proj Neuron.frame = s.proj Neuron.frame ∧
      (∀ k, k ≠ 0 → s1.m_layers[k]? = s.m_layers[k]?) ∧
      (∀ i, inputVals.length ≤ i → s1.neuron? 0 i = s.neuron? 0 i) ∧
      ∀ i, i < inputVals.length →
        ∃ x, s1.neuron? 0 i = some x ∧ inputVals[i]? = some x.m_outputVal := by
  obtain ⟨s1, hrun, hI⟩ := forLoop_done (Net.feedForwardInput inputVals)
    (fun n t => t.proj Neuron.frame = s.proj Neuron.frame ∧
      (∀ k, k ≠ 0 → t.m_layers[k]? = s.m_layers[k]?) ∧
      (∀ i, n ≤ i → t.neuron? 0 i = s.neuron? 0 i) ∧
      ∀ i, i < n → ∃ x, t.neuron? 0 i = some x ∧ inputVals[i]? = some x.m_outputVal)
    inputVals.length 0 s
    ⟨rfl, fun _ _ => rfl, fun _ _ => rfl, fun j hj => absurd hj (Nat.not_lt_zero j)⟩
    (by
      intro n t _ hn hI
      obtain ⟨hfr, hoth, hrest, hset⟩ := hI
      have ht : t.HasShape topology := Net.HasShape.congr (Net.shape_of_frame hfr) hs
      obtain ⟨neuron, hneu, _, _⟩ := ht.neuron (p := n) h0 (by omega)
      have hv : inputVals[n]? = some inputVals[n] := List.getElem?_eq_getElem (by omega)
      refine ⟨t.setNeuron 0 n { neuron with m_outputVal := inputVals[n] }, ?_, ?_, ?_, ?_, ?_⟩
      · simp only [Net.feedForwardInput, hv, hneu]
      · refine Eq.trans ?_ hfr
        apply Net.proj_setNeuron Neuron.frame hneu
        rfl
      · intro k hk
        rw [Net.setNeuron_get_ne t n _ (Ne.symm hk)]; exact hoth k hk
      · intro i hi
        rw [Net.neuron?_setNeuron_ne t _ (Or.inr (by omega))]
        exact hrest i (by omega)
      · intro i hi
        by_cases hin : i = n
        · subst hin
          exact ⟨_, Net.neuron?_setNeuron_self hneu _, hv⟩
        · obtain ⟨x, h1, h2⟩ := hset i (by omega)
          refine ⟨x, ?_, h2⟩
          rw [Net.neuron?_setNeuron_ne t _ (Or.inr (Ne.symm hin))]; exact h1)
  exact ⟨s1, hrun, by simpa using hI⟩

/-- The forward propagation loop of `Net::feedForward`. -/
theorem Net.feedForwardLayers_done (tanh : R → R) {topology : List Nat}
    (hrep : Representable topology) {s : Net R} (hs : s.HasShape topology)
    (h0 : 0 < topology.length) :
    ∃ s1, forLoop (Net.feedForwardLayer tanh) (s.m_layers.length - 1) 1 s = .done s1 ∧
      s1.proj Neuron.frame = s.proj Neuron.frame ∧
      s1.m_layers[0]? = s.m_layers[0]? ∧
      (∀ l, l < topology.length → s1.neuron? l (topology.getD l 0) = s.neuron? l (topology.getD l 0)) ∧
      ∀ l, 1 ≤ l → l < topology.length → ∀ j, j < topology.getD l 0 →
        s1.OutputIsActivation tanh l j := by
  obtain ⟨s1, hrun, hI⟩ := forLoop_done (Net.feedForwardLayer tanh)
    (fun l t => t.proj Neuron.frame = s.proj Neuron.frame ∧
      t.m_layers[0]? = s.m_layers[0]? ∧
      (∀ k, l ≤ k → t.m_layers[k]? = s.m_layers[k]?) ∧
      (∀ k, k < topology.length →
        t.neuron? k (topology.getD k 0) = s.neuron? k (topology.getD k 0)) ∧
      ∀ k, 1 ≤ k → k < l → ∀ j, j < topology.getD k 0 → t.OutputIsActivation tanh k j)
    (s.m_layers.length - 1) 1 s
    ⟨rfl, rfl, fun _ _ => rfl, fun _ _ => rfl, fun k h1 h2 => by omega⟩
    (by
      intro l t hl1 hl hI
      obtain ⟨hfr, hz, hlater, hbias, hact⟩ := hI
      have hlt : l < topology.length := by have := hs.1; omega
      have ht : t.HasShape topology := Net.HasShape.congr (Net.shape_of_frame hfr) hs
      obtain ⟨t1, hstep, hfr1, hoth, hrest, hnew⟩ :=
        Net.feedForwardLayer_done tanh hrep ht hl1 hlt
      refine ⟨t1, hstep, hfr1.trans hfr, ?_, ?_, ?_, ?_⟩
      · rw [hoth 0 (by omega)]; exact hz
      · intro k hk
        rw [hoth k (by omega)]; exact hlater k (by omega)
      · intro k hk
        by_cases hkl : k = l
        · subst hkl
          rw [hrest _ (Nat.le_refl _)]; exact hbias k hk
        · rw [Net.neuron?_congr (hoth k hkl)]; exact hbias k hk
      · intro k hk1 hk j hj
        by_cases hkl : k = l
        · subst hkl
          exact hnew j hj
        · obtain ⟨prev, x, h1, h2, h3⟩ := hact k hk1 (by omega) j hj
          refine ⟨prev, x, ?_, ?_, h3⟩
          · rw [hoth (k - 1) (by omega)]; exact h1
          · rw [Net.neuron?_congr (hoth k hkl)]; exact h2)
  obtain ⟨hfr, hz, _, hbias, hact⟩ := hI
  have e : 1 + (s.m_layers.length - 1) = topology.length := by have := hs.1; omega
  rw [e] at hact
  exact ⟨s1, hrun, hfr, hz, hbias, hact⟩

/-- Function `Net::feedForward` on a well-formed network and an input vector of the length of the
first entry of the topology: the run ends, only output values change, the outputs of the
input layer are the inputs, the last neuron of every layer keeps its output, and every
other neuron of the layers `l >= 1` holds the activation of its weighted sum. -/
theorem Net.feedForward_done (tanh : R → R) {topology : List Nat} {net : Net R}
    (hwf : net.WellFormed topology) (inputVals : List R)
    (hin : inputVals.length = topology.getD 0 0) :
    ∃ net1, net.feedForward tanh inputVals = .done net1 ∧
      net1.proj Neuron.frame = net.proj Neuron.frame ∧
      (∀ i, i < inputVals.length →
        ∃ x, net1.neuron? 0 i = some x ∧ inputVals[i]? = some x.m_outputVal) ∧
      (∀ l, l < topology.length →
        net1.neuron? l (topology.getD l 0) = net.neuron? l (topology.getD l 0)) ∧
      ∀ l, 1 ≤ l → l < topology.length → ∀ j, j < topology.getD l 0 →
        net1.OutputIsActivation tanh l j := by
  obtain ⟨hne, hrep, hs⟩ := hwf
  have h0 : 0 < topology.length := List.length_pos.2 hne
  obtain ⟨layer0, hl0, hsz0⟩ := hs.layer h0
  have hassert : inputVals.length = sizeSub layer0.length 1 := by
    have := hrep.size_lt 0
    rw [sizeSub_one (by omega), hsz0, hin]; rfl
  obtain ⟨s1, hrun1, hfr1, hoth1, hrest1, hset1⟩ := Net.feedForwardInput_done hs h0 inputVals hin
  have hs1 : s1.HasShape topology := Net.HasShape.congr (Net.shape_of_frame hfr1) hs
  obtain ⟨s2, hrun2, hfr2, hz2, hbias2, hact2⟩ := Net.feedForwardLayers_done tanh hrep hs1 h0
  refine ⟨s2, ?_, hfr2.trans hfr1, ?_, ?_, hact2⟩
  · unfold Net.feedForward
    simp only [hl0]
    rw [if_neg (not_not.2 hassert), hrun1]
    exact hrun2
  · intro i hi
    obtain ⟨x, h1, h2⟩ := hset1 i hi
    exact ⟨x, by rw [Net.neuron?_congr hz2]; exact h1, h2⟩
  · intro l hl
    rw [hbias2 l hl]
    by_cases hl0' : l = 0
    · subst hl0'
      exact hrest1 _ (by omega)
    · exact Net.neuron?_congr (hoth1 l hl0') _

/-! ## Weight update -/

/-- Function `Neuron::updateInputWeights` runs to its end when every neuron of `prevLayer` has a
connection number `m_myIndex`, and updates that connection of each of them. -/
theorem Neuron.updateInputWeights_done (self : Neuron R) (prevLayer : Layer R)
    (h : ∀ (n : Nat) (x : Neuron R), prevLayer[n]? = some x →
      self.m_myIndex < x.m_outputWeights.length) :
    self.updateInputWeights prevLayer = .done (prevLayer.map self.updatedBy) := by
  obtain ⟨s1, hrun, hlen, hI⟩ := forLoop_done
    (fun n (prevLayer : Layer R) =>
      match prevLayer[n]? with
      | none => Run.fault Fault.outOfRange prevLayer
      | some neuron =>
        match neuron.m_outputWeights[self.m_myIndex]? with
        | none => Run.fault Fault.outOfRange prevLayer
        | some conn =>
          let oldDeltaWeight := conn.deltaWeight
          let newDeltaWeight :=
            Neuron.eta * neuron.m_outputVal * self.m_gradient + Neuron.alpha * oldDeltaWeight
          Run.done (prevLayer.set n { neuron with
            m_outputWeights := neuron.m_outputWeights.set self.m_myIndex
              { weight := conn.weight + newDeltaWeight, deltaWeight := newDeltaWeight } }))
    (fun n t => t.length = prevLayer.length ∧
      ∀ k, t[k]? = if k < n then (prevLayer[k]?).map self.updatedBy else prevLayer[k]?)
    prevLayer.length 0 prevLayer ⟨rfl, fun k => by simp⟩
    (by
      intro n t _ hn hI
      obtain ⟨hlen, hget⟩ := hI
      have hn' : n < prevLayer.length := by omega
      have hp : prevLayer[n]? = some prevLayer[n] := List.getElem?_eq_getElem hn'
      have htn : t[n]? = some prevLayer[n] := by rw [hget n, if_neg (Nat.lt_irrefl n), hp]
      have hw := h n _ hp
      have hc : prevLayer[n].m_outputWeights[self.m_myIndex]?
          = some prevLayer[n].m_outputWeights[self.m_myIndex] := List.getElem?_eq_getElem hw
      refine ⟨t.set n (self.updatedBy prevLayer[n]), ?_, ?_, ?_⟩
      · simp only [htn, hc, Neuron.updatedBy]
      · simp [hlen]
      · intro k
        rw [List.getElem?_set]
        by_cases hk : n = k
        · subst hk
          simp [hlen, hn', hp]
        · rw [if_neg hk, hget k]
          by_cases hkn : k < n
          · rw [if_pos hkn, if_pos (by omega)]
          · rw [if_neg hkn, if_neg (by omega)])
  have : s1 = prevLayer.map self.updatedBy := by
    apply List.ext_getElem?
    intro k
    rw [hI k, List.getElem?_map]
    by_cases hk : k < 0 + prevLayer.length
    · rw [if_pos hk]
    · rw [if_neg hk, List.getElem?_eq_none (by omega)]; rfl
  rw [Neuron.updateInputWeights, hrun, this]

theorem Neuron.updatedBy_outShape (self x : Neuron R) :
    (self.updatedBy x).outShape = x.outShape := by
  unfold Neuron.updatedBy
  cases x.m_outputWeights[self.m_myIndex]? with
  | none => rfl
  | some conn => simp [Neuron.outShape]

theorem Neuron.updatedBy_gradient (self x : Neuron R) :
    (self.updatedBy x).m_gradient = x.m_gradient := by
  unfold Neuron.updatedBy
  cases x.m_outputWeights[self.m_myIndex]? with
  | none => rfl
  | some conn => rfl

/-- The connections of `updatedBy`: the connection number `m_myIndex` is updated, the
others are kept. -/
theorem Neuron.updatedBy_weights (self x : Neuron R) (conn : Connection R)
    (h : x.m_outputWeights[self.m_myIndex]? = some conn) (k : Nat) :
    (self.updatedBy x).m_outputWeights[k]? =
      if k = self.m_myIndex then
        some { weight := conn.weight +
                (Neuron.eta * x.m_outputVal * self.m_gradient + Neuron.alpha * conn.deltaWeight),
               deltaWeight :=
                Neuron.eta * x.m_outputVal * self.m_gradient + Neuron.alpha * conn.deltaWeight }
      else x.m_outputWeights[k]? := by
  have hlt := (List.getElem?_eq_some.1 h).1
  simp only [Neuron.updatedBy, h, List.getElem?_set]
  by_cases hk : k = self.m_myIndex
  · subst hk; simp [hlt]
  · rw [if_neg (Ne.symm hk), if_neg hk]

/-! ## Results -/

theorem Net.HasShape.back {net : Net R} {topology : List Nat} (h : net.HasShape topology)
    (h0 : 0 < topology.length) :
    ∃ back, net.m_layers.getLast? = some back ∧
      net.m_layers[topology.length - 1]? = some back ∧
      back.length = lastSize topology + 1 := by
  obtain ⟨back, hb, hsz⟩ := h.layer (i := topology.length - 1) (by omega)
  refine ⟨back, ?_, hb, hsz⟩
  rw [List.getLast?_eq_getElem?, h.1]; exact hb

theorem lastSize_lt {topology : List Nat} (h : Representable topology) :
    lastSize topology < 2 ^ 32 - 1 := by
  unfold lastSize; exact h.size_lt _

/-- Function `Net::getResults` on a well-formed network: the run ends and `resultVals` holds the
outputs of the first `topology[last]` neurons of the last layer. -/
theorem Net.getResults_done {topology : List Nat} {net : Net R}
    (hwf : net.WellFormed topology) (resultVals : List R) :
    ∃ back, net.m_layers[topology.length - 1]? = some back ∧
      net.getResults resultVals
        = .done ((back.take (lastSize topology)).map fun x => x.m_outputVal) := by
  obtain ⟨hne, hrep, hs⟩ := hwf
  have h0 : 0 < topology.length := List.length_pos.2 hne
  obtain ⟨back, hlast, hb, hsz⟩ := hs.back h0
  have hcount : sizeSub back.length 1 = lastSize topology := by
    have := lastSize_lt hrep
    rw [sizeSub_one (by omega), hsz]; rfl
  obtain ⟨s1, hrun, hI⟩ := forLoop_done
    (fun n (resultVals : List R) =>
      match back[n]? with
      | none => Run.fault Fault.outOfRange resultVals
      | some neuron => Run.done (resultVals ++ [neuron.m_outputVal]))
    (fun n t => t = (back.take n).map fun x => x.m_outputVal)
    (lastSize topology) 0 [] (by simp)
    (by
      intro n t _ hn hI
      have hn' : n < back.length := by omega
      have hp : back[n]? = some back[n] := List.getElem?_eq_getElem hn'
      refine ⟨t ++ [back[n].m_outputVal], by simp only [hp], ?_⟩
      show t ++ [back[n].m_outputVal] = (back.take (n + 1)).map fun x => x.m_outputVal
      rw [hI, List.take_succ, hp]
      simp only [Option.toList, List.map_append, List.map_cons, List.map_nil])
  refine ⟨back, hb, ?_⟩
  simp only [Nat.zero_add] at hI
  simp only [Net.getResults, hlast, hcount, hrun, hI]

/-! ## Backward pass -/

theorem Run.state_lift {α β : Type} (r : Run α) (g : α → β) : (r.lift g).state = g r.state := by
  cases r <;> rfl

/-- A property kept by every iteration, however it ends, holds in the state in which
`forLoop` ends. -/
theorem forLoop_state {σ : Type} (body : Nat → σ → Run σ) (P : σ → Prop)
    (h : ∀ n s, P s → P (body n s).state) :
    ∀ (count start : Nat) (s : σ), P s → P (forLoop body count start s).state := by
  intro count
  induction count with
  | zero => intro start s hs; exact hs
  | succ c ih =>
    intro start s hs
    have hb := h start s hs
    simp only [forLoop]
    cases hr : body start s with
    | done s1 => rw [hr] at hb; exact ih (start + 1) s1 hb
    | fault f s1 => rw [hr] at hb; exact hb

/-- A property kept by every iteration, however it ends, holds in the state in which
`downLoop` ends. -/
theorem downLoop_state {σ : Type} (body : Nat → σ → Run σ) (P : σ → Prop)
    (h : ∀ n s, P s → P (body n s).state) :
    ∀ (start : Nat) (s : σ), P s → P (downLoop body start s).state := by
  intro start
  induction start with
  | zero => intro s hs; exact hs
  | succ c ih =>
    intro s hs
    have hb := h (c + 1) s hs
    simp only [downLoop]
    cases hr : body (c + 1) s with
    | done s1 => rw [hr] at hb; exact ih s1 hb
    | fault f s1 => rw [hr] at hb; exact hb

theorem Net.setLayer_error (net : Net R) (l : Nat) (layer : Layer R) :
    (net.setLayer l layer).m_error = net.m_error := rfl

theorem Net.setNeuron_error (net : Net R) (l n : Nat) (x : Neuron R) :
    (net.setNeuron l n x).m_error = net.m_error := by
  unfold Net.setNeuron
  cases net.m_layers[l]? <;> rfl

/-- The loops of `Net::backProp` that follow the computation of the error do not assign
`m_error`, however they end. -/
theorem Net.backPropOutput_error (targetVals : List R) (last : Nat) (e : R) :
    ∀ n (s : Net R), s.m_error = e → (Net.backPropOutput targetVals last n s).state.m_error = e := by
  intro n s hs
  unfold Net.backPropOutput
  cases targetVals[n]? with
  | none => exact hs
  | some t =>
    cases s.neuron? last n with
    | none => exact hs
    | some x => simp only [Run.state, Net.setNeuron_error]; exact hs

theorem Net.backPropHiddenLayer_error (e : R) :
    ∀ n (s : Net R), s.m_error = e → (Net.backPropHiddenLayer n s).state.m_error = e := by
  intro l s hs
  unfold Net.backPropHiddenLayer
  cases s.m_layers[l]? with
  | none => exact hs
  | some hiddenLayer =>
    cases s.m_layers[toUnsigned (l + 1)]? with
    | none => exact hs
    | some nextLayer =>
      refine forLoop_state _ (fun (t : Net R) => t.m_error = e) ?_ _ _ _ hs
      intro n t ht
      show (Net.backPropHiddenNeuron l n t).state.m_error = e
      unfold Net.backPropHiddenNeuron
      cases t.neuron? l n with
      | none => exact ht
      | some x =>
        cases t.m_layers[toUnsigned (l + 1)]? with
        | none => exact ht
        | some nl => simp only [Run.state_lift, Net.setNeuron_error]; exact ht

theorem Net.backPropUpdateLayer_error (e : R) :
    ∀ n (s : Net R), s.m_error = e → (Net.backPropUpdateLayer n s).state.m_error = e := by
  intro l s hs
  unfold Net.backPropUpdateLayer
  cases s.m_layers[l]? with
  | none => exact hs
  | some layer =>
    cases s.m_layers[l - 1]? with
    | none => exact hs
    | some prevLayer =>
      refine forLoop_state _ (fun (t : Net R) => t.m_error = e) ?_ _ _ _ hs
      intro n t ht
      show (Net.backPropUpdateNeuron l n t).state.m_error = e
      unfold Net.backPropUpdateNeuron
      cases t.neuron? l n with
      | none => exact ht
      | some x =>
        cases t.m_layers[l - 1]? with
        | none => exact ht
        | some nl => simp only [Run.state_lift, Net.setLayer_error]; exact ht

/-- The error loop of `Net::backProp` on a well-formed network and a target vector with at
least `topology[last]` entries: it ends with the sum of the squared differences in
`m_error`, and nothing else changed. -/
theorem Net.backPropError_done {topology : List Nat} {net : Net R}
    (hs : net.HasShape topology) (h0 : 0 < topology.length) (targetVals : List R)
    (hlen : lastSize topology ≤ targetVals.length) :
    forLoop (Net.backPropError targetVals (topology.length - 1)) (lastSize topology) 0
        { net with m_error := 0.0 }
      = .done { net with
          m_error := ∑ n in Finset.range (lastSize topology),
            (targetVals.getD n 0 - net.outputVal (topology.length - 1) n)
              * (targetVals.getD n 0 - net.outputVal (topology.length - 1) n) } := by
  obtain ⟨s1, hrun, hI⟩ := forLoop_done
    (Net.backPropError targetVals (topology.length - 1))
    (fun n t => t = { net with
      m_error := ∑ k in Finset.range n,
        (targetVals.getD k 0 - net.outputVal (topology.length - 1) k)
          * (targetVals.getD k 0 - net.outputVal (topology.length - 1) k) })
    (lastSize topology) 0 { net with m_error := 0.0 } (by simp [zero_lit])
    (by
      intro n t _ hn hI
      obtain ⟨x, hx, _, _⟩ := hs.neuron (i := topology.length - 1) (p := n) (by omega)
        (by unfold lastSize at hn; omega)
      have hv : targetVals[n]? = some (targetVals.getD n 0) := by
        rw [List.getD_eq_getElem _ _ (by omega)]; exact List.getElem?_eq_getElem (by omega)
      have hx' : t.neuron? (topology.length - 1) n = some x := by rw [hI]; exact hx
      refine ⟨{ t with m_error := t.m_error
          + (targetVals.getD n 0 - x.m_outputVal) * (targetVals.getD n 0 - x.m_outputVal) },
        by simp only [Net.backPropError, hv, hx'], ?_⟩
      show _ = _
      rw [hI, Finset.sum_range_succ]
      simp only [Net.outputVal, hx])
  simp only [Nat.zero_add] at hI
  rw [hrun, hI]

theorem Net.shape_of_outShape {a b : Net R}
    (h : a.proj Neuron.outShape = b.proj Neuron.outShape) :
    a.proj Neuron.shape = b.proj Neuron.shape :=
  Net.proj_of_proj Neuron.outShape Neuron.shape (fun t => (t.2.1, t.2.2)) (fun _ => rfl) h

/-- The loop of the output gradients on a network with the shape of `topology` and a target
vector with at least `topology[last]` entries. -/
theorem Net.backPropOutput_done {topology : List Nat} {s : Net R}
    (hs : s.HasShape topology) (h0 : 0 < topology.length) (targetVals : List R)
    (hlen : lastSize topology ≤ targetVals.length) :
    ∃ s1, forLoop (Net.backPropOutput targetVals (topology.length - 1)) (lastSize topology) 0 s
        = .done s1 ∧
      s1.proj Neuron.outShape = s.proj Neuron.outShape ∧
      (∀ k, k ≠ topology.length - 1 → s1.m_layers[k]? = s.m_layers[k]?) ∧
      (∀ n, lastSize topology ≤ n →
        s1.neuron? (topology.length - 1) n = s.neuron? (topology.length - 1) n) ∧
      ∀ n, n < lastSize topology → ∃ x, s.neuron? (topology.length - 1) n = some x ∧
        s1.neuron? (topology.length - 1) n
          = some (x.calcOutputGradients (targetVals.getD n 0)) := by
  obtain ⟨s1, hrun, hI⟩ := forLoop_done (Net.backPropOutput targetVals (topology.length - 1))
    (fun n t => t.proj Neuron.outShape = s.proj Neuron.outShape ∧
      (∀ k, k ≠ topology.length - 1 → t.m_layers[k]? = s.m_layers[k]?) ∧
      (∀ i, n ≤ i → t.neuron? (topology.length - 1) i = s.neuron? (topology.length - 1) i) ∧
      ∀ i, i < n → ∃ x, s.neuron? (topology.length - 1) i = some x ∧
        t.neuron? (topology.length - 1) i = some (x.calcOutputGradients (targetVals.getD i 0)))
    (lastSize topology) 0 s
    ⟨rfl, fun _ _ => rfl, fun _ _ => rfl, fun j hj => absurd hj (Nat.not_lt_zero j)⟩
    (by
      intro n t _ hn hI
      obtain ⟨hfr, hoth, hrest, hset⟩ := hI
      have ht : t.HasShape topology := Net.HasShape.congr (Net.shape_of_outShape hfr) hs
      obtain ⟨x, hx, _, _⟩ := ht.neuron (i := topology.length - 1) (p := n) (by omega)
        (by unfold lastSize at hn; omega)
      have hxs : s.neuron? (topology.length - 1) n = some x := by
        rw [← hrest n (Nat.le_refl n)]; exact hx
      have hv : targetVals[n]? = some (targetVals.getD n 0) := by
        rw [List.getD_eq_getElem _ _ (by omega)]; exact List.getElem?_eq_getElem (by omega)
      refine ⟨t.setNeuron (topology.length - 1) n (x.calcOutputGradients (targetVals.getD n 0)),
        ?_, ?_, ?_, ?_, ?_⟩
      · simp only [Net.backPropOutput, hv, hx]
      · refine Eq.trans ?_ hfr
        apply Net.proj_setNeuron Neuron.outShape hx
        rfl
      · intro k hk
        rw [Net.setNeuron_get_ne t n _ (Ne.symm hk)]; exact hoth k hk
      · intro i hi
        rw [Net.neuron?_setNeuron_ne t _ (Or.inr (by omega))]
        exact hrest i (by omega)
      · intro i hi
        by_cases hin : i = n
        · subst hin
          exact ⟨x, hxs, Net.neuron?_setNeuron_self hx _⟩
        · obtain ⟨y, h1, h2⟩ := hset i (by omega)
          refine ⟨y, h1, ?_⟩
          rw [Net.neuron?_setNeuron_ne t _ (Or.inr (Ne.symm hin))]; exact h2)
  exact ⟨s1, hrun, by simpa using hI⟩

/-- Function `Neuron::sumDOW` runs to its end when the neuron has a connection for each of the first
`m` neurons of a next layer of `m + 1` neurons, and sums over these `m` neurons only. -/
theorem Neuron.sumDOW_done (self : Neuron R) (nextLayer : Layer R) (m : Nat)
    (hm : nextLayer.length = m + 1) (hw : m ≤ self.m_outputWeights.length) :
    self.sumDOW nextLayer
      = .done (∑ n in Finset.range m, self.weightTo n * gradientAt nextLayer n) := by
  have hcount : sizeSub nextLayer.length 1 = m := by
    rw [sizeSub_one (by omega), hm]; rfl
  obtain ⟨s1, hrun, hI⟩ := forLoop_done
    (fun n (sum : R) =>
      match self.m_outputWeights[n]?, nextLayer[n]? with
      | some conn, some next => Run.done (sum + conn.weight * next.m_gradient)
      | _, _ => Run.fault Fault.outOfRange sum)
    (fun n sum => sum = ∑ k in Finset.range n, self.weightTo k * gradientAt nextLayer k)
    m 0 (0.0 : R) (by simp [zero_lit])
    (by
      intro n t _ hn hI
      have hn1 : n < self.m_outputWeights.length := by omega
      have hn2 : n < nextLayer.length := by omega
      have hc : self.m_outputWeights[n]? = some self.m_outputWeights[n] :=
        List.getElem?_eq_getElem hn1
      have hx : nextLayer[n]? = some nextLayer[n] := List.getElem?_eq_getElem hn2
      refine ⟨t + self.m_outputWeights[n].weight * nextLayer[n].m_gradient, ?_, ?_⟩
      · simp only [hc, hx]
      · show _ = _
        rw [Finset.sum_range_succ, hI]
        simp only [Neuron.weightTo, gradientAt, hc, hx])
  simp only [Nat.zero_add] at hI
  rw [Neuron.sumDOW, hcount, hrun, hI]

/-- One step of the loop of the hidden gradients, for a layer `l` that has a next layer. -/
theorem Net.backPropHiddenNeuron_done {topology : List Nat} (hrep : Representable topology)
    {s : Net R} (hs : s.HasShape topology) {l n : Nat} (hl : l + 1 < topology.length)
    (hn : n ≤ topology.getD l 0) :
    ∃ neuron nextLayer, s.neuron? l n = some neuron ∧ s.m_layers[l + 1]? = some nextLayer ∧
      Net.backPropHiddenNeuron l n s
        = .done (s.setNeuron l n { neuron with
            m_gradient := (∑ k in Finset.range (topology.getD (l + 1) 0),
              neuron.weightTo k * gradientAt nextLayer k)
              * Neuron.transferFunctionDerivative neuron.m_outputVal }) := by
  obtain ⟨neuron, hx, _, hw⟩ := hs.neuron (i := l) (p := n) (by omega) hn
  obtain ⟨nextLayer, hnl, hsz⟩ := hs.layer hl
  rw [if_pos hl] at hw
  have hu : toUnsigned (l + 1) = l + 1 := Nat.mod_eq_of_lt (by have := hrep.1; omega)
  have hsum := Neuron.sumDOW_done neuron nextLayer (topology.getD (l + 1) 0) hsz (by omega)
  refine ⟨neuron, nextLayer, hx, hnl, ?_⟩
  simp only [Net.backPropHiddenNeuron, hx, hu, hnl, Neuron.calcHiddenGradients, hsum, Run.lift]

/-- The inner loop of the hidden gradients, for a layer `l` that has a next layer: only
gradients of layer `l` change. -/
theorem Net.backPropHiddenLayer_done {topology : List Nat} (hrep : Representable topology)
    {s : Net R} (hs : s.HasShape topology) {l : Nat} (hl : l + 1 < topology.length) :
    ∃ s1, Net.backPropHiddenLayer l s = .done s1 ∧
      s1.proj Neuron.outShape = s.proj Neuron.outShape ∧
      (∀ k, k ≠ l → s1.m_layers[k]? = s.m_layers[k]?) := by
  obtain ⟨layer, hlay, hsz⟩ := hs.layer (i := l) (by omega)
  obtain ⟨nextLayer, hnl, _⟩ := hs.layer hl
  have hu : toUnsigned (l + 1) = l + 1 := Nat.mod_eq_of_lt (by have := hrep.1; omega)
  obtain ⟨s1, hrun, hI⟩ := forLoop_done (Net.backPropHiddenNeuron l)
    (fun _ t => t.proj Neuron.outShape = s.proj Neuron.outShape ∧
      (∀ k, k ≠ l → t.m_layers[k]? = s.m_layers[k]?))
    layer.length 0 s ⟨rfl, fun _ _ => rfl⟩
    (by
      intro n t _ hn hI
      obtain ⟨hfr, hoth⟩ := hI
      have ht : t.HasShape topology := Net.HasShape.congr (Net.shape_of_outShape hfr) hs
      obtain ⟨neuron, nextLayer, hx, _, hstep⟩ :=
        Net.backPropHiddenNeuron_done hrep ht hl (n := n) (by omega)
      refine ⟨_, hstep, ?_, ?_⟩
      · refine Eq.trans ?_ hfr
        apply Net.proj_setNeuron Neuron.outShape hx
        rfl
      · intro k hk
        rw [Net.setNeuron_get_ne t n _ (Ne.symm hk)]; exact hoth k hk)
  refine ⟨s1, ?_, hI⟩
  simp only [Net.backPropHiddenLayer, hlay, hu, hnl]; exact hrun

/-- One step of the loop of the weight update, for a layer `l >= 1`. -/
theorem Net.backPropUpdateNeuron_done {topology : List Nat} {s : Net R}
    (hs : s.HasShape topology) {l n : Nat} (hl1 : 1 ≤ l) (hl : l < topology.length)
    (hn : n < topology.getD l 0) :
    ∃ neuron prevLayer, s.neuron? l n = some neuron ∧ s.m_layers[l - 1]? = some prevLayer ∧
      neuron.m_myIndex = n ∧
      Net.backPropUpdateNeuron l n s
        = .done (s.setLayer (l - 1) (prevLayer.map neuron.updatedBy)) := by
  obtain ⟨prevLayer, hp, _⟩ := hs.layer (i := l - 1) (by omega)
  obtain ⟨neuron, hx, hidx, _⟩ := hs.neuron hl (Nat.le_of_lt hn)
  refine ⟨neuron, prevLayer, hx, hp, hidx, ?_⟩
  have hw : ∀ (m : Nat) (prev : Neuron R), prevLayer[m]? = some prev →
      neuron.m_myIndex < prev.m_outputWeights.length := by
    intro m prev hm
    have := hs.weights (i := l - 1) (by omega) hp hm
    have e : l - 1 + 1 = l := by omega
    rw [e] at this
    omega
  simp only [Net.backPropUpdateNeuron, hp, hx, Neuron.updateInputWeights_done neuron prevLayer hw,
    Run.lift]

/-- The inner loop of the weight update, for a layer `l >= 1`: only connections of layer
`l - 1` change. -/
theorem Net.backPropUpdateLayer_done {topology : List Nat} (hrep : Representable topology)
    {s : Net R} (hs : s.HasShape topology) {l : Nat} (hl1 : 1 ≤ l) (hl : l < topology.length) :
    ∃ s1, Net.backPropUpdateLayer l s = .done s1 ∧
      s1.proj Neuron.outShape = s.proj Neuron.outShape ∧
      (∀ k, k ≠ l - 1 → s1.m_layers[k]? = s.m_layers[k]?) := by
  obtain ⟨prevLayer, hp, _⟩ := hs.layer (i := l - 1) (by omega)
  obtain ⟨layer, hlay, hsz⟩ := hs.layer hl
  have hcount : sizeSub layer.length 1 = topology.getD l 0 := by
    have := hrep.size_lt l
    rw [sizeSub_one (by omega), hsz]; rfl
  obtain ⟨s1, hrun, hI⟩ := forLoop_done (Net.backPropUpdateNeuron l)
    (fun _ t => t.proj Neuron.outShape = s.proj Neuron.outShape ∧
      (∀ k, k ≠ l - 1 → t.m_layers[k]? = s.m_layers[k]?))
    (topology.getD l 0) 0 s ⟨rfl, fun _ _ => rfl⟩
    (by
      intro n t _ hn hI
      obtain ⟨hfr, hoth⟩ := hI
      have ht : t.HasShape topology := Net.HasShape.congr (Net.shape_of_outShape hfr) hs
      obtain ⟨neuron, prev, hx, hprev, _, hstep⟩ :=
        Net.backPropUpdateNeuron_done ht hl1 hl (n := n) (by omega)
      refine ⟨_, hstep, ?_, ?_⟩
      · refine Eq.trans ?_ hfr
        apply Net.proj_setLayer Neuron.outShape hprev
        rw [List.map_map]
        congr 1
        funext x
        exact Neuron.updatedBy_outShape neuron x
      · intro k hk
        rw [Net.setLayer_get_ne t _ (Ne.symm hk)]; exact hoth k hk)
  refine ⟨s1, ?_, hI⟩
  simp only [Net.backPropUpdateLayer, hp, hlay, hcount]; exact hrun

theorem Run.bind_state {σ : Type} (P : σ → Prop) (r : Run σ) (k : σ → Run σ)
    (hr : P r.state) (hk : ∀ s, P s → P (k s).state) : P (r.bind k).state := by
  cases r with
  | done s => exact hk s hr
  | fault f s => exact hr

/-- The loop over the hidden layers, on a network of at least two layers. -/
theorem Net.backPropHidden_done {topology : List Nat} (hrep : Representable topology)
    {s : Net R} (hs : s.HasShape topology) (h2 : 2 ≤ topology.length) :
    ∃ s1, downLoop Net.backPropHiddenLayer (toUnsigned (sizeSub s.m_layers.length 2)) s
        = .done s1 ∧
      s1.proj Neuron.outShape = s.proj Neuron.outShape := by
  have hstart : toUnsigned (sizeSub s.m_layers.length 2) = topology.length - 2 := by
    rw [hs.1]
    unfold sizeSub toUnsigned
    rw [if_pos h2]
    exact Nat.mod_eq_of_lt (by have := hrep.1; omega)
  obtain ⟨s1, hrun, hI⟩ := downLoop_done Net.backPropHiddenLayer
    (fun _ t => t.proj Neuron.outShape = s.proj Neuron.outShape)
    (topology.length - 2) s rfl
    (by
      intro n t hn hI
      have ht : t.HasShape topology := Net.HasShape.congr (Net.shape_of_outShape hI) hs
      obtain ⟨t1, hstep, hfr, _⟩ := Net.backPropHiddenLayer_done hrep ht (l := n + 1) (by omega)
      exact ⟨t1, hstep, hfr.trans hI⟩)
  exact ⟨s1, by rw [hstart]; exact hrun, hI⟩

/-- The loop of the weight updates, on a well-formed network. -/
theorem Net.backPropUpdate_done {topology : List Nat} (hrep : Representable topology)
    {s : Net R} (hs : s.HasShape topology) (h0 : 0 < topology.length) :
    ∃ s1, downLoop Net.backPropUpdateLayer (toUnsigned (sizeSub s.m_layers.length 1)) s
        = .done s1 ∧
      s1.proj Neuron.outShape = s.proj Neuron.outShape := by
  have hstart : toUnsigned (sizeSub s.m_layers.length 1) = topology.length - 1 := by
    rw [hs.1, sizeSub_one h0]
    exact Nat.mod_eq_of_lt (by have := hrep.1; omega)
  obtain ⟨s1, hrun, hI⟩ := downLoop_done Net.backPropUpdateLayer
    (fun _ t => t.proj Neuron.outShape = s.proj Neuron.outShape)
    (topology.length - 1) s rfl
    (by
      intro n t hn hI
      have ht : t.HasShape topology := Net.HasShape.congr (Net.shape_of_outShape hI) hs
      obtain ⟨t1, hstep, hfr, _⟩ :=
        Net.backPropUpdateLayer_done hrep ht (l := n + 1) (by omega) (by omega)
      exact ⟨t1, hstep, hfr.trans hI⟩)
  exact ⟨s1, by rw [hstart]; exact hrun, hI⟩

/-- The value that `Net::backProp` leaves in `m_error`: the square root of the mean, over the
first `topology[last]` neurons of the last layer, of the squared difference between target
and output. -/
theorem Net.backPropAverage_error (sqrt : R → R) (outputSize : Nat) (s : Net R) :
    (Net.backPropAverage sqrt outputSize s).m_error
      = sqrt (s.m_error / ((sizeSub outputSize 1 : Nat) : R)) := rfl

theorem Net.backPropAverage_layers (sqrt : R → R) (outputSize : Nat) (s : Net R) :
    (Net.backPropAverage sqrt outputSize s).m_layers = s.m_layers := rfl

/-- Function `Net::backProp` on a well-formed network and a target vector with at least
`topology[last]` entries: in whatever way the run ends, `m_error` holds the root of the mean
square error. -/
theorem Net.backProp_error (sqrt : R → R) {topology : List Nat} {net : Net R}
    (hwf : net.WellFormed topology) (targetVals : List R)
    (hlen : lastSize topology ≤ targetVals.length) :
    (net.backProp sqrt targetVals).state.m_error
      = sqrt ((∑ n in Finset.range (lastSize topology),
            (targetVals.getD n 0 - net.outputVal (topology.length - 1) n)
              * (targetVals.getD n 0 - net.outputVal (topology.length - 1) n))
          / (lastSize topology : R)) := by
  obtain ⟨hne, hrep, hs⟩ := hwf
  have h0 : 0 < topology.length := List.length_pos.2 hne
  obtain ⟨back, hlast, hb, hsz⟩ := hs.back h0
  have hcount : sizeSub back.length 1 = lastSize topology := by
    rw [sizeSub_one (by omega), hsz]; rfl
  have herr := Net.backPropError_done hs h0 targetVals hlen
  unfold Net.backProp
  simp only [hlast, hs.1, hcount, herr, Run.bind]
  refine Run.bind_state (fun (t : Net R) => t.m_error = _) _ _ ?_ ?_
  · refine forLoop_state _ (fun (t : Net R) => t.m_error = _)
      (Net.backPropOutput_error targetVals _ _) _ _ _ ?_
    show (Net.backPropAverage sqrt back.length _).m_error = _
    rw [Net.backPropAverage_error, hcount]
  · intro s1 h1
    refine Run.bind_state (fun (t : Net R) => t.m_error = _) _ _ ?_ ?_
    · exact downLoop_state _ (fun (t : Net R) => t.m_error = _)
        (Net.backPropHiddenLayer_error _) _ _ h1
    · intro s2 h2
      exact downLoop_state _ (fun (t : Net R) => t.m_error = _)
        (Net.backPropUpdateLayer_error _) _ _ h2

/-- Function `Net::backProp` on a well-formed network of at least two layers and a target vector with
at least `topology[last]` entries: the run ends, and the output value, the index and the
number of connections of every neuron are as before. -/
theorem Net.backProp_done (sqrt : R → R) {topology : List Nat} {net : Net R}
    (hwf : net.WellFormed topology) (h2 : 2 ≤ topology.length) (targetVals : List R)
    (hlen : lastSize topology ≤ targetVals.length) :
    ∃ net1, net.backProp sqrt targetVals = .done net1 ∧
      net1.proj Neuron.outShape = net.proj Neuron.outShape := by
  obtain ⟨hne, hrep, hs⟩ := hwf
  have h0 : 0 < topology.length := List.length_pos.2 hne
  obtain ⟨back, hlast, hb, hsz⟩ := hs.back h0
  have hcount : sizeSub back.length 1 = lastSize topology := by
    rw [sizeSub_one (by omega), hsz]; rfl
  have herr := Net.backPropError_done hs h0 targetVals hlen
  have hsA : (Net.backPropAverage sqrt back.length
      { net with
        m_error := ∑ n in Finset.range (lastSize topology),
          (targetVals.getD n 0 - net.outputVal (topology.length - 1) n)
            * (targetVals.getD n 0 - net.outputVal (topology.length - 1) n) }).HasShape
      topology := hs
  obtain ⟨s1, hrun1, hfr1, _⟩ := Net.backPropOutput_done hsA h0 targetVals hlen
  have hs1 : s1.HasShape topology := Net.HasShape.congr (Net.shape_of_outShape hfr1) hsA
  obtain ⟨s2, hrun2, hfr2⟩ := Net.backPropHidden_done hrep hs1 h2
  have hs2 : s2.HasShape topology := Net.HasShape.congr (Net.shape_of_outShape hfr2) hs1
  obtain ⟨s3, hrun3, hfr3⟩ := Net.backPropUpdate_done hrep hs2 h0
  refine ⟨s3, ?_, (hfr3.trans hfr2).trans hfr1⟩
  unfold Net.backProp
  simp only [hlast, hs.1, hcount, herr, Run.bind, hrun1, hrun2, hrun3]

/-! ## The claims -/

theorem tanh_bounds (x : ℝ) : -1 < Real.tanh x ∧ Real.tanh x < 1 := by
  have hc := Real.cosh_pos x
  have h1 := Real.sinh_lt_cosh x
  have h2 := Real.sinh_lt_cosh (-x)
  rw [Real.sinh_neg, Real.cosh_neg] at h2
  rw [Real.tanh_eq_sinh_div_cosh]
  constructor
  · rw [lt_div_iff₀ hc]; linarith
  · rw [div_lt_one hc]; exact h1

/-- C1 (amended): for every topology `[L0, ..., Lk]` with fewer than `2^32` entries, each
below `2^32 - 1`, `Net(topology)` ends (with enough fuel for the inner loop) and builds a
network of exactly `k + 1` layers, in which layer `i` has exactly `Li + 1` neurons, the neuron
at position `p` has index `p`, and every neuron of layer `i` has exactly `L(i+1)`
connections when `i < k` and none when `i = k`. -/
theorem C1_ctor_shape (env : Env R) (topology : List Nat) (fuel : Nat)
    (hlen : topology.length < 2 ^ 32) (hsize : ∀ L ∈ topology, L < 2 ^ 32 - 1)
    (hfuel : ∀ L ∈ topology, L + 2 ≤ fuel) :
    ∃ net, Net.ctor env fuel topology = some net ∧
      net.m_layers.length = topology.length ∧
      ∀ i, i < topology.length → ∃ layer, net.m_layers[i]? = some layer ∧
        layer.length = topology.getD i 0 + 1 ∧
        ∀ p, p < layer.length → ∃ x, layer[p]? = some x ∧
          x.m_myIndex = p ∧
          x.m_outputWeights.length
            = if i + 1 < topology.length then topology.getD (i + 1) 0 else 0 := by
  obtain ⟨net, hnet, hs, _⟩ := Net.ctor_some env topology fuel ⟨hlen, hsize⟩ hfuel
  refine ⟨net, hnet, hs.1, ?_⟩
  intro i hi
  obtain ⟨layer, hl, hsz, hn⟩ := hs.2 i hi
  refine ⟨layer, hl, hsz, ?_⟩
  intro p hp
  obtain ⟨x, hx, h1, h2⟩ := hn p hp
  exact ⟨x, hx, h1, h2⟩

/-- C1, witness: the topology `[3, 2, 1]` of the driver, with fuel 5. -/
theorem C1_ctor_shape_witness :
    [3, 2, 1].length < 2 ^ 32 ∧ (∀ L ∈ [3, 2, 1], L < 2 ^ 32 - 1) ∧
    (∀ L ∈ [3, 2, 1], L + 2 ≤ 5) ∧
    ∃ net, Net.ctor (sampleEnv ℚ) 5 [3, 2, 1] = some net ∧
      net.m_layers.length = [3, 2, 1].length ∧
      ∀ i, i < [3, 2, 1].length → ∃ layer, net.m_layers[i]? = some layer ∧
        layer.length = [3, 2, 1].getD i 0 + 1 ∧
        ∀ p, p < layer.length → ∃ x, layer[p]? = some x ∧
          x.m_myIndex = p ∧
          x.m_outputWeights.length
            = if i + 1 < [3, 2, 1].length then [3, 2, 1].getD (i + 1) 0 else 0 :=
  ⟨by decide, by decide, by decide,
    C1_ctor_shape (sampleEnv ℚ) [3, 2, 1] 5 (by decide) (by decide) (by decide)⟩

/-- C1, counterexample: with the single size `4294967295 = 2^32 - 1` the inner loop of
`Net::Net` never ends, whatever the fuel, so no network with `2^32` neurons is built; and a
topology of `2^32` entries gives a network without any layer, because the number of layers
is kept in an `unsigned`. -/
theorem C1_counterexample :
    (¬ ∃ (fuel : Nat) (net : Net ℚ), Net.ctor (sampleEnv ℚ) fuel [4294967295] = some net) ∧
    ∃ net : Net ℚ, Net.ctor (sampleEnv ℚ) 2 (List.replicate 4294967296 0) = some net ∧
      net.m_layers.length = 0 := by
  constructor
  · rintro ⟨fuel, net, h⟩
    have hn := Net.ctorNeurons_none (sampleEnv ℚ) 0 0 fuel 0 [] 0 (by norm_num)
    have e : (2 : Nat) ^ 32 - 1 = 4294967295 := by norm_num
    rw [e] at hn
    simp [Net.ctor, toUnsigned, Net.ctorLayers, sizeSub, hn] at h
  · refine ⟨{ m_layers := [], m_error := (sampleEnv ℚ).indetError,
              m_recentAverageError := (sampleEnv ℚ).indetRecentAverageError,
              m_recentAverageSmoothingFactor :=
                (sampleEnv ℚ).indetRecentAverageSmoothingFactor }, ?_, rfl⟩
    have hl : toUnsigned (List.replicate 4294967296 0).length = 0 := by
      rw [List.length_replicate]; rfl
    exact Net.ctor_no_layers (sampleEnv ℚ) 2 _ hl

/-- C2: for every well-formed network and every input vector of length `topology[0]`,
`Net::feedForward` runs to its end; afterwards the output of the input neuron `i`
(`i < topology[0]`) is `inputVals[i]`, and for every layer `l >= 1` and every neuron
`j < topology[l]` of it, the output is `tanh` of the sum, over ALL the `topology[l-1] + 1`
neurons `n` of layer `l - 1`, of the output of `n` (after the pass) times the weight of the
connection number `j` of `n`, a connection that every such `n` has. -/
theorem C2_feedForward_outputs (tanh : R → R) (topology : List Nat) (net : Net R)
    (hwf : net.WellFormed topology) (inputVals : List R)
    (hin : inputVals.length = topology.getD 0 0) :
    ∃ net1, net.feedForward tanh inputVals = .done net1 ∧
      (∀ i, i < topology.getD 0 0 →
        ∃ x, net1.neuron? 0 i = some x ∧ inputVals[i]? = some x.m_outputVal) ∧
      ∀ l, 1 ≤ l → l < topology.length → ∀ j, j < topology.getD l 0 →
        ∃ prevLayer x, net1.m_layers[l - 1]? = some prevLayer ∧
          prevLayer.length = topology.getD (l - 1) 0 + 1 ∧
          (∀ n ∈ prevLayer, j < n.m_outputWeights.length) ∧
          net1.neuron? l j = some x ∧
          x.m_outputVal = tanh ((prevLayer.map fun n => n.m_outputVal * n.weightTo j).sum) := by
  obtain ⟨net1, hrun, hfr, hinp, _, hact⟩ := Net.feedForward_done tanh hwf inputVals hin
  have hs1 : net1.HasShape topology := Net.HasShape.congr (Net.shape_of_frame hfr) hwf.2.2
  refine ⟨net1, hrun, fun i hi => hinp i (hin ▸ hi), ?_⟩
  intro l hl1 hl j hj
  obtain ⟨prevLayer, x, hp, hx, hval⟩ := hact l hl1 hl j hj
  obtain ⟨layer, hlay, hsz⟩ := hs1.layer (i := l - 1) (by omega)
  have e : layer = prevLayer := Option.some.inj (hlay.symm.trans hp)
  subst e
  refine ⟨layer, x, hp, hsz, ?_, hx, hval⟩
  intro n hn
  obtain ⟨k, hk⟩ := List.mem_iff_getElem?.1 hn
  have := hs1.weights (i := l - 1) (by omega) hp hk
  have e : l - 1 + 1 = l := by omega
  rw [e] at this
  omega

/-- C2, witness: the example network of topology `[1, 1]` with the input `[7]`. -/
theorem C2_feedForward_outputs_witness :
    (sampleNet ℝ).WellFormed [1, 1] ∧ ([7] : List ℝ).length = [1, 1].getD 0 0 ∧
    ∃ net1, (sampleNet ℝ).feedForward Real.tanh [7] = .done net1 ∧
      (∀ i, i < [1, 1].getD 0 0 →
        ∃ x, net1.neuron? 0 i = some x ∧ ([7] : List ℝ)[i]? = some x.m_outputVal) ∧
      ∀ l, 1 ≤ l → l < [1, 1].length → ∀ j, j < [1, 1].getD l 0 →
        ∃ prevLayer x, net1.m_layers[l - 1]? = some prevLayer ∧
          prevLayer.length = [1, 1].getD (l - 1) 0 + 1 ∧
          (∀ n ∈ prevLayer, j < n.m_outputWeights.length) ∧
          net1.neuron? l j = some x ∧
          x.m_outputVal
            = Real.tanh ((prevLayer.map fun n => n.m_outputVal * n.weightTo j).sum) :=
  ⟨by decide, rfl, C2_feedForward_outputs Real.tanh [1, 1] (sampleNet ℝ) (by decide) [7] rfl⟩

/-- C3: for every well-formed network and every input vector whose length differs from
`topology[0]`, `Net::feedForward` stops at its assertion, in the very state in which it was
called: no output value, gradient or weight has changed. -/
theorem C3_feedForward_shape_mismatch (tanh : R → R) (topology : List Nat) (net : Net R)
    (hwf : net.WellFormed topology) (inputVals : List R)
    (hne : inputVals.length ≠ topology.getD 0 0) :
    net.feedForward tanh inputVals = .fault .assertion net := by
  obtain ⟨hnil, _, hs⟩ := hwf
  obtain ⟨layer0, hl0, hsz0⟩ := hs.layer (i := 0) (List.length_pos.2 hnil)
  have hcount : sizeSub layer0.length 1 = topology.getD 0 0 := by
    rw [sizeSub_one (by omega), hsz0]; rfl
  unfold Net.feedForward
  simp only [hl0, hcount]
  rw [if_pos hne]

/-- C3, witness: the call of the driver, an empty input vector on the network of topology
`[3, 2, 1]`. -/
theorem C3_feedForward_shape_mismatch_witness :
    ∃ net : Net ℝ, Net.ctor (sampleEnv ℝ) 5 [3, 2, 1] = some net ∧
      net.WellFormed [3, 2, 1] ∧ ([] : List ℝ).length ≠ [3, 2, 1].getD 0 0 ∧
      net.feedForward Real.tanh [] = .fault .assertion net := by
  obtain ⟨net, hnet, hs, _⟩ := Net.ctor_some (sampleEnv ℝ) [3, 2, 1] 5 (by decide) (by decide)
  have hwf : net.WellFormed [3, 2, 1] := ⟨by decide, by decide, hs⟩
  exact ⟨net, hnet, hwf, by decide,
    C3_feedForward_shape_mismatch Real.tanh [3, 2, 1] net hwf [] (by decide)⟩

/-- C4, the code at the failing inputs: on the example network of topology `[1, 1]`
`Net::backProp` runs to its end with a target vector of two entries, one more than the
output layer has neurons; and with the empty target vector of the driver, on the network of
topology `[3, 2, 1]`, it stops at the read of `targetVals[0]`, outside the vector, after
having reset `m_error`.  No path of `Net::backProp` checks the length of the targets. -/
theorem C4_backProp_no_length_check :
    (∃ net1, (sampleNet ℝ).backProp Real.sqrt [1, 2] = .done net1) ∧
    ∃ net : Net ℝ, Net.ctor (sampleEnv ℝ) 5 [3, 2, 1] = some net ∧
      net.backProp Real.sqrt [] = .fault .outOfRange { net with m_error := 0.0 } := by
  constructor
  · have hwf : (sampleNet ℝ).WellFormed [1, 1] := by decide
    obtain ⟨net1, h, _⟩ := Net.backProp_done Real.sqrt hwf (by decide) [1, 2] (by decide)
    exact ⟨net1, h⟩
  · obtain ⟨net, hnet, hs, _⟩ :=
      Net.ctor_some (sampleEnv ℝ) [3, 2, 1] 5 (by decide) (by decide)
    refine ⟨net, hnet, ?_⟩
    obtain ⟨back, hlast, _, hsz⟩ := hs.back (by decide)
    have hcount : sizeSub back.length 1 = 1 := by
      rw [sizeSub_one (by omega), hsz]; rfl
    unfold Net.backProp
    simp only [hlast, hcount]
    rfl

/-- C5: for every well-formed network and every prior content of the result vector,
`Net::getResults` runs to its end and leaves a vector of exactly `topology[last]` elements,
the `n`-th being the output value of the `n`-th neuron of the last layer; that layer has
`topology[last] + 1` neurons, so its last neuron is left out. -/
theorem C5_getResults (topology : List Nat) (net : Net R) (hwf : net.WellFormed topology)
    (resultVals : List R) :
    ∃ back res, net.m_layers.getLast? = some back ∧
      back.length = lastSize topology + 1 ∧
      net.getResults resultVals = .done res ∧
      res.length = lastSize topology ∧
      ∀ n, n < lastSize topology →
        ∃ x, back[n]? = some x ∧ res[n]? = some x.m_outputVal := by
  obtain ⟨back, hb, hrun⟩ := Net.getResults_done hwf resultVals
  obtain ⟨back1, hlast, hb1, hsz⟩ := hwf.2.2.back (List.length_pos.2 hwf.1)
  have e : back1 = back := Option.some.inj (hb1.symm.trans hb)
  subst e
  refine ⟨back1, _, hlast, hsz, hrun, ?_, ?_⟩
  · simp only [List.length_map, List.length_take, hsz]; omega
  · intro n hn
    have hn1 : n < back1.length := by omega
    refine ⟨back1[n], List.getElem?_eq_getElem hn1, ?_⟩
    rw [List.getElem?_map, List.getElem?_take_of_lt hn, List.getElem?_eq_getElem hn1]
    rfl

/-- C5, witness: the example network of topology `[1, 1]` and a result vector that holds
`[8, 9]` before the call. -/
theorem C5_getResults_witness :
    (sampleNet ℚ).WellFormed [1, 1] ∧
    ∃ back res, (sampleNet ℚ).m_layers.getLast? = some back ∧
      back.length = lastSize [1, 1] + 1 ∧
      (sampleNet ℚ).getResults [8, 9] = .done res ∧
      res.length = lastSize [1, 1] ∧
      ∀ n, n < lastSize [1, 1] →
        ∃ x, back[n]? = some x ∧ res[n]? = some x.m_outputVal :=
  ⟨by decide, C5_getResults [1, 1] (sampleNet ℚ) (by decide) [8, 9]⟩

/-- C6, the code at the failing input: in the network that `Net::Net` builds for the
topology `[1, 1]`, the last neuron of the input layer (position 1 of layer 0) has for output
the indeterminate value that its storage held, `8` in the example environment, and not
`1`: `Neuron::Neuron` does not assign `m_outputVal`, and `Net::Net` does not either. -/
theorem C6_bias_output_not_set :
    ∃ (net : Net ℝ) (x : Neuron ℝ), Net.ctor (sampleEnv ℝ) 3 [1, 1] = some net ∧
      net.neuron? 0 1 = some x ∧
      x.m_outputVal = (sampleEnv ℝ).indetOutputVal 0 1 ∧ x.m_outputVal ≠ 1 := by
  obtain ⟨net, hnet, hs, hout⟩ :=
    Net.ctor_some (sampleEnv ℝ) [1, 1] 3 (by decide) (by decide)
  obtain ⟨x, hx, _, _⟩ := hs.neuron (i := 0) (p := 1) (by decide) (by decide)
  refine ⟨net, x, hnet, hx, hout 0 1 x hx, ?_⟩
  rw [hout 0 1 x hx]
  norm_num [sampleEnv]

/-- C7: for every neuron of index `j` and gradient `g`, and every previous layer whose
neurons all have a connection number `j`, `updateInputWeights(prevLayer)` runs to its end,
keeps the number of neurons, and leaves in the connection `j` of each neuron `n` of
`prevLayer` the values `deltaWeight = eta*out_n*g + alpha*oldDelta_n` and
`weight = oldWeight_n + eta*out_n*g + alpha*oldDelta_n`, with `eta = 0.15` and
`alpha = 0.5`. -/
theorem C7_updateInputWeights (self : Neuron R) (prevLayer : Layer R)
    (h : ∀ x ∈ prevLayer, self.m_myIndex < x.m_outputWeights.length) :
    (Neuron.eta : R) = 0.15 ∧ (Neuron.alpha : R) = 0.5 ∧
    ∃ prevLayer1, self.updateInputWeights prevLayer = .done prevLayer1 ∧
      prevLayer1.length = prevLayer.length ∧
      ∀ (n : Nat) (x : Neuron R), prevLayer[n]? = some x →
        ∃ (y : Neuron R) (old new : Connection R), prevLayer1[n]? = some y ∧
          x.m_outputWeights[self.m_myIndex]? = some old ∧
          y.m_outputWeights[self.m_myIndex]? = some new ∧
          new.deltaWeight
            = Neuron.eta * x.m_outputVal * self.m_gradient + Neuron.alpha * old.deltaWeight ∧
          new.weight
            = old.weight + Neuron.eta * x.m_outputVal * self.m_gradient
              + Neuron.alpha * old.deltaWeight := by
  have h1 : ∀ (n : Nat) (x : Neuron R), prevLayer[n]? = some x →
      self.m_myIndex < x.m_outputWeights.length :=
    fun n x hx => h x (List.mem_iff_getElem?.2 ⟨n, hx⟩)
  refine ⟨rfl, rfl, prevLayer.map self.updatedBy,
    Neuron.updateInputWeights_done self prevLayer h1, List.length_map _ _, ?_⟩
  intro n x hx
  have hlt := h1 n x hx
  have hold : x.m_outputWeights[self.m_myIndex]?
      = some x.m_outputWeights[self.m_myIndex] := List.getElem?_eq_getElem hlt
  refine ⟨self.updatedBy x, x.m_outputWeights[self.m_myIndex],
    { weight := x.m_outputWeights[self.m_myIndex].weight +
        (Neuron.eta * x.m_outputVal * self.m_gradient
          + Neuron.alpha * x.m_outputWeights[self.m_myIndex].deltaWeight),
      deltaWeight := Neuron.eta * x.m_outputVal * self.m_gradient
          + Neuron.alpha * x.m_outputWeights[self.m_myIndex].deltaWeight },
    ?_, hold, ?_, rfl, ?_⟩
  · rw [List.getElem?_map, hx]; rfl
  · rw [Neuron.updatedBy_weights self x _ hold, if_pos rfl]
  · exact (add_assoc _ _ _).symm

/-- C7, witness: a neuron of index 0 and gradient 2, and a previous layer of two neurons
with one connection each. -/
theorem C7_updateInputWeights_witness :
    (∀ x ∈ ([⟨1, [⟨3, 4⟩], 0, 0⟩, ⟨5, [⟨6, 7⟩], 1, 0⟩] : Layer ℚ),
      (⟨0, [], 0, 2⟩ : Neuron ℚ).m_myIndex < x.m_outputWeights.length) ∧
    ((Neuron.eta : ℚ) = 0.15 ∧ (Neuron.alpha : ℚ) = 0.5 ∧
    ∃ prevLayer1, (⟨0, [], 0, 2⟩ : Neuron ℚ).updateInputWeights
        [⟨1, [⟨3, 4⟩], 0, 0⟩, ⟨5, [⟨6, 7⟩], 1, 0⟩] = .done prevLayer1 ∧
      prevLayer1.length = ([⟨1, [⟨3, 4⟩], 0, 0⟩, ⟨5, [⟨6, 7⟩], 1, 0⟩] : Layer ℚ).length ∧
      ∀ (n : Nat) (x : Neuron ℚ),
        ([⟨1, [⟨3, 4⟩], 0, 0⟩, ⟨5, [⟨6, 7⟩], 1, 0⟩] : Layer ℚ)[n]? = some x →
        ∃ (y : Neuron ℚ) (old new : Connection ℚ), prevLayer1[n]? = some y ∧
          x.m_outputWeights[(⟨0, [], 0, 2⟩ : Neuron ℚ).m_myIndex]? = some old ∧
          y.m_outputWeights[(⟨0, [], 0, 2⟩ : Neuron ℚ).m_myIndex]? = some new ∧
          new.deltaWeight
            = Neuron.eta * x.m_outputVal * (⟨0, [], 0, 2⟩ : Neuron ℚ).m_gradient
              + Neuron.alpha * old.deltaWeight ∧
          new.weight
            = old.weight + Neuron.eta * x.m_outputVal * (⟨0, [], 0, 2⟩ : Neuron ℚ).m_gradient
              + Neuron.alpha * old.deltaWeight) :=
  ⟨by decide, C7_updateInputWeights _ _ (by decide)⟩

/-- C8: for every neuron of output value `o` and every target value `t`,
`calcOutputGradients(t)` leaves the gradient `(t - o) * (1 - o*o)` and changes neither the
output value, nor the connections, nor the index. -/
theorem C8_calcOutputGradients (self : Neuron R) (targetVal : R) :
    (self.calcOutputGradients targetVal).m_gradient
      = (targetVal - self.m_outputVal) * (1 - self.m_outputVal * self.m_outputVal) ∧
    (self.calcOutputGradients targetVal).m_outputVal = self.m_outputVal ∧
    (self.calcOutputGradients targetVal).m_outputWeights = self.m_outputWeights ∧
    (self.calcOutputGradients targetVal).m_myIndex = self.m_myIndex := by
  refine ⟨?_, rfl, rfl, rfl⟩
  simp only [Neuron.calcOutputGradients, Neuron.transferFunctionDerivative, one_lit]

/-- C9: for every well-formed network with `m = topology[last] >= 1` and every target vector
of length `m`, the error field that `Net::backProp` leaves is
`sqrt((1/m) * sum over n < m of (targets[n] - out_n)^2)`, with `out_n` the output of the
`n`-th neuron of the last layer before the call: the sum and the divisor count the first
`m` neurons only, not the extra last one.  The field has this value in the state in which
the run ends, and on a network of at least two layers the run ends normally. -/
theorem C9_backProp_error (sqrt : R → R) (topology : List Nat) (net : Net R)
    (hwf : net.WellFormed topology) (targetVals : List R) (_hm : 1 ≤ lastSize topology)
    (hlen : targetVals.length = lastSize topology) :
    (net.backProp sqrt targetVals).state.m_error
      = sqrt ((1 / (lastSize topology : R)) * ∑ n in Finset.range (lastSize topology),
          (targetVals.getD n 0 - net.outputVal (topology.length - 1) n) ^ 2) ∧
    (2 ≤ topology.length → ∃ net1, net.backProp sqrt targetVals = .done net1) := by
  constructor
  · rw [Net.backProp_error sqrt hwf targetVals (by omega)]
    congr 1
    rw [div_eq_mul_inv, mul_comm, one_div]
    congr 1
    exact Finset.sum_congr rfl fun n _ => (sq _).symm
  · intro h2
    obtain ⟨net1, h, _⟩ := Net.backProp_done sqrt hwf h2 targetVals (by omega)
    exact ⟨net1, h⟩

/-- C9, witness: the example network of topology `[1, 1]` with the target `[3]`. -/
theorem C9_backProp_error_witness :
    (sampleNet ℝ).WellFormed [1, 1] ∧ 1 ≤ lastSize [1, 1] ∧
    ([3] : List ℝ).length = lastSize [1, 1] ∧
    (((sampleNet ℝ).backProp Real.sqrt [3]).state.m_error
      = Real.sqrt ((1 / (lastSize [1, 1] : ℝ)) * ∑ n in Finset.range (lastSize [1, 1]),
          (([3] : List ℝ).getD n 0 - (sampleNet ℝ).outputVal ([1, 1].length - 1) n) ^ 2) ∧
    (2 ≤ [1, 1].length → ∃ net1, (sampleNet ℝ).backProp Real.sqrt [3] = .done net1)) :=
  ⟨by decide, by decide, by decide,
    C9_backProp_error Real.sqrt [1, 1] (sampleNet ℝ) (by decide) [3] (by decide) (by decide)⟩

theorem IsDouble.one : IsDouble 1 := ⟨1, 0, 0, by norm_num, by norm_num, by norm_num, by norm_num⟩

/-- The only value of type `double` above `1 - 2^-53` and not above `1` is `1`: below `1`
the values of type `double` are `2^-53` apart. -/
theorem IsDouble.eq_one {d : ℝ} (h : IsDouble d) (hlo : 1 - 1 / 2 ^ 53 < d) (hhi : d ≤ 1) :
    d = 1 := by
  obtain ⟨m, a, b, hm, _, _, rfl⟩ := h
  have hb : (0 : ℝ) < 2 ^ b := by positivity
  have ha : (0 : ℝ) < 2 ^ a := by positivity
  by_cases hc : b ≤ a + 53
  · -- the value is a multiple of `2^-53`
    obtain ⟨c, hcdef⟩ : ∃ c, a + 53 = b + c := ⟨a + 53 - b, by omega⟩
    have hk : (m : ℝ) * 2 ^ a / 2 ^ b * 2 ^ 53 = ((m * 2 ^ c : ℤ) : ℝ) := by
      push_cast
      rw [div_mul_eq_mul_div, div_eq_iff hb.ne', mul_assoc, ← pow_add, hcdef, mul_assoc,
        ← pow_add, add_comm c b]
    have h1 : ((2 ^ 53 - 1 : ℤ) : ℝ) < ((m * 2 ^ c : ℤ) : ℝ) := by
      rw [← hk]
      have := mul_lt_mul_of_pos_right hlo (by positivity : (0 : ℝ) < 2 ^ 53)
      push_cast
      linarith [this, (by norm_num : ((1 : ℝ) - 1 / 2 ^ 53) * 2 ^ 53 = 2 ^ 53 - 1)]
    have h2 : ((m * 2 ^ c : ℤ) : ℝ) ≤ ((2 ^ 53 : ℤ) : ℝ) := by
      rw [← hk]
      have := mul_le_mul_of_nonneg_right hhi (by positivity : (0 : ℝ) ≤ 2 ^ 53)
      push_cast
      linarith
    have h1' : (2 ^ 53 - 1 : ℤ) < m * 2 ^ c := by exact_mod_cast h1
    have h2' : m * 2 ^ c ≤ (2 ^ 53 : ℤ) := by exact_mod_cast h2
    have h3 : m * 2 ^ c = (2 ^ 53 : ℤ) := by omega
    have h4 : (m : ℝ) * 2 ^ a / 2 ^ b * 2 ^ 53 = 2 ^ 53 := by
      rw [hk, h3]; norm_num
    exact mul_right_cancel₀ (by positivity : (2 : ℝ) ^ 53 ≠ 0) (by rw [h4, one_mul])
  · -- the value is below `1/2`
    exfalso
    obtain ⟨c, hcdef⟩ : ∃ c, b = a + 54 + c := ⟨b - (a + 54), by omega⟩
    have hm' : (m : ℝ) < 2 ^ 53 := by
      have : m < 2 ^ 53 := lt_of_le_of_lt (le_abs_self m) hm
      exact_mod_cast this
    have hlt : (m : ℝ) * 2 ^ a / 2 ^ b < 1 / 2 := by
      rw [div_lt_iff₀ hb, hcdef, pow_add, pow_add]
      have hc1 : (1 : ℝ) ≤ 2 ^ c := one_le_pow₀ (by norm_num)
      have : (m : ℝ) * 2 ^ a < 2 ^ 53 * 2 ^ a := mul_lt_mul_of_pos_right hm' ha
      have h54 : (1 : ℝ) / 2 * (2 ^ a * 2 ^ 54 * 2 ^ c) = 2 ^ 53 * 2 ^ a * 2 ^ c := by ring
      rw [h54]
      nlinarith [mul_pos (by positivity : (0 : ℝ) < 2 ^ 53) ha]
    have : (1 : ℝ) / 2 ≤ 1 - 1 / 2 ^ 53 := by norm_num
    linarith

/-- From `20` on, the hyperbolic tangent is less than `2^-54` below `1`. -/
theorem one_sub_tanh_lt {x : ℝ} (hx : 20 ≤ x) : 1 - Real.tanh x < 1 / 2 ^ 54 := by
  have hc := Real.cosh_pos x
  have hex := Real.exp_pos x
  have h40 : (2 : ℝ) ^ 55 < Real.exp x * Real.exp x := by
    have h1 : (2.7 : ℝ) < Real.exp 1 := by
      have := Real.exp_one_gt_d9
      norm_num at this ⊢
      linarith
    have h2 : Real.exp 40 = Real.exp 1 ^ 40 := by
      rw [← Real.exp_nat_mul]; norm_num
    have h3 : Real.exp 40 ≤ Real.exp (x + x) := Real.exp_le_exp.2 (by linarith)
    rw [Real.exp_add] at h3
    have h4 : (2 : ℝ) ^ 55 < 2.7 ^ 40 := by norm_num
    have h5 : (2.7 : ℝ) ^ 40 < Real.exp 1 ^ 40 := pow_lt_pow_left₀ h1 (by norm_num) (by norm_num)
    linarith
  have hsub : 1 - Real.tanh x = Real.exp (-x) / Real.cosh x := by
    rw [Real.tanh_eq_sinh_div_cosh, ← Real.cosh_sub_sinh]
    field_simp
  have hcosh : Real.exp x / 2 < Real.cosh x := by
    rw [Real.cosh_eq]
    have := Real.exp_pos (-x)
    linarith
  have hinv : Real.exp (-x) * Real.exp x = 1 := by
    rw [← Real.exp_add]; simp
  rw [hsub, div_lt_iff₀ hc]
  have h6 : Real.exp (-x) * 2 ^ 55 < Real.exp x := by
    have := mul_lt_mul_of_pos_left h40 (Real.exp_pos (-x))
    rw [← mul_assoc, hinv, one_mul] at this
    exact this
  have h7 : (1 : ℝ) / 2 ^ 54 * (Real.exp x / 2) = Real.exp x / 2 ^ 55 := by ring
  have h8 : Real.exp (-x) < Real.exp x / 2 ^ 55 := by
    rw [lt_div_iff₀ (by positivity)]; exact h6
  have h9 : (1 : ℝ) / 2 ^ 54 * (Real.exp x / 2) < 1 / 2 ^ 54 * Real.cosh x :=
    mul_lt_mul_of_pos_left hcosh (by positivity)
  linarith

/-- From `20` on, the value of type `double` nearest to the hyperbolic tangent is `1`, and
no other. -/
theorem nearestDouble_tanh {x : ℝ} (hx : 20 ≤ x) (d : ℝ) :
    IsNearestDouble (Real.tanh x) d ↔ d = 1 := by
  have h1 := one_sub_tanh_lt hx
  have h2 := (tanh_bounds x).2
  have habs : |1 - Real.tanh x| = 1 - Real.tanh x := abs_of_pos (by linarith)
  have key : ∀ d', IsDouble d' → |d' - Real.tanh x| ≤ 1 - Real.tanh x → d' = 1 := by
    intro d' hd' hle
    have := abs_le.1 hle
    refine hd'.eq_one ?_ (by linarith)
    have : (1 : ℝ) / 2 ^ 53 = 2 * (1 / 2 ^ 54) := by norm_num
    linarith
  constructor
  · intro h
    refine key d h.1 ?_
    have := h.2 1 IsDouble.one
    rw [habs] at this
    exact this
  · rintro rfl
    refine ⟨IsDouble.one, fun d' hd' => ?_⟩
    by_contra hlt
    have hlt' := lt_of_not_le hlt
    have e := key d' hd' (by rw [habs] at hlt'; exact hlt'.le)
    subst e
    exact lt_irrefl _ hlt'

theorem IsDouble.neg_one : IsDouble (-1) :=
  ⟨-1, 0, 0, by norm_num, by norm_num, by norm_num, by norm_num⟩

/-- A value of type `double` nearest to a real number strictly between `-1` and `1` is not
below `-1` and not above `1`, because `-1` and `1` are values of type `double`. -/
theorem IsNearestDouble.bounds {y d : ℝ} (h : IsNearestDouble y d) (hy : -1 < y ∧ y < 1) :
    -1 ≤ d ∧ d ≤ 1 := by
  constructor
  · by_contra hlt
    have h1 := h.2 (-1) IsDouble.neg_one
    rw [abs_of_neg (by linarith : d - y < 0), abs_of_neg (by linarith : -1 - y < 0)] at h1
    linarith
  · by_contra hlt
    have h1 := h.2 1 IsDouble.one
    rw [abs_of_pos (by linarith : 0 < d - y), abs_of_pos (by linarith : 0 < 1 - y)] at h1
    linarith

/-- Every real number has a nearest value of type `double`: these values are finitely
many. -/
theorem IsNearestDouble.exists_nearest (y : ℝ) : ∃ d, IsNearestDouble y d := by
  have hfin : Set.Finite {d : ℝ | IsDouble d} := by
    have hsub : {d : ℝ | IsDouble d} ⊆
        (fun p : ℤ × ℕ × ℕ => (p.1 : ℝ) * 2 ^ p.2.1 / 2 ^ p.2.2) ''
          ((Finset.Icc (-(2 ^ 53 : ℤ)) (2 ^ 53)) ×ˢ (Finset.range 972 ×ˢ Finset.range 1075) :
            Finset (ℤ × ℕ × ℕ)) := by
      rintro d ⟨m, a, b, hm, ha, hb, rfl⟩
      refine ⟨(m, a, b), ?_, rfl⟩
      have := abs_lt.1 hm
      simp only [Finset.coe_product, Set.mem_prod, Finset.mem_coe, Finset.mem_Icc,
        Finset.mem_range]
      omega
    exact Set.Finite.subset (Set.Finite.image _ (Finset.finite_toSet _)) hsub
  obtain ⟨d, hd, hmin⟩ := Set.exists_min_image {d : ℝ | IsDouble d} (fun d => |d - y|) hfin
    ⟨1, IsDouble.one⟩
  exact ⟨d, hd, fun d' hd' => hmin d' hd'⟩

/-- There is a function that returns, for every argument, a value of type `double` nearest
to the exact hyperbolic tangent. -/
theorem exists_rounded_tanh : ∃ tanh : ℝ → ℝ, ∀ x, IsNearestDouble (Real.tanh x) (tanh x) :=
  ⟨fun x => Classical.choose (IsNearestDouble.exists_nearest (Real.tanh x)),
    fun x => Classical.choose_spec (IsNearestDouble.exists_nearest (Real.tanh x))⟩

theorem Net.ctor_biasEnv : Net.ctor (biasEnv R) 3 [1, 1] = some (oneNet R) := by
  refine (rfl : _ = some _).trans ?_
  simp [biasEnv, oneNet, Neuron.ctor, Neuron.ctorLoop, Neuron.randomWeight]

/-- After `feedForward`, `backProp` and `getResults` on a well-formed network of at least
two layers: the three calls run to their end, the result has `topology[last]` elements, the
element `n` is the activation of the weighted sum of the output neuron `n`, and every
property of all the values of `tanh` is a property of every element. -/
theorem Net.results_after_backProp (tanh sqrt : R → R) {topology : List Nat} {net : Net R}
    (hwf : net.WellFormed topology) (h2 : 2 ≤ topology.length)
    (inputVals targetVals resultVals : List R)
    (hin : inputVals.length = topology.getD 0 0)
    (htg : targetVals.length = lastSize topology) :
    ∃ net1 net2 res, net.feedForward tanh inputVals = .done net1 ∧
      net1.backProp sqrt targetVals = .done net2 ∧
      net2.getResults resultVals = .done res ∧
      res.length = lastSize topology ∧
      (∀ n, n < lastSize topology →
        ∃ prevLayer, net1.m_layers[topology.length - 2]? = some prevLayer ∧
          res[n]? = some (Neuron.transferFunction tanh (weightedSum prevLayer n))) ∧
      ∀ P : R → Prop, (∀ x, P (tanh x)) → ∀ v ∈ res, P v := by
  obtain ⟨net1, hrun1, hfr1, _, _, hact⟩ := Net.feedForward_done tanh hwf inputVals hin
  have hs1 : net1.HasShape topology := Net.HasShape.congr (Net.shape_of_frame hfr1) hwf.2.2
  have hwf1 : net1.WellFormed topology := ⟨hwf.1, hwf.2.1, hs1⟩
  obtain ⟨net2, hrun2, hfr2⟩ := Net.backProp_done sqrt hwf1 h2 targetVals (by omega)
  have hs2 : net2.HasShape topology := Net.HasShape.congr (Net.shape_of_outShape hfr2) hs1
  have hwf2 : net2.WellFormed topology := ⟨hwf.1, hwf.2.1, hs2⟩
  obtain ⟨back, hb, hrun3⟩ := Net.getResults_done hwf2 resultVals
  obtain ⟨back0, _, hb1, hsz⟩ := hs2.back (by omega)
  have e : back = back0 := Option.some.inj (hb.symm.trans hb1)
  subst e
  have hlen : ((List.take (lastSize topology) back).map fun x => x.m_outputVal).length
      = lastSize topology := by
    simp only [List.length_map, List.length_take, hsz]; omega
  have hval : ∀ n, n < lastSize topology →
      ∃ prevLayer, net1.m_layers[topology.length - 2]? = some prevLayer ∧
        ((List.take (lastSize topology) back).map fun x => x.m_outputVal)[n]?
          = some (tanh (weightedSum prevLayer n)) := by
    intro n hlt
    obtain ⟨prevLayer, z, hprev, hz, hval⟩ :=
      hact (topology.length - 1) (by omega) (by omega) n hlt
    obtain ⟨x, hx, hxz⟩ := Net.proj_neuron Neuron.outShape hfr2 hz
    have hxb : back[n]? = some x := by
      rw [← Net.neuron?_eq hb]; exact hx
    have hout : x.m_outputVal = z.m_outputVal := (congrArg Prod.fst hxz)
    refine ⟨prevLayer, ?_, ?_⟩
    · rw [← hprev]; congr 1
    · rw [List.getElem?_map, List.getElem?_take, if_pos hlt, hxb, Option.map_some', hout, hval]
  refine ⟨net1, net2, _, hrun1, hrun2, hrun3, hlen, hval, ?_⟩
  intro P hP v hv
  obtain ⟨n, hn⟩ := List.mem_iff_getElem?.1 hv
  have hlt : n < lastSize topology := by
    by_contra hge
    rw [List.getElem?_eq_none (by omega)] at hn
    exact Option.noConfusion hn
  obtain ⟨prevLayer, _, hget⟩ := hval n hlt
  rw [hn] at hget
  rw [Option.some.inj hget]
  exact hP _

/-- With the exact hyperbolic tangent of the real numbers, every element of the result is
strictly between `-1` and `1`. -/
theorem Net.results_of_exact_tanh (sqrt : ℝ → ℝ) {topology : List Nat} {net : Net ℝ}
    (hwf : net.WellFormed topology) (h2 : 2 ≤ topology.length)
    (inputVals targetVals resultVals : List ℝ)
    (hin : inputVals.length = topology.getD 0 0)
    (htg : targetVals.length = lastSize topology) :
    ∃ net1 net2 res, net.feedForward Real.tanh inputVals = .done net1 ∧
      net1.backProp sqrt targetVals = .done net2 ∧
      net2.getResults resultVals = .done res ∧
      res.length = lastSize topology ∧
      ∀ v ∈ res, -1 < v ∧ v < 1 := by
  obtain ⟨net1, net2, res, h1, h2, h3, hlen, _, hP⟩ :=
    Net.results_after_backProp Real.tanh sqrt hwf h2 inputVals targetVals resultVals hin htg
  exact ⟨net1, net2, res, h1, h2, h3, hlen, hP (fun v => -1 < v ∧ v < 1) tanh_bounds⟩

/-- With a `tanh` that returns, for every argument, a value of type `double` nearest to the
exact hyperbolic tangent, every element of the result is in the closed interval from `-1`
to `1`. -/
theorem Net.results_of_rounded_tanh (tanh sqrt : ℝ → ℝ)
    (hround : ∀ x, IsNearestDouble (Real.tanh x) (tanh x))
    {topology : List Nat} {net : Net ℝ}
    (hwf : net.WellFormed topology) (h2 : 2 ≤ topology.length)
    (inputVals targetVals resultVals : List ℝ)
    (hin : inputVals.length = topology.getD 0 0)
    (htg : targetVals.length = lastSize topology) :
    ∃ net1 net2 res, net.feedForward tanh inputVals = .done net1 ∧
      net1.backProp sqrt targetVals = .done net2 ∧
      net2.getResults resultVals = .done res ∧
      res.length = lastSize topology ∧
      ∀ v ∈ res, -1 ≤ v ∧ v ≤ 1 := by
  obtain ⟨net1, net2, res, h1, h2, h3, hlen, _, hP⟩ :=
    Net.results_after_backProp tanh sqrt hwf h2 inputVals targetVals resultVals hin htg
  exact ⟨net1, net2, res, h1, h2, h3, hlen,
    hP (fun v => -1 ≤ v ∧ v ≤ 1) (fun x => (hround x).bounds (tanh_bounds x))⟩

/-- C10 (amended): for every well-formed network of a topology of at least two layers, every
input vector of length `topology[0]` and every target vector of length `topology[last]`,
`feedForward(inputs)`, then `backProp(targets)`, then `getResults` all run to their end, and
the result vector has exactly `topology[last]` elements.  The element `n` is the value that
`tanh` returned for the weighted sum of the output neuron `n` over the last but one layer;
so every property that all the values of `tanh` have (for the `tanh` of `<cmath>`: to be NaN
or in the closed interval from `-1` to `1`; for the exact hyperbolic tangent: to be strictly
between `-1` and `1`) is a property of every element. -/
theorem C10_results_are_tanh_values (tanh sqrt : R → R) (topology : List Nat) (net : Net R)
    (hwf : net.WellFormed topology) (h2 : 2 ≤ topology.length)
    (inputVals targetVals resultVals : List R)
    (hin : inputVals.length = topology.getD 0 0)
    (htg : targetVals.length = lastSize topology) :
    ∃ net1 net2 res, net.feedForward tanh inputVals = .done net1 ∧
      net1.backProp sqrt targetVals = .done net2 ∧
      net2.getResults resultVals = .done res ∧
      res.length = lastSize topology ∧
      (∀ n, n < lastSize topology →
        ∃ prevLayer, net1.m_layers[topology.length - 2]? = some prevLayer ∧
          res[n]? = some (Neuron.transferFunction tanh (weightedSum prevLayer n))) ∧
      ∀ P : R → Prop, (∀ x, P (tanh x)) → ∀ v ∈ res, P v :=
  Net.results_after_backProp tanh sqrt hwf h2 inputVals targetVals resultVals hin htg

/-- C10 (witness): the topology `[2, 2, 1]` with the inputs `[0, 1]` and the target `[1]`,
with the exact hyperbolic tangent. -/
theorem C10_results_are_tanh_values_witness :
    ∃ net : Net ℝ, Net.ctor (sampleEnv ℝ) 4 [2, 2, 1] = some net ∧
      net.WellFormed [2, 2, 1] ∧ 2 ≤ [2, 2, 1].length ∧
      ([0, 1] : List ℝ).length = [2, 2, 1].getD 0 0 ∧
      ([1] : List ℝ).length = lastSize [2, 2, 1] ∧
      ∃ net1 net2 res, net.feedForward Real.tanh [0, 1] = .done net1 ∧
        net1.backProp Real.sqrt [1] = .done net2 ∧
        net2.getResults [] = .done res ∧
        res.length = lastSize [2, 2, 1] ∧
        (∀ n, n < lastSize [2, 2, 1] →
          ∃ prevLayer, net1.m_layers[[2, 2, 1].length - 2]? = some prevLayer ∧
            res[n]? = some (Neuron.transferFunction Real.tanh (weightedSum prevLayer n))) ∧
        ∀ P : ℝ → Prop, (∀ x, P (Real.tanh x)) → ∀ v ∈ res, P v := by
  obtain ⟨net, hnet, hs, _⟩ := Net.ctor_some (sampleEnv ℝ) [2, 2, 1] 4 (by decide) (by decide)
  have hwf : net.WellFormed [2, 2, 1] := ⟨by decide, by decide, hs⟩
  exact ⟨net, hnet, hwf, by decide, by decide, by decide,
    C10_results_are_tanh_values Real.tanh Real.sqrt [2, 2, 1] net hwf (by decide) [0, 1] [1] []
      (by decide) (by decide)⟩

/-- C10 (counterexample): topology `[1, 1]` with the weights at `1` (`rand()` returns
`RAND_MAX`) and the bias output at `1`, the input `[100]` and the target `[1]`.  The weighted
sum of the output neuron is `101`.  The value of type `double` nearest to `tanh 101` is `1`
and no other, and with a `tanh` that returns it `getResults` returns `[1]`: its element is
not strictly below `1`. -/
theorem C10_counterexample :
    (∀ d, IsNearestDouble (Real.tanh 101) d ↔ d = 1) ∧
    ∀ tanh sqrt : ℝ → ℝ, IsNearestDouble (Real.tanh 101) (tanh 101) →
      ∃ net net1 net2 res, Net.ctor (biasEnv ℝ) 3 [1, 1] = some net ∧
        net.feedForward tanh [100] = .done net1 ∧
        net1.backProp sqrt [1] = .done net2 ∧
        net2.getResults [] = .done res ∧ res = [1] ∧ ¬ ∀ v ∈ res, -1 < v ∧ v < 1 := by
  have hn := nearestDouble_tanh (by norm_num : (20 : ℝ) ≤ 101)
  refine ⟨hn, fun tanh sqrt ht => ?_⟩
  have h1 : tanh 101 = 1 := (hn _).1 ht
  have hwf : (oneNet ℝ).WellFormed [1, 1] := by decide
  obtain ⟨net1, net2, res, hrun1, hrun2, hrun3, hlen, hval, _⟩ :=
    Net.results_after_backProp tanh sqrt hwf (by decide) [100] [1] [] (by decide) (by decide)
  obtain ⟨prevLayer, hprev, hres⟩ := hval 0 (by decide)
  have hsum : weightedSum prevLayer 0 = 101 := by
    have hev : (oneNet ℝ).feedForward tanh [100] = .done _ := rfl
    rw [hev] at hrun1
    have e := Run.done.inj hrun1
    subst e
    have e2 := Option.some.inj hprev
    subst e2
    simp [weightedSum, Neuron.weightTo, oneNet, Net.setNeuron, Net.setLayer]
    norm_num
  have hres1 : res = [1] := by
    rw [hsum] at hres
    have hl : res.length = 1 := hlen
    match res, hl, hres with
    | [v], _, h =>
      simp only [List.getElem?_cons_zero, Option.some.injEq] at h
      rw [h]
      exact congrArg (fun v => [v]) h1
  refine ⟨oneNet ℝ, net1, net2, res, Net.ctor_biasEnv, hrun1, hrun2, hrun3, hres1, ?_⟩
  intro h
  rw [hres1] at h
  exact lt_irrefl _ (h 1 (List.mem_singleton.2 rfl)).2

/-! ## Frame and characterisation lemmas -/

/-! ## What a call keeps, however it ends -/

theorem Neuron.SameButConn.refl (j : Nat) (x : Neuron R) : Neuron.SameButConn j x x :=
  ⟨rfl, rfl, rfl, rfl, fun _ _ => rfl⟩

theorem Neuron.SameButConn.trans {j : Nat} {x y z : Neuron R}
    (h1 : Neuron.SameButConn j x y) (h2 : Neuron.SameButConn j y z) :
    Neuron.SameButConn j x z :=
  ⟨h2.1.trans h1.1, h2.2.1.trans h1.2.1, h2.2.2.1.trans h1.2.2.1, h2.2.2.2.1.trans h1.2.2.2.1,
    fun k hk => (h2.2.2.2.2 k hk).trans (h1.2.2.2.2 k hk)⟩

/-- Function `Neuron::updateInputWeights`, however it ends: `prevLayer` keeps its size, and each of
its neurons changes at most in its connection number `m_myIndex`. -/
theorem Neuron.updateInputWeights_state (self : Neuron R) (prevLayer : Layer R) :
    (self.updateInputWeights prevLayer).state.length = prevLayer.length ∧
    ∀ (n : Nat) (x : Neuron R), prevLayer[n]? = some x →
      ∃ y, (self.updateInputWeights prevLayer).state[n]? = some y ∧
        Neuron.SameButConn self.m_myIndex x y := by
  unfold Neuron.updateInputWeights
  refine forLoop_state _
    (fun (t : Layer R) => t.length = prevLayer.length ∧
      ∀ (n : Nat) (x : Neuron R), prevLayer[n]? = some x →
        ∃ y, t[n]? = some y ∧ Neuron.SameButConn self.m_myIndex x y)
    ?_ _ _ _ ⟨rfl, fun n x hx => ⟨x, hx, Neuron.SameButConn.refl _ x⟩⟩
  intro n t ht
  obtain ⟨hlen, hrel⟩ := ht
  cases htn : t[n]? with
  | none => simp only [htn, Run.state]; exact ⟨hlen, hrel⟩
  | some neuron =>
    cases hc : neuron.m_outputWeights[self.m_myIndex]? with
    | none => simp only [htn, hc, Run.state]; exact ⟨hlen, hrel⟩
    | some conn =>
      simp only [htn, hc, Run.state]
      refine ⟨by rw [List.length_set]; exact hlen, ?_⟩
      intro m x hx
      obtain ⟨y, hy, hxy⟩ := hrel m x hx
      by_cases hm : n = m
      · subst hm
        have e : y = neuron := Option.some.inj (hy.symm.trans htn)
        subst e
        refine ⟨_, List.getElem?_set_self (List.getElem?_eq_some.1 hy).1, ?_⟩
        refine Neuron.SameButConn.trans hxy ⟨rfl, rfl, rfl, ?_, ?_⟩
        · simp only [List.length_set]
        · intro k hk
          exact List.getElem?_set_ne (Ne.symm hk)
      · exact ⟨y, by rw [List.getElem?_set_ne hm]; exact hy, hxy⟩

theorem Neuron.SameButConn.outShape_eq {j : Nat} {x y : Neuron R}
    (h : Neuron.SameButConn j x y) : y.outShape = x.outShape := by
  simp only [Neuron.outShape, h.1, h.2.2.1, h.2.2.2.1]

theorem Neuron.updateInputWeights_state_map {β : Type} (f : Neuron R → β) (self : Neuron R)
    (prevLayer : Layer R)
    (hf : ∀ x y : Neuron R, Neuron.SameButConn self.m_myIndex x y → f y = f x) :
    (self.updateInputWeights prevLayer).state.map f = prevLayer.map f := by
  obtain ⟨hlen, hrel⟩ := Neuron.updateInputWeights_state self prevLayer
  apply List.ext_getElem?
  intro n
  simp only [List.getElem?_map]
  cases hx : prevLayer[n]? with
  | none =>
    have : (self.updateInputWeights prevLayer).state[n]? = none := by
      rw [List.getElem?_eq_none_iff] at hx ⊢
      omega
    rw [this]
  | some x =>
    obtain ⟨y, hy, hxy⟩ := hrel n x hx
    rw [hy]
    simp only [Option.map_some', hf x y hxy]

theorem Neuron.feedForward_keeps_frame (tanh : R → R) (self : Neuron R) (prevLayer : Layer R) :
    (self.feedForward tanh prevLayer).state.frame = self.frame := by
  unfold Neuron.feedForward
  cases self.feedForwardSum prevLayer <;> rfl

/-- Function `Net::feedForward`, however it ends, changes output values only. -/
theorem Net.feedForward_state_frame (tanh : R → R) (net : Net R) (inputVals : List R) :
    (net.feedForward tanh inputVals).state.proj Neuron.frame = net.proj Neuron.frame := by
  unfold Net.feedForward
  cases net.m_layers[0]? with
  | none => rfl
  | some layer0 =>
    simp only
    split
    · rfl
    · refine Run.bind_state (fun (t : Net R) => t.proj Neuron.frame = net.proj Neuron.frame)
        _ _ ?_ ?_
      · refine forLoop_state _ (fun (t : Net R) => t.proj Neuron.frame = net.proj Neuron.frame)
          ?_ _ _ _ rfl
        intro i t ht
        unfold Net.feedForwardInput
        cases inputVals[i]? with
        | none => exact ht
        | some v =>
          cases hx : t.neuron? 0 i with
          | none => exact ht
          | some x =>
            refine Eq.trans ?_ ht
            apply Net.proj_setNeuron Neuron.frame hx
            rfl
      · intro s hs
        refine forLoop_state _ (fun (t : Net R) => t.proj Neuron.frame = net.proj Neuron.frame)
          ?_ _ _ _ hs
        intro l t ht
        unfold Net.feedForwardLayer
        cases t.m_layers[l - 1]? with
        | none => exact ht
        | some prev =>
          cases t.m_layers[l]? with
          | none => exact ht
          | some layer =>
            refine forLoop_state _
              (fun (t : Net R) => t.proj Neuron.frame = net.proj Neuron.frame) ?_ _ _ _ ht
            intro n u hu
            unfold Net.feedForwardNeuron
            cases u.m_layers[l - 1]? with
            | none => exact hu
            | some prev1 =>
              cases hx : u.neuron? l n with
              | none => exact hu
              | some x =>
                simp only [Run.state_lift]
                refine Eq.trans ?_ hu
                apply Net.proj_setNeuron Neuron.frame hx
                exact Neuron.feedForward_keeps_frame tanh x prev1

theorem Net.backPropOutput_state_proj {β : Type} (f : Neuron R → β)
    (hf : ∀ (x : Neuron R) (g : R), f { x with m_gradient := g } = f x)
    (targetVals : List R) (last : Nat) (net : Net R) :
    ∀ n (t : Net R), t.proj f = net.proj f →
      (Net.backPropOutput targetVals last n t).state.proj f = net.proj f := by
  intro n t ht
  unfold Net.backPropOutput
  cases targetVals[n]? with
  | none => exact ht
  | some v =>
    cases hx : t.neuron? last n with
    | none => exact ht
    | some x =>
      refine Eq.trans ?_ ht
      apply Net.proj_setNeuron f hx
      exact hf x _

theorem Neuron.calcHiddenGradients_state_proj {β : Type} (f : Neuron R → β)
    (hf : ∀ (x : Neuron R) (g : R), f { x with m_gradient := g } = f x)
    (self : Neuron R) (nextLayer : Layer R) :
    f (self.calcHiddenGradients nextLayer).state = f self := by
  unfold Neuron.calcHiddenGradients
  cases self.sumDOW nextLayer with
  | done dow => exact hf self _
  | fault e s => rfl

theorem Net.backPropHiddenLayer_state_proj {β : Type} (f : Neuron R → β)
    (hf : ∀ (x : Neuron R) (g : R), f { x with m_gradient := g } = f x) (net : Net R) :
    ∀ l (t : Net R), t.proj f = net.proj f →
      (Net.backPropHiddenLayer l t).state.proj f = net.proj f := by
  intro l t ht
  unfold Net.backPropHiddenLayer
  cases t.m_layers[l]? with
  | none => exact ht
  | some hiddenLayer =>
    cases t.m_layers[toUnsigned (l + 1)]? with
    | none => exact ht
    | some nextLayer =>
      refine forLoop_state _ (fun (t : Net R) => t.proj f = net.proj f) ?_ _ _ _ ht
      intro n u hu
      unfold Net.backPropHiddenNeuron
      cases hx : u.neuron? l n with
      | none => exact hu
      | some x =>
        cases u.m_layers[toUnsigned (l + 1)]? with
        | none => exact hu
        | some next1 =>
          simp only [Run.state_lift]
          refine Eq.trans ?_ hu
          apply Net.proj_setNeuron f hx
          exact Neuron.calcHiddenGradients_state_proj f hf x next1

theorem Net.backPropUpdateLayer_state_proj {β : Type} (f : Neuron R → β)
    (hf : ∀ (j : Nat) (x y : Neuron R), Neuron.SameButConn j x y → f y = f x) (net : Net R) :
    ∀ l (t : Net R), t.proj f = net.proj f →
      (Net.backPropUpdateLayer l t).state.proj f = net.proj f := by
  intro l t ht
  unfold Net.backPropUpdateLayer
  cases t.m_layers[l]? with
  | none => exact ht
  | some layer =>
    cases t.m_layers[l - 1]? with
    | none => exact ht
    | some prevLayer =>
      refine forLoop_state _ (fun (t : Net R) => t.proj f = net.proj f) ?_ _ _ _ ht
      intro n u hu
      unfold Net.backPropUpdateNeuron
      cases u.neuron? l n with
      | none => exact hu
      | some x =>
        cases hp : u.m_layers[l - 1]? with
        | none => exact hu
        | some prev1 =>
          simp only [Run.state_lift]
          refine Eq.trans ?_ hu
          apply Net.proj_setLayer f hp
          exact Neuron.updateInputWeights_state_map f x prev1 (hf x.m_myIndex)

theorem Neuron.SameButConn.noWeights_eq {j : Nat} {x y : Neuron R}
    (h : Neuron.SameButConn j x y) : y.noWeights = x.noWeights := by
  simp only [Neuron.noWeights, h.1, h.2.1, h.2.2.1, h.2.2.2.1]

theorem Net.backPropError_state_layers (targetVals : List R) (last : Nat) (net : Net R) :
    ∀ n (t : Net R), t.m_layers = net.m_layers →
      (Net.backPropError targetVals last n t).state.m_layers = net.m_layers := by
  intro n t ht
  unfold Net.backPropError
  cases targetVals[n]? with
  | none => exact ht
  | some v =>
    cases t.neuron? last n with
    | none => exact ht
    | some x => exact ht

/-- Function `Net::backProp`, however it ends, keeps the output value, the index and the number of
connections of every neuron. -/
theorem Net.backProp_state_outShape (sqrt : R → R) (net : Net R) (targetVals : List R) :
    (net.backProp sqrt targetVals).state.proj Neuron.outShape = net.proj Neuron.outShape := by
  unfold Net.backProp
  cases net.m_layers.getLast? with
  | none => rfl
  | some outputLayer =>
    simp only
    refine Run.bind_state
      (fun (t : Net R) => t.proj Neuron.outShape = net.proj Neuron.outShape) _ _ ?_ ?_
    · have h := forLoop_state (Net.backPropError targetVals (net.m_layers.length - 1))
        (fun (t : Net R) => t.m_layers = net.m_layers)
        (Net.backPropError_state_layers targetVals _ net)
        (sizeSub outputLayer.length 1) 0 { net with m_error := 0.0 } rfl
      show Net.proj _ _ = _
      unfold Net.proj
      rw [h]
    · intro s1 h1
      refine Run.bind_state
        (fun (t : Net R) => t.proj Neuron.outShape = net.proj Neuron.outShape) _ _ ?_ ?_
      · exact forLoop_state _
          (fun (t : Net R) => t.proj Neuron.outShape = net.proj Neuron.outShape)
          (Net.backPropOutput_state_proj Neuron.outShape (fun _ _ => rfl) targetVals _ net)
          _ _ _ h1
      · intro s2 h2
        refine Run.bind_state
          (fun (t : Net R) => t.proj Neuron.outShape = net.proj Neuron.outShape) _ _ ?_ ?_
        · exact downLoop_state _
            (fun (t : Net R) => t.proj Neuron.outShape = net.proj Neuron.outShape)
            (Net.backPropHiddenLayer_state_proj Neuron.outShape (fun _ _ => rfl) net) _ _ h2
        · intro s3 h3
          exact downLoop_state _
            (fun (t : Net R) => t.proj Neuron.outShape = net.proj Neuron.outShape)
            (Net.backPropUpdateLayer_state_proj Neuron.outShape (fun _ _ _ h => h.outShape_eq) net)
            _ _ h3

/-- The shape of every state reachable from `net0` is the shape of `net0`. -/
theorem Net.Reachable.shape_eq {tanh sqrt : R → R} {net0 net : Net R}
    (h : Net.Reachable tanh sqrt net0 net) :
    net.proj Neuron.shape = net0.proj Neuron.shape := by
  induction h with
  | start => rfl
  | feedForward inputVals _ ih =>
    exact (Net.shape_of_frame (Net.feedForward_state_frame tanh _ inputVals)).trans ih
  | backProp targetVals _ ih =>
    exact (Net.shape_of_outShape (Net.backProp_state_outShape sqrt _ targetVals)).trans ih

theorem forLoop_congr {σ : Type} {body1 body2 : Nat → σ → Run σ}
    (h : ∀ n s, body1 n s = body2 n s) (count start : Nat) (s : σ) :
    forLoop body1 count start s = forLoop body2 count start s := by
  have e : body1 = body2 := funext fun n => funext fun s => h n s
  rw [e]

theorem Net.outputs_of_outShape {a b : Net R}
    (h : a.proj Neuron.outShape = b.proj Neuron.outShape) :
    a.proj (fun x => x.m_outputVal) = b.proj (fun x => x.m_outputVal) :=
  Net.proj_of_proj Neuron.outShape (fun x => x.m_outputVal) (fun t => t.1) (fun _ => rfl) h

/-- Function `Net::getResults` reads nothing but the output values of the network. -/
theorem Net.getResults_congr {a b : Net R}
    (h : a.proj (fun x => x.m_outputVal) = b.proj (fun x => x.m_outputVal))
    (resultVals : List R) : a.getResults resultVals = b.getResults resultVals := by
  have hlen := Net.proj_length _ h
  unfold Net.getResults
  rw [List.getLast?_eq_getElem?, List.getLast?_eq_getElem?, hlen]
  cases hb : b.m_layers[b.m_layers.length - 1]? with
  | none =>
    have ha : a.m_layers[b.m_layers.length - 1]? = none := by
      rw [List.getElem?_eq_none_iff] at hb ⊢
      omega
    rw [ha]
  | some backB =>
    obtain ⟨backA, ha, hm⟩ := Net.proj_layer _ h hb
    rw [ha]
    have hl : backA.length = backB.length := by
      have := congrArg List.length hm
      simpa using this
    simp only [hl]
    apply forLoop_congr
    intro n s
    have hn := congrArg (fun l => l[n]?) hm
    simp only [List.getElem?_map] at hn
    cases hxa : backA[n]? with
    | none =>
      rw [hxa] at hn
      cases hxb : backB[n]? with
      | none => rfl
      | some y => rw [hxb] at hn; exact Option.noConfusion hn
    | some x =>
      rw [hxa] at hn
      cases hxb : backB[n]? with
      | none => rw [hxb] at hn; exact Option.noConfusion hn
      | some y =>
        rw [hxb] at hn
        have e : x.m_outputVal = y.m_outputVal := Option.some.inj hn
        simp only [e]

/-! ## Forward pass on zero inputs -/

/-- The inner loop of the hidden gradients, for a layer `l` that has a next layer: every
neuron of layer `l` (its last neuron included) receives the gradient computed from its own
connections and the gradients of the next layer. -/
theorem Net.backPropHiddenLayer_spec {topology : List Nat} (hrep : Representable topology)
    {s : Net R} (hs : s.HasShape topology) {l : Nat} (hl : l + 1 < topology.length) :
    ∃ s1, Net.backPropHiddenLayer l s = .done s1 ∧
      s1.proj Neuron.shape = s.proj Neuron.shape ∧
      (∀ k, k ≠ l → s1.m_layers[k]? = s.m_layers[k]?) ∧
      ∀ j, j ≤ topology.getD l 0 → ∃ x next, s1.neuron? l j = some x ∧
        s.m_layers[l + 1]? = some next ∧
        x.m_gradient = x.hiddenGradient next (topology.getD (l + 1) 0) := by
  obtain ⟨layer, hlay, hsz⟩ := hs.layer (i := l) (by omega)
  obtain ⟨nextLayer, hnl, _⟩ := hs.layer hl
  have hu : toUnsigned (l + 1) = l + 1 := Nat.mod_eq_of_lt (by have := hrep.1; omega)
  obtain ⟨s1, hrun, hI⟩ := forLoop_done (Net.backPropHiddenNeuron l)
    (fun n t => t.proj Neuron.shape = s.proj Neuron.shape ∧
      (∀ k, k ≠ l → t.m_layers[k]? = s.m_layers[k]?) ∧
      ∀ j, j < n → ∃ x next, t.neuron? l j = some x ∧ s.m_layers[l + 1]? = some next ∧
        x.m_gradient = x.hiddenGradient next (topology.getD (l + 1) 0))
    layer.length 0 s ⟨rfl, fun _ _ => rfl, fun j hj => absurd hj (Nat.not_lt_zero j)⟩
    (by
      intro n t _ hn hI
      obtain ⟨hfr, hoth, hgr⟩ := hI
      have ht : t.HasShape topology := Net.HasShape.congr hfr hs
      obtain ⟨neuron, next, hx, hnext, hstep⟩ :=
        Net.backPropHiddenNeuron_done hrep ht hl (n := n) (by omega)
      refine ⟨_, hstep, ?_, ?_, ?_⟩
      · refine Eq.trans ?_ hfr
        apply Net.proj_setNeuron Neuron.shape hx
        rfl
      · intro k hk
        rw [Net.setNeuron_get_ne t n _ (Ne.symm hk)]; exact hoth k hk
      · intro j hj
        by_cases hjn : j = n
        · subst hjn
          refine ⟨_, next, Net.neuron?_setNeuron_self hx _, ?_, rfl⟩
          rw [← hoth (l + 1) (by omega)]; exact hnext
        · obtain ⟨x, nx, h1, h2, h3⟩ := hgr j (by omega)
          refine ⟨x, nx, ?_, h2, h3⟩
          rw [Net.neuron?_setNeuron_ne t _ (Or.inr (Ne.symm hjn))]; exact h1)
  refine ⟨s1, ?_, hI.1, hI.2.1, ?_⟩
  · simp only [Net.backPropHiddenLayer, hlay, hu, hnl]; exact hrun
  · intro j hj
    exact hI.2.2 j (by omega)

/-- The loop over the hidden layers, on a network of at least two layers: the first and the
last layer are not touched, and every neuron of every hidden layer holds the gradient
computed from the gradients that the next layer holds at the end of the loop. -/
theorem Net.backPropHidden_spec {topology : List Nat} (hrep : Representable topology)
    {s : Net R} (hs : s.HasShape topology) (h2 : 2 ≤ topology.length) :
    ∃ s1, downLoop Net.backPropHiddenLayer (toUnsigned (sizeSub s.m_layers.length 2)) s
        = .done s1 ∧
      (∀ k, k = 0 ∨ topology.length - 1 ≤ k → s1.m_layers[k]? = s.m_layers[k]?) ∧
      ∀ i, 1 ≤ i → i + 1 < topology.length → ∀ j, j ≤ topology.getD i 0 →
        ∃ x next, s1.neuron? i j = some x ∧ s1.m_layers[i + 1]? = some next ∧
          x.m_gradient = x.hiddenGradient next (topology.getD (i + 1) 0) := by
  have hstart : toUnsigned (sizeSub s.m_layers.length 2) = topology.length - 2 := by
    rw [hs.1]
    unfold sizeSub toUnsigned
    rw [if_pos h2]
    exact Nat.mod_eq_of_lt (by have := hrep.1; omega)
  obtain ⟨s1, hrun, hI⟩ := downLoop_done Net.backPropHiddenLayer
    (fun n t => t.proj Neuron.shape = s.proj Neuron.shape ∧
      (∀ k, k ≤ n ∨ topology.length - 1 ≤ k → t.m_layers[k]? = s.m_layers[k]?) ∧
      ∀ i, n < i → i + 1 < topology.length → ∀ j, j ≤ topology.getD i 0 →
        ∃ x next, t.neuron? i j = some x ∧ t.m_layers[i + 1]? = some next ∧
          x.m_gradient = x.hiddenGradient next (topology.getD (i + 1) 0))
    (topology.length - 2) s ⟨rfl, fun _ _ => rfl, fun i h1 h2 => by omega⟩
    (by
      intro n t hn hI
      obtain ⟨hfr, hsame, hgr⟩ := hI
      have ht : t.HasShape topology := Net.HasShape.congr hfr hs
      obtain ⟨t1, hstep, hfr1, hoth, hnew⟩ :=
        Net.backPropHiddenLayer_spec hrep ht (l := n + 1) (by omega)
      refine ⟨t1, hstep, hfr1.trans hfr, ?_, ?_⟩
      · intro k hk
        rw [hoth k (by omega)]; exact hsame k (by omega)
      · intro i hi1 hi2 j hj
        by_cases hin : i = n + 1
        · subst hin
          obtain ⟨x, next, h1, h2, h3⟩ := hnew j hj
          exact ⟨x, next, h1, by rw [hoth (n + 1 + 1) (by omega)]; exact h2, h3⟩
        · obtain ⟨x, next, h1, h2, h3⟩ := hgr i (by omega) hi2 j hj
          refine ⟨x, next, ?_, ?_, h3⟩
          · rw [Net.neuron?_congr (hoth i hin)]; exact h1
          · rw [hoth (i + 1) (by omega)]; exact h2)
  refine ⟨s1, by rw [hstart]; exact hrun, ?_, ?_⟩
  · intro k hk
    refine hI.2.1 k ?_
    cases hk with
    | inl h => exact Or.inl (by omega)
    | inr h => exact Or.inr h
  · intro i hi1 hi2 j hj
    exact hI.2.2 i (by omega) hi2 j hj

/-! ## Backward pass: the update of the connections -/

theorem Neuron.updatedBy_shape (self x : Neuron R) : (self.updatedBy x).shape = x.shape := by
  have h := Neuron.updatedBy_outShape self x
  simp only [Neuron.outShape, Prod.mk.injEq] at h
  simp only [Neuron.shape, h.2.1, h.2.2]

theorem Neuron.updatedBy_outputVal (self x : Neuron R) :
    (self.updatedBy x).m_outputVal = x.m_outputVal := by
  have h := Neuron.updatedBy_outShape self x
  simp only [Neuron.outShape, Prod.mk.injEq] at h
  exact h.1

theorem Net.shape_of_noWeights {a b : Net R}
    (h : a.proj Neuron.noWeights = b.proj Neuron.noWeights) :
    a.proj Neuron.shape = b.proj Neuron.shape :=
  Net.proj_of_proj Neuron.noWeights Neuron.shape (fun t => (t.2.2.1, t.2.2.2)) (fun _ => rfl) h

/-- The inner loop of the weight update, for a layer `l >= 1`: in every neuron of layer
`l - 1`, the connection to each of the first `topology[l]` neurons of layer `l` is updated
once, with the gradient of that neuron; nothing else changes. -/
theorem Net.backPropUpdateLayer_spec {topology : List Nat}
    {s : Net R} (hs : s.HasShape topology) {l : Nat} (hl1 : 1 ≤ l) (hl : l < topology.length) :
    ∃ s1, Net.backPropUpdateLayer l s = .done s1 ∧
      (∀ k, k ≠ l - 1 → s1.m_layers[k]? = s.m_layers[k]?) ∧
      ∀ (p : Nat) (x : Neuron R), s.neuron? (l - 1) p = some x →
        ∃ y, s1.neuron? (l - 1) p = some y ∧
          ∀ j, (j < topology.getD l 0 → ∃ g c, s.neuron? l j = some g ∧
                x.m_outputWeights[j]? = some c ∧
                y.m_outputWeights[j]? = some (c.updated x.m_outputVal g.m_gradient)) ∧
            (topology.getD l 0 ≤ j → y.m_outputWeights[j]? = x.m_outputWeights[j]?) := by
  obtain ⟨prevLayer0, hp0, _⟩ := hs.layer (i := l - 1) (by omega)
  obtain ⟨layer, hlay, hsz⟩ := hs.layer hl
  have hcount : sizeSub layer.length 1 = topology.getD l 0 := by
    rw [sizeSub_one (by omega), hsz]; rfl
  obtain ⟨s1, hrun, hI⟩ := forLoop_done (Net.backPropUpdateNeuron l)
    (fun n t => t.proj Neuron.shape = s.proj Neuron.shape ∧
      (∀ k, k ≠ l - 1 → t.m_layers[k]? = s.m_layers[k]?) ∧
      ∀ (p : Nat) (x : Neuron R), s.neuron? (l - 1) p = some x →
        ∃ y, t.neuron? (l - 1) p = some y ∧ y.m_outputVal = x.m_outputVal ∧
          ∀ j, (j < n → ∃ g c, s.neuron? l j = some g ∧ x.m_outputWeights[j]? = some c ∧
                y.m_outputWeights[j]? = some (c.updated x.m_outputVal g.m_gradient)) ∧
            (n ≤ j → y.m_outputWeights[j]? = x.m_outputWeights[j]?))
    (topology.getD l 0) 0 s
    ⟨rfl, fun _ _ => rfl, fun p x hx =>
      ⟨x, hx, rfl, fun j => ⟨fun hj => absurd hj (Nat.not_lt_zero j), fun _ => rfl⟩⟩⟩
    (by
      intro n t _ hn hI
      obtain ⟨hfr, hoth, hrel⟩ := hI
      have ht : t.HasShape topology := Net.HasShape.congr hfr hs
      obtain ⟨neuron, prev, hx, hprev, hidx, hstep⟩ :=
        Net.backPropUpdateNeuron_done ht hl1 hl (n := n) (by omega)
      have hxs : s.neuron? l n = some neuron := by
        rw [← Net.neuron?_congr (hoth l (by omega)) n]; exact hx
      have hprevlen : l - 1 < t.m_layers.length := (List.getElem?_eq_some.1 hprev).1
      refine ⟨_, hstep, ?_, ?_, ?_⟩
      · refine Eq.trans ?_ hfr
        apply Net.proj_setLayer Neuron.shape hprev
        rw [List.map_map]
        congr 1
        funext z
        exact Neuron.updatedBy_shape neuron z
      · intro k hk
        rw [Net.setLayer_get_ne t _ (Ne.symm hk)]; exact hoth k hk
      · intro p x hxp
        obtain ⟨y, hy, hyo, hyw⟩ := hrel p x hxp
        have hyp : prev[p]? = some y := by rw [← Net.neuron?_eq hprev]; exact hy
        have hxw : x.m_outputWeights.length = topology.getD l 0 := by
          obtain ⟨lay, hlay0, hget⟩ := Net.neuron?_some hxp
          have := hs.weights (i := l - 1) (by omega) hlay0 hget
          have e : l - 1 + 1 = l := by omega
          rw [e] at this
          exact this
        obtain ⟨c0, hcx⟩ : ∃ c0, x.m_outputWeights[n]? = some c0 :=
          ⟨_, List.getElem?_eq_getElem (by omega)⟩
        have hcy : y.m_outputWeights[neuron.m_myIndex]? = some c0 := by
          rw [hidx, (hyw n).2 (Nat.le_refl n)]; exact hcx
        have hw := Neuron.updatedBy_weights neuron y c0 hcy
        refine ⟨neuron.updatedBy y, ?_, ?_, ?_⟩
        · rw [Net.neuron?_eq (Net.setLayer_get_self t _ hprevlen), List.getElem?_map, hyp]
          rfl
        · rw [Neuron.updatedBy_outputVal]; exact hyo
        · intro j
          refine ⟨?_, ?_⟩
          · intro hj
            by_cases hjn : j = n
            · subst hjn
              refine ⟨neuron, c0, hxs, hcx, ?_⟩
              rw [hw j, if_pos hidx.symm, hyo]
              rfl
            · obtain ⟨g, c, h1, h2, h3⟩ := (hyw j).1 (by omega)
              refine ⟨g, c, h1, h2, ?_⟩
              rw [hw j, if_neg (by omega)]; exact h3
          · intro hj
            rw [hw j, if_neg (by omega)]
            exact (hyw j).2 (by omega))
  refine ⟨s1, ?_, hI.2.1, ?_⟩
  · simp only [Net.backPropUpdateLayer, hp0, hlay, hcount]; exact hrun
  · intro p x hxp
    obtain ⟨y, hy, _, hyw⟩ := hI.2.2 p x hxp
    refine ⟨y, hy, fun j => ⟨fun hj => (hyw j).1 (by omega), fun hj => (hyw j).2 (by omega)⟩⟩

/-- The loop of the weight updates on a well-formed network: for every layer `i >= 1`, in
every neuron of layer `i - 1` the connection to each of the first `topology[i]` neurons of
layer `i` holds the value and the gradient-dependent update of the start of the loop:
every connection is updated once. -/
theorem Net.backPropUpdate_spec {topology : List Nat} (hrep : Representable topology)
    {s : Net R} (hs : s.HasShape topology) (h0 : 0 < topology.length) :
    ∃ s1, downLoop Net.backPropUpdateLayer (toUnsigned (sizeSub s.m_layers.length 1)) s
        = .done s1 ∧
      ∀ i, 1 ≤ i → i < topology.length → ∀ j, j < topology.getD i 0 →
        ∀ (p : Nat) (x : Neuron R), s.neuron? (i - 1) p = some x →
          ∃ y g c, s1.neuron? (i - 1) p = some y ∧ s.neuron? i j = some g ∧
            x.m_outputWeights[j]? = some c ∧
            y.m_outputWeights[j]? = some (c.updated x.m_outputVal g.m_gradient) := by
  have hstart : toUnsigned (sizeSub s.m_layers.length 1) = topology.length - 1 := by
    rw [hs.1, sizeSub_one h0]
    exact Nat.mod_eq_of_lt (by have := hrep.1; omega)
  obtain ⟨s1, hrun, hI⟩ := downLoop_done Net.backPropUpdateLayer
    (fun n t => t.proj Neuron.noWeights = s.proj Neuron.noWeights ∧
      (∀ k, k < n → t.m_layers[k]? = s.m_layers[k]?) ∧
      ∀ i, n < i → i < topology.length → ∀ j, j < topology.getD i 0 →
        ∀ (p : Nat) (x : Neuron R), s.neuron? (i - 1) p = some x →
          ∃ y g c, t.neuron? (i - 1) p = some y ∧ s.neuron? i j = some g ∧
            x.m_outputWeights[j]? = some c ∧
            y.m_outputWeights[j]? = some (c.updated x.m_outputVal g.m_gradient))
    (topology.length - 1) s ⟨rfl, fun _ _ => rfl, fun i h1 h2 => by omega⟩
    (by
      intro n t hn hI
      obtain ⟨hfr, hsame, hupd⟩ := hI
      have ht : t.HasShape topology := Net.HasShape.congr (Net.shape_of_noWeights hfr) hs
      obtain ⟨t1, hstep, hoth, hnew⟩ :=
        Net.backPropUpdateLayer_spec ht (l := n + 1) (by omega) (by omega)
      have hfr1 : t1.proj Neuron.noWeights = s.proj Neuron.noWeights := by
        have := Net.backPropUpdateLayer_state_proj Neuron.noWeights
          (fun _ _ _ h => h.noWeights_eq) s (n + 1) t hfr
        rw [hstep] at this
        exact this
      refine ⟨t1, hstep, hfr1, ?_, ?_⟩
      · intro k hk
        rw [hoth k (by omega)]; exact hsame k (by omega)
      · intro i hi1 hi2 j hj p x hxp
        by_cases hin : i = n + 1
        · subst hin
          have hxt : t.neuron? (n + 1 - 1) p = some x := by
            rw [Net.neuron?_congr (hsame (n + 1 - 1) (by omega))]; exact hxp
          obtain ⟨y, hy, hyw⟩ := hnew p x hxt
          obtain ⟨g, c, hg, hc, hyc⟩ := (hyw j).1 hj
          obtain ⟨gs, hgs, _, _⟩ := hs.neuron (i := n + 1) (p := j) hi2 (by omega)
          obtain ⟨g', hg', hgg⟩ := Net.proj_neuron Neuron.noWeights hfr hgs
          have e : g' = g := Option.some.inj (hg'.symm.trans hg)
          subst e
          have hgrad : g'.m_gradient = gs.m_gradient := by
            simp only [Neuron.noWeights, Prod.mk.injEq] at hgg
            exact hgg.2.1
          exact ⟨y, gs, c, hy, hgs, hc, by rw [hyc, hgrad]⟩
        · obtain ⟨y, g, c, hy, hg, hc, hyc⟩ := hupd i (by omega) hi2 j hj p x hxp
          refine ⟨y, g, c, ?_, hg, hc, hyc⟩
          rw [Net.neuron?_congr (hoth (i - 1) (by omega))]; exact hy)
  refine ⟨s1, by rw [hstart]; exact hrun, ?_⟩
  intro i hi1 hi2 j hj p x hxp
  exact hI.2.2 i (by omega) hi2 j hj p x hxp

/-! ## Backward pass: the whole call -/

theorem gradientAt_congr {a b : Layer R} (h : a.map Neuron.noWeights = b.map Neuron.noWeights)
    (k : Nat) : gradientAt a k = gradientAt b k := by
  have hk := congrArg (fun l => l[k]?) h
  simp only [List.getElem?_map] at hk
  unfold gradientAt
  cases ha : a[k]? with
  | none =>
    rw [ha] at hk
    cases hb : b[k]? with
    | none => rfl
    | some y => rw [hb] at hk; exact Option.noConfusion hk
  | some x =>
    rw [ha] at hk
    cases hb : b[k]? with
    | none => rw [hb] at hk; exact Option.noConfusion hk
    | some y =>
      rw [hb] at hk
      have e := Option.some.inj hk
      simp only [Neuron.noWeights, Prod.mk.injEq] at e
      exact e.2.1

theorem Neuron.hiddenGradient_congr {x y : Neuron R} {a b : Layer R} (m : Nat)
    (hxy : y.noGrad = x.noGrad) (hab : a.map Neuron.noWeights = b.map Neuron.noWeights) :
    y.hiddenGradient a m = x.hiddenGradient b m := by
  simp only [Neuron.noGrad, Prod.mk.injEq] at hxy
  unfold Neuron.hiddenGradient Neuron.weightTo
  rw [hxy.1, hxy.2.1]
  congr 1
  apply Finset.sum_congr rfl
  intro k _
  rw [gradientAt_congr hab k]

/-- The whole of `Net::backProp` on a well-formed network of at least two layers and a
target vector with at least `topology[last]` entries.  The run ends; output values, indices
and numbers of connections are kept; the first `topology[last]` neurons of the last layer
hold the output gradients; every neuron of every hidden layer holds the gradient computed
from its connections as they were before the call and from the final gradients of the next
layer; and every connection is updated once, from its values before the call and the final
gradient of its target neuron. -/
theorem Net.backProp_spec (sqrt : R → R) {topology : List Nat} {net : Net R}
    (hwf : net.WellFormed topology) (h2 : 2 ≤ topology.length) (targetVals : List R)
    (hlen : lastSize topology ≤ targetVals.length) :
    ∃ net1, net.backProp sqrt targetVals = .done net1 ∧
      net1.proj Neuron.outShape = net.proj Neuron.outShape ∧
      (∀ j, j < lastSize topology → ∃ x y, net.neuron? (topology.length - 1) j = some x ∧
        net1.neuron? (topology.length - 1) j = some y ∧
        y.m_gradient = (targetVals.getD j 0 - x.m_outputVal)
          * Neuron.transferFunctionDerivative x.m_outputVal) ∧
      (∀ i, 1 ≤ i → i + 1 < topology.length → ∀ j, j ≤ topology.getD i 0 →
        ∃ x y next, net.neuron? i j = some x ∧ net1.neuron? i j = some y ∧
          net1.m_layers[i + 1]? = some next ∧
          y.m_gradient = x.hiddenGradient next (topology.getD (i + 1) 0)) ∧
      ∀ i, 1 ≤ i → i < topology.length → ∀ j, j < topology.getD i 0 →
        ∀ (p : Nat) (x : Neuron R), net.neuron? (i - 1) p = some x →
          ∃ y g c, net1.neuron? (i - 1) p = some y ∧ net1.neuron? i j = some g ∧
            x.m_outputWeights[j]? = some c ∧
            y.m_outputWeights[j]? = some (c.updated x.m_outputVal g.m_gradient) := by
  obtain ⟨hne, hrep, hs⟩ := hwf
  have h0 : 0 < topology.length := List.length_pos.2 hne
  obtain ⟨back, hlast, hb, hsz⟩ := hs.back h0
  have hcount : sizeSub back.length 1 = lastSize topology := by
    rw [sizeSub_one (by omega), hsz]; rfl
  have herr := Net.backPropError_done hs h0 targetVals hlen
  -- the state after the error has been computed: the layers are those of `net`
  obtain ⟨s0, hs0def⟩ : ∃ s0 : Net R, s0 = Net.backPropAverage sqrt back.length
      { net with
        m_error := ∑ n in Finset.range (lastSize topology),
          (targetVals.getD n 0 - net.outputVal (topology.length - 1) n)
            * (targetVals.getD n 0 - net.outputVal (topology.length - 1) n) } := ⟨_, rfl⟩
  have hl0 : s0.m_layers = net.m_layers := by rw [hs0def]; rfl
  have hn0 : ∀ l p, s0.neuron? l p = net.neuron? l p := by
    intro l p; unfold Net.neuron?; rw [hl0]
  have hsA : s0.HasShape topology := by
    unfold Net.HasShape; rw [hl0]; exact hs
  -- output gradients
  obtain ⟨s1, hrun1, hfr1, _, _, hset1⟩ := Net.backPropOutput_done hsA h0 targetVals hlen
  have hs1 : s1.HasShape topology := Net.HasShape.congr (Net.shape_of_outShape hfr1) hsA
  have hng1 : s1.proj Neuron.noGrad = net.proj Neuron.noGrad := by
    have := forLoop_state _ (fun (t : Net R) => t.proj Neuron.noGrad = net.proj Neuron.noGrad)
      (Net.backPropOutput_state_proj Neuron.noGrad (fun _ _ => rfl) targetVals
        (topology.length - 1) net) (lastSize topology) 0 s0
      (by show Net.proj _ _ = _; unfold Net.proj; rw [hl0])
    rw [hrun1] at this
    exact this
  -- hidden gradients
  obtain ⟨s2, hrun2, hkeep2, hgrad2⟩ := Net.backPropHidden_spec hrep hs1 h2
  have hng2 : s2.proj Neuron.noGrad = net.proj Neuron.noGrad := by
    have := downLoop_state _
      (fun (t : Net R) => t.proj Neuron.noGrad = net.proj Neuron.noGrad)
      (Net.backPropHiddenLayer_state_proj Neuron.noGrad (fun _ _ => rfl) net)
      (toUnsigned (sizeSub s1.m_layers.length 2)) s1 hng1
    rw [hrun2] at this
    exact this
  have hs2 : s2.HasShape topology :=
    Net.HasShape.congr (Net.proj_of_proj Neuron.noGrad Neuron.shape
      (fun t => (t.2.2, t.2.1.length)) (fun _ => rfl) hng2) hs
  -- weight updates
  obtain ⟨s3, hrun3, hupd3⟩ := Net.backPropUpdate_spec hrep hs2 h0
  have hnw3 : s3.proj Neuron.noWeights = s2.proj Neuron.noWeights := by
    have := downLoop_state _
      (fun (t : Net R) => t.proj Neuron.noWeights = s2.proj Neuron.noWeights)
      (Net.backPropUpdateLayer_state_proj Neuron.noWeights (fun _ _ _ h => h.noWeights_eq) s2)
      (toUnsigned (sizeSub s2.m_layers.length 1)) s2 rfl
    rw [hrun3] at this
    exact this
  have hrun : net.backProp sqrt targetVals = .done s3 := by
    unfold Net.backProp
    simp only [hlast, hs.1, hcount, herr, Run.bind]
    rw [← hs0def, hrun1]
    simp only [hrun2, hrun3]
  have hos : s3.proj Neuron.outShape = net.proj Neuron.outShape := by
    have := Net.backProp_state_outShape sqrt net targetVals
    rw [hrun] at this
    exact this
  refine ⟨s3, hrun, hos, ?_, ?_, ?_⟩
  · intro j hj
    obtain ⟨x, hx, hx1⟩ := hset1 j hj
    rw [hn0] at hx
    have hx2 : s2.neuron? (topology.length - 1) j
        = some (x.calcOutputGradients (targetVals.getD j 0)) := by
      rw [Net.neuron?_congr (hkeep2 (topology.length - 1) (Or.inr (Nat.le_refl _)))]
      exact hx1
    obtain ⟨y, hy, hyx⟩ := Net.proj_neuron Neuron.noWeights hnw3 hx2
    refine ⟨x, y, hx, hy, ?_⟩
    simp only [Neuron.noWeights, Prod.mk.injEq] at hyx
    rw [hyx.2.1]
    rfl
  · intro i hi1 hi2 j hj
    obtain ⟨x2, next2, h1, h2', h3⟩ := hgrad2 i hi1 hi2 j hj
    obtain ⟨x, hx, _, _⟩ := hs.neuron (i := i) (p := j) (by omega) hj
    obtain ⟨x2', hx2', hxx⟩ := Net.proj_neuron Neuron.noGrad hng2 hx
    have e : x2' = x2 := Option.some.inj (hx2'.symm.trans h1)
    subst e
    obtain ⟨y, hy, hyx⟩ := Net.proj_neuron Neuron.noWeights hnw3 h1
    obtain ⟨next3, hn3, hmap⟩ := Net.proj_layer Neuron.noWeights hnw3 h2'
    refine ⟨x, y, next3, hx, hy, hn3, ?_⟩
    simp only [Neuron.noWeights, Prod.mk.injEq] at hyx
    rw [hyx.2.1, h3]
    exact Neuron.hiddenGradient_congr _ hxx hmap.symm
  · intro i hi1 hi2 j hj p x hxp
    obtain ⟨x2, hx2, hxx⟩ := Net.proj_neuron Neuron.noGrad hng2 hxp
    obtain ⟨y, g2, c, hy, hg2, hc, hyc⟩ := hupd3 i hi1 hi2 j hj p x2 hx2
    obtain ⟨g, hg, hgg⟩ := Net.proj_neuron Neuron.noWeights hnw3 hg2
    simp only [Neuron.noGrad, Prod.mk.injEq] at hxx
    simp only [Neuron.noWeights, Prod.mk.injEq] at hgg
    refine ⟨y, g, c, hy, hg, ?_, ?_⟩
    · rw [← hxx.2.1]; exact hc
    · rw [hyc, hxx.1, hgg.2.1]

theorem Net.gradient_eq {net : Net R} {l : Nat} {layer : Layer R}
    (h : net.m_layers[l]? = some layer) (n : Nat) : net.gradient l n = gradientAt layer n := by
  unfold Net.gradient gradientAt
  rw [Net.neuron?_eq h]

theorem Net.gradient_of_neuron {net : Net R} {l n : Nat} {x : Neuron R}
    (h : net.neuron? l n = some x) : net.gradient l n = x.m_gradient := by
  unfold Net.gradient
  rw [h]

theorem Net.outputVal_of_neuron {net : Net R} {l n : Nat} {x : Neuron R}
    (h : net.neuron? l n = some x) : net.outputVal l n = x.m_outputVal := by
  unfold Net.outputVal
  rw [h]

/-- Two networks of the same shape have the same projection by `f` when `f` agrees on the
neurons at each position. -/
theorem Net.proj_ext {β : Type} (f : Neuron R → β) {a b : Net R}
    (hshape : a.proj Neuron.shape = b.proj Neuron.shape)
    (h : ∀ (l p : Nat) (x y : Neuron R), b.neuron? l p = some x → a.neuron? l p = some y →
      f y = f x) : a.proj f = b.proj f := by
  have hlen := Net.proj_length _ hshape
  unfold Net.proj
  apply List.ext_getElem?
  intro l
  simp only [List.getElem?_map]
  cases hb : b.m_layers[l]? with
  | none =>
    have ha : a.m_layers[l]? = none := by
      rw [List.getElem?_eq_none_iff] at hb ⊢
      omega
    rw [ha]
  | some layerB =>
    obtain ⟨layerA, ha, hm⟩ := Net.proj_layer _ hshape hb
    rw [ha]
    simp only [Option.map_some', Option.some.injEq]
    have hl : layerA.length = layerB.length := by
      have := congrArg List.length hm
      simpa using this
    apply List.ext_getElem?
    intro p
    simp only [List.getElem?_map]
    cases hxb : layerB[p]? with
    | none =>
      have hxa : layerA[p]? = none := by
        rw [List.getElem?_eq_none_iff] at hxb ⊢
        omega
      rw [hxa]
    | some x =>
      have hp : p < layerA.length := by
        have := (List.getElem?_eq_some.1 hxb).1
        omega
      have hxa : layerA[p]? = some layerA[p] := List.getElem?_eq_getElem hp
      rw [hxa]
      simp only [Option.map_some', Option.some.injEq]
      exact h l p x layerA[p] (by rw [Net.neuron?_eq hb]; exact hxb)
        (by rw [Net.neuron?_eq ha]; exact hxa)

theorem Connection.updated_fixed (c : Connection R) (out : R) (h : c.deltaWeight = 0) :
    c.updated out 0 = c := by
  cases c with
  | mk w d =>
    simp only at h
    subst h
    simp [Connection.updated]

/-! ## The claims C11 to C20 -/

/-- C12: `Net::Net` does not validate the topology and raises no error.  For every
representable topology that has fewer than 2 layers or contains a layer size of 0, the
construction ends and produces a network with the shape of the topology: one layer per
entry, `Li + 1` neurons in layer `i`. -/
theorem C12_ctor_accepts_invalid_topology (env : Env R) (topology : List Nat) (fuel : Nat)
    (hrep : Representable topology) (hfuel : ∀ L ∈ topology, L + 2 ≤ fuel)
    (_hinv : topology.length < 2 ∨ 0 ∈ topology) :
    ∃ net, Net.ctor env fuel topology = some net ∧ net.HasShape topology := by
  obtain ⟨net, h1, h2, _⟩ := Net.ctor_some env topology fuel hrep hfuel
  exact ⟨net, h1, h2⟩

/-- C12 (witness): the empty topology, the topology `[3]` of one layer and the topology
`[2, 0, 1]` with a layer of size `0`; each of them yields a network. -/
theorem C12_ctor_accepts_invalid_topology_witness :
    (Representable [] ∧ (∀ L ∈ ([] : List Nat), L + 2 ≤ 2) ∧
      (([] : List Nat).length < 2 ∨ 0 ∈ ([] : List Nat)) ∧
      ∃ net, Net.ctor (sampleEnv ℝ) 2 [] = some net ∧ net.HasShape []) ∧
    (Representable [3] ∧ (∀ L ∈ [3], L + 2 ≤ 5) ∧ ([3].length < 2 ∨ 0 ∈ [3]) ∧
      ∃ net, Net.ctor (sampleEnv ℝ) 5 [3] = some net ∧ net.HasShape [3]) ∧
    (Representable [2, 0, 1] ∧ (∀ L ∈ [2, 0, 1], L + 2 ≤ 4) ∧
      ([2, 0, 1].length < 2 ∨ 0 ∈ [2, 0, 1]) ∧
      ∃ net, Net.ctor (sampleEnv ℝ) 4 [2, 0, 1] = some net ∧ net.HasShape [2, 0, 1]) :=
  ⟨⟨by decide, by decide, by decide,
      C12_ctor_accepts_invalid_topology (sampleEnv ℝ) [] 2 (by decide) (by decide)
        (by decide)⟩,
    ⟨by decide, by decide, by decide,
      C12_ctor_accepts_invalid_topology (sampleEnv ℝ) [3] 5 (by decide) (by decide)
        (by decide)⟩,
    ⟨by decide, by decide, by decide,
      C12_ctor_accepts_invalid_topology (sampleEnv ℝ) [2, 0, 1] 4 (by decide) (by decide)
        (by decide)⟩⟩

/-- C13 (counterexample): when `rand()` returns `RAND_MAX` the weight is `1`, which is not
below `1`. -/
theorem C13_counterexample :
    (Neuron.randomWeight 2147483647 2147483647 : ℝ) = 1 ∧
      ¬ ((Neuron.randomWeight 2147483647 2147483647 : ℝ) < 1) := by
  have h : (Neuron.randomWeight 2147483647 2147483647 : ℝ) = 1 := by
    unfold Neuron.randomWeight; norm_num
  exact ⟨h, by rw [h]; exact lt_irrefl 1⟩

/-- C13 (amended): for every value `r` with `0 <= r <= RAND_MAX` (and `RAND_MAX > 0`), the
weight `r / RAND_MAX` lies in the closed interval `[0, 1]`; it is below `1` exactly when
`r < RAND_MAX`. -/
theorem C13_randomWeight_range {K : Type} [LinearOrderedField K] (RAND_MAX r : Nat)
    (hpos : 0 < RAND_MAX) (hr : r ≤ RAND_MAX) :
    0 ≤ (Neuron.randomWeight RAND_MAX r : K) ∧ (Neuron.randomWeight RAND_MAX r : K) ≤ 1 ∧
      ((Neuron.randomWeight RAND_MAX r : K) < 1 ↔ r < RAND_MAX) := by
  have hp : (0 : K) < (RAND_MAX : K) := by exact_mod_cast hpos
  unfold Neuron.randomWeight
  refine ⟨div_nonneg (Nat.cast_nonneg r) hp.le, ?_, ?_⟩
  · rw [div_le_one hp]; exact_mod_cast hr
  · rw [div_lt_one hp]; exact Nat.cast_lt

/-- C13 (witness): `RAND_MAX = 32767` and `r = 12345`. -/
theorem C13_randomWeight_range_witness :
    0 < 32767 ∧ 12345 ≤ 32767 ∧
      (0 ≤ (Neuron.randomWeight 32767 12345 : ℝ) ∧ (Neuron.randomWeight 32767 12345 : ℝ) ≤ 1 ∧
        ((Neuron.randomWeight 32767 12345 : ℝ) < 1 ↔ 12345 < 32767)) :=
  ⟨by decide, by decide, C13_randomWeight_range 32767 12345 (by decide) (by decide)⟩

/-- C14: on a well-formed network of at least 2 layers and a target vector of matching
length, `Net::backProp` runs to its end, and afterwards every neuron `j` (the bias neuron
included) of every hidden layer `i` (`0 < i < last`) has the gradient
`(sum over n < topology[i+1] of w_pre(i,j,n) * grad(i+1,n)) * (1 - out_j^2)`, where
`w_pre(i,j,n)` is the weight of the connection `n` of that neuron as it was before the call
(the neuron has exactly `topology[i+1]` connections) and `grad(i+1,n)` is the gradient that
layer `i + 1` holds after the call: no gradient is computed from an updated weight. -/
theorem C14_hidden_gradients (sqrt : R → R) (topology : List Nat) (net : Net R)
    (hwf : net.WellFormed topology) (h2 : 2 ≤ topology.length) (targetVals : List R)
    (htg : targetVals.length = lastSize topology) :
    ∃ net1, net.backProp sqrt targetVals = .done net1 ∧
      ∀ i, 0 < i → i < topology.length - 1 → ∀ j, j ≤ topology.getD i 0 →
        ∃ x y, net.neuron? i j = some x ∧ net1.neuron? i j = some y ∧
          x.m_outputWeights.length = topology.getD (i + 1) 0 ∧
          y.m_outputVal = x.m_outputVal ∧
          y.m_gradient =
            (∑ n in Finset.range (topology.getD (i + 1) 0),
              x.weightTo n * net1.gradient (i + 1) n)
            * (1 - x.m_outputVal * x.m_outputVal) := by
  obtain ⟨net1, hrun, hos, _, hhid, _⟩ :=
    Net.backProp_spec sqrt hwf h2 targetVals (Nat.le_of_eq htg.symm)
  refine ⟨net1, hrun, ?_⟩
  intro i hi1 hi2 j hj
  obtain ⟨x, y, next, hx, hy, hnext, hg⟩ := hhid i hi1 (by omega) j hj
  obtain ⟨x', hx', _, hw⟩ := hwf.2.2.neuron (i := i) (p := j) (by omega) hj
  have e : x' = x := Option.some.inj (hx'.symm.trans hx)
  subst e
  rw [if_pos (by omega)] at hw
  obtain ⟨y', hy', hyx⟩ := Net.proj_neuron Neuron.outShape hos hx
  have e2 : y' = y := Option.some.inj (hy'.symm.trans hy)
  subst e2
  simp only [Neuron.outShape, Prod.mk.injEq] at hyx
  refine ⟨x', y', hx, hy, hw, hyx.1, ?_⟩
  rw [hg]
  unfold Neuron.hiddenGradient Neuron.transferFunctionDerivative
  rw [one_lit]
  congr 1
  apply Finset.sum_congr rfl
  intro n _
  rw [Net.gradient_eq hnext]

/-- C14 (witness): the network `sampleNet3`, with the hidden layer 1. -/
theorem C14_hidden_gradients_witness :
    (sampleNet3 ℝ).WellFormed [1, 1, 1] ∧ 2 ≤ [1, 1, 1].length ∧
      ([1] : List ℝ).length = lastSize [1, 1, 1] ∧
      ∃ net1, (sampleNet3 ℝ).backProp Real.sqrt [1] = .done net1 ∧
        ∀ i, 0 < i → i < [1, 1, 1].length - 1 → ∀ j, j ≤ [1, 1, 1].getD i 0 →
          ∃ x y, (sampleNet3 ℝ).neuron? i j = some x ∧ net1.neuron? i j = some y ∧
            x.m_outputWeights.length = [1, 1, 1].getD (i + 1) 0 ∧
            y.m_outputVal = x.m_outputVal ∧
            y.m_gradient =
              (∑ n in Finset.range ([1, 1, 1].getD (i + 1) 0),
                x.weightTo n * net1.gradient (i + 1) n)
              * (1 - x.m_outputVal * x.m_outputVal) :=
  ⟨by decide, by decide, by decide,
    C14_hidden_gradients Real.sqrt [1, 1, 1] (sampleNet3 ℝ) (by decide) (by decide) [1] (by decide)⟩

/-- C15: on a well-formed network of at least 2 layers and a target vector of matching
length, one call of `Net::backProp` updates every connection once.  For every layer
`i >= 1`, every non-bias neuron `j` of layer `i` and every neuron `n` of layer `i - 1` (the
bias neuron included), the connection `j` of neuron `n` ends with
`deltaWeight = eta * out_n * grad_j + alpha * delta_pre` and
`weight = w_pre + eta * out_n * grad_j + alpha * delta_pre`, where `w_pre`, `delta_pre` are
the values of the connection before the call and `grad_j` is the gradient of neuron `j`
computed in this same pass: `(target_j - out_j) * (1 - out_j^2)` when `i` is the output
layer, and `(sum over n' < topology[i+1] of w_pre(i,j,n') * grad(i+1,n')) * (1 - out_j^2)`
when `i` is a hidden layer, whatever gradient the neuron held before the call. -/
theorem C15_weights_updated_once (sqrt : R → R) (topology : List Nat) (net : Net R)
    (hwf : net.WellFormed topology) (h2 : 2 ≤ topology.length) (targetVals : List R)
    (htg : targetVals.length = lastSize topology) :
    ∃ net1, net.backProp sqrt targetVals = .done net1 ∧
      ∀ i, 1 ≤ i → i < topology.length → ∀ j, j < topology.getD i 0 →
        ∀ n, n ≤ topology.getD (i - 1) 0 →
          ∃ x y g o c c1, net.neuron? (i - 1) n = some x ∧ net1.neuron? (i - 1) n = some y ∧
            net1.neuron? i j = some g ∧ net.neuron? i j = some o ∧
            x.m_outputWeights[j]? = some c ∧ y.m_outputWeights[j]? = some c1 ∧
            c1.deltaWeight =
              Neuron.eta * x.m_outputVal * g.m_gradient + Neuron.alpha * c.deltaWeight ∧
            c1.weight =
              c.weight + Neuron.eta * x.m_outputVal * g.m_gradient
                + Neuron.alpha * c.deltaWeight ∧
            g.m_gradient =
              if i + 1 = topology.length then
                (targetVals.getD j 0 - o.m_outputVal) * (1 - o.m_outputVal * o.m_outputVal)
              else
                (∑ k in Finset.range (topology.getD (i + 1) 0),
                  o.weightTo k * net1.gradient (i + 1) k)
                * (1 - o.m_outputVal * o.m_outputVal) := by
  obtain ⟨net1, hrun, _, hout, hhid, hupd⟩ :=
    Net.backProp_spec sqrt hwf h2 targetVals (Nat.le_of_eq htg.symm)
  refine ⟨net1, hrun, ?_⟩
  intro i hi1 hi2 j hj n hn
  obtain ⟨x, hx, _, _⟩ := hwf.2.2.neuron (i := i - 1) (p := n) (by omega) hn
  obtain ⟨y, g, c, hy, hg, hc, hyc⟩ := hupd i hi1 hi2 j hj n x hx
  obtain ⟨o, ho, _, _⟩ := hwf.2.2.neuron (i := i) (p := j) hi2 (by omega)
  refine ⟨x, y, g, o, c, _, hx, hy, hg, ho, hc, hyc, rfl, ?_, ?_⟩
  · simp only [Connection.updated]
    rw [add_assoc]
  · by_cases hlast : i + 1 = topology.length
    · rw [if_pos hlast]
      have hi : i = topology.length - 1 := by omega
      subst hi
      obtain ⟨o1, g1, ho1, hg1, hval⟩ := hout j hj
      have e1 : o1 = o := Option.some.inj (ho1.symm.trans ho)
      have e2 : g1 = g := Option.some.inj (hg1.symm.trans hg)
      subst e1 e2
      rw [hval]
      unfold Neuron.transferFunctionDerivative
      rw [one_lit]
    · rw [if_neg hlast]
      obtain ⟨o1, g1, next, ho1, hg1, hnext, hval⟩ := hhid i hi1 (by omega) j (by omega)
      have e1 : o1 = o := Option.some.inj (ho1.symm.trans ho)
      have e2 : g1 = g := Option.some.inj (hg1.symm.trans hg)
      subst e1 e2
      rw [hval]
      unfold Neuron.hiddenGradient Neuron.transferFunctionDerivative
      rw [one_lit]
      congr 1
      apply Finset.sum_congr rfl
      intro k _
      rw [Net.gradient_eq hnext]

/-- C15 (witness): the network `sampleNet3`, whose gradients are all `0` before the call,
with the target `[1]`. -/
theorem C15_weights_updated_once_witness :
    (sampleNet3 ℝ).WellFormed [1, 1, 1] ∧ 2 ≤ [1, 1, 1].length ∧
      ([1] : List ℝ).length = lastSize [1, 1, 1] ∧
      ∃ net1, (sampleNet3 ℝ).backProp Real.sqrt [1] = .done net1 ∧
        ∀ i, 1 ≤ i → i < [1, 1, 1].length → ∀ j, j < [1, 1, 1].getD i 0 →
          ∀ n, n ≤ [1, 1, 1].getD (i - 1) 0 →
            ∃ x y g o c c1, (sampleNet3 ℝ).neuron? (i - 1) n = some x ∧
              net1.neuron? (i - 1) n = some y ∧ net1.neuron? i j = some g ∧
              (sampleNet3 ℝ).neuron? i j = some o ∧
              x.m_outputWeights[j]? = some c ∧ y.m_outputWeights[j]? = some c1 ∧
              c1.deltaWeight =
                Neuron.eta * x.m_outputVal * g.m_gradient + Neuron.alpha * c.deltaWeight ∧
              c1.weight =
                c.weight + Neuron.eta * x.m_outputVal * g.m_gradient
                  + Neuron.alpha * c.deltaWeight ∧
              g.m_gradient =
                if i + 1 = [1, 1, 1].length then
                  (([1] : List ℝ).getD j 0 - o.m_outputVal)
                    * (1 - o.m_outputVal * o.m_outputVal)
                else
                  (∑ k in Finset.range ([1, 1, 1].getD (i + 1) 0),
                    o.weightTo k * net1.gradient (i + 1) k)
                  * (1 - o.m_outputVal * o.m_outputVal) :=
  ⟨by decide, by decide, by decide,
    C15_weights_updated_once Real.sqrt [1, 1, 1] (sampleNet3 ℝ) (by decide) (by decide) [1]
      (by decide)⟩

/-- C16: `Neuron::updateInputWeights(prevLayer)`, run by a neuron of index `j`, changes
nothing but the connection number `j` of the neurons of `prevLayer`.  In the state in which
the run ends, `prevLayer` has as many neurons as before, and the neuron at each position has
the output value, the gradient, the index and the number of connections it had, and every
connection other than the connection number `j` as it was.  The body assigns no member of
`this`; in the call that `Net::backProp` makes for the neuron `n` of layer `layerNum`, with
`prevLayer = m_layers[layerNum - 1]`, every layer other than `layerNum - 1` (the layer of
the calling neuron among them) and the error members of the network are as before. -/
theorem C16_updateInputWeights_frame (self : Neuron R) (prevLayer : Layer R)
    (net : Net R) (layerNum n : Nat) :
    ((self.updateInputWeights prevLayer).state.length = prevLayer.length ∧
      ∀ (n : Nat) (x : Neuron R), prevLayer[n]? = some x →
        ∃ y, (self.updateInputWeights prevLayer).state[n]? = some y ∧
          y.m_outputVal = x.m_outputVal ∧ y.m_gradient = x.m_gradient ∧
          y.m_myIndex = x.m_myIndex ∧
          y.m_outputWeights.length = x.m_outputWeights.length ∧
          ∀ k, k ≠ self.m_myIndex → y.m_outputWeights[k]? = x.m_outputWeights[k]?) ∧
    (∀ k, k ≠ layerNum - 1 →
      (Net.backPropUpdateNeuron layerNum n net).state.m_layers[k]? = net.m_layers[k]?) ∧
    (Net.backPropUpdateNeuron layerNum n net).state.m_error = net.m_error ∧
    (Net.backPropUpdateNeuron layerNum n net).state.m_recentAverageError
      = net.m_recentAverageError := by
  refine ⟨Neuron.updateInputWeights_state self prevLayer, ?_, ?_, ?_⟩
  · intro k hk
    unfold Net.backPropUpdateNeuron
    cases h1 : net.neuron? layerNum n with
    | none => rfl
    | some neuron =>
      cases h2 : net.m_layers[layerNum - 1]? with
      | none => rfl
      | some prev =>
        show ((neuron.updateInputWeights prev).lift
            (net.setLayer (layerNum - 1))).state.m_layers[k]?
          = net.m_layers[k]?
        rw [Run.state_lift]
        exact Net.setLayer_get_ne net _ (Ne.symm hk)
  · unfold Net.backPropUpdateNeuron
    cases h1 : net.neuron? layerNum n with
    | none => rfl
    | some neuron =>
      cases h2 : net.m_layers[layerNum - 1]? with
      | none => rfl
      | some prev =>
        show ((neuron.updateInputWeights prev).lift (net.setLayer (layerNum - 1))).state.m_error
          = net.m_error
        rw [Run.state_lift]
        rfl
  · unfold Net.backPropUpdateNeuron
    cases h1 : net.neuron? layerNum n with
    | none => rfl
    | some neuron =>
      cases h2 : net.m_layers[layerNum - 1]? with
      | none => rfl
      | some prev =>
        show ((neuron.updateInputWeights prev).lift
            (net.setLayer (layerNum - 1))).state.m_recentAverageError
          = net.m_recentAverageError
        rw [Run.state_lift]
        rfl

/-- C17: the shape of a network (number of layers, number of neurons of each layer, index
and number of connections of each neuron) is the same in every state reachable by calls of
`feedForward` and `backProp`, however they end; `getResults` does not write the network.
So a network that has the shape of a topology keeps it. -/
theorem C17_shape_preserved (tanh sqrt : R → R) (net0 net : Net R)
    (h : Net.Reachable tanh sqrt net0 net) :
    net.m_layers.length = net0.m_layers.length ∧
    net.proj Neuron.shape = net0.proj Neuron.shape ∧
    ∀ topology, net0.HasShape topology → net.HasShape topology :=
  ⟨Net.proj_length _ h.shape_eq, h.shape_eq, fun _ h0 => Net.HasShape.congr h.shape_eq h0⟩

/-- C17 (witness): the state of `sampleNet3` after a forward pass and a backward pass. -/
theorem C17_shape_preserved_witness :
    Net.Reachable Real.tanh Real.sqrt (sampleNet3 ℝ)
        ((((sampleNet3 ℝ).feedForward Real.tanh [1]).state).backProp Real.sqrt [1]).state ∧
      (((((sampleNet3 ℝ).feedForward Real.tanh [1]).state).backProp Real.sqrt [1]).state.m_layers.length
          = (sampleNet3 ℝ).m_layers.length ∧
        ((((sampleNet3 ℝ).feedForward Real.tanh [1]).state).backProp Real.sqrt [1]).state.proj Neuron.shape
          = (sampleNet3 ℝ).proj Neuron.shape ∧
        ∀ topology, (sampleNet3 ℝ).HasShape topology →
          ((((sampleNet3 ℝ).feedForward Real.tanh [1]).state).backProp Real.sqrt [1]).state.HasShape
            topology) :=
  ⟨Net.Reachable.backProp [1] (Net.Reachable.feedForward [1] Net.Reachable.start),
    C17_shape_preserved Real.tanh Real.sqrt (sampleNet3 ℝ) _
      (Net.Reachable.backProp [1] (Net.Reachable.feedForward [1] Net.Reachable.start))⟩

/-- C19: `Net::backProp` leaves the output value of every neuron of every layer as it was,
for every network and every target vector and however the run ends; so `getResults` gives
the same vector before and after the call. -/
theorem C19_backProp_keeps_outputs (sqrt : R → R) (net : Net R) (targetVals resultVals : List R) :
    (net.backProp sqrt targetVals).state.proj (fun x => x.m_outputVal)
        = net.proj (fun x => x.m_outputVal) ∧
      (net.backProp sqrt targetVals).state.getResults resultVals
        = net.getResults resultVals :=
  ⟨Net.outputs_of_outShape (Net.backProp_state_outShape sqrt net targetVals),
    Net.getResults_congr
      (Net.outputs_of_outShape (Net.backProp_state_outShape sqrt net targetVals)) resultVals⟩

/-- C20 (amended): fixed point of training, for finite values.  The values of type `double`
are the elements of a field here: finite numbers, for which `0 * x = 0`.  On a well-formed
network of at least 2 layers (the last of a size `m >= 1`, the divisor of the error) in
which every connection has `deltaWeight = 0`, with the target vector equal to the current
outputs of the first `m` neurons of the last layer, `Net::backProp` runs to its end, sets the
error to `0` (`sqrt 0 = 0`), sets every gradient it computes, in the output layer and in the
hidden layers, to `0`, and leaves every connection, weight and `deltaWeight`, as it was. -/
theorem C20_fixed_point (sqrt : R → R) (hsqrt : sqrt 0 = 0) (topology : List Nat)
    (net : Net R) (hwf : net.WellFormed topology) (h2 : 2 ≤ topology.length)
    (_hm : 1 ≤ lastSize topology)
    (hdelta : ∀ layer ∈ net.m_layers, ∀ x ∈ layer, ∀ c ∈ x.m_outputWeights, c.deltaWeight = 0)
    (targetVals : List R) (htg : targetVals.length = lastSize topology)
    (htv : ∀ n, n < lastSize topology →
      targetVals.getD n 0 = net.outputVal (topology.length - 1) n) :
    ∃ net1, net.backProp sqrt targetVals = .done net1 ∧
      net1.m_error = 0 ∧
      (∀ j, j < lastSize topology → net1.gradient (topology.length - 1) j = 0) ∧
      (∀ i, 0 < i → i < topology.length - 1 → ∀ j, j ≤ topology.getD i 0 →
        net1.gradient i j = 0) ∧
      net1.proj (fun x => x.m_outputWeights) = net.proj (fun x => x.m_outputWeights) := by
  obtain ⟨net1, hrun, hos, hout, hhid, hupd⟩ :=
    Net.backProp_spec sqrt hwf h2 targetVals (Nat.le_of_eq htg.symm)
  have hs := hwf.2.2
  -- the error
  have herr : net1.m_error = 0 := by
    have h := Net.backProp_error sqrt hwf targetVals (Nat.le_of_eq htg.symm)
    rw [hrun] at h
    have hsum : (∑ n in Finset.range (lastSize topology),
        (targetVals.getD n 0 - net.outputVal (topology.length - 1) n)
          * (targetVals.getD n 0 - net.outputVal (topology.length - 1) n)) = 0 := by
      apply Finset.sum_eq_zero
      intro n hn
      rw [htv n (Finset.mem_range.1 hn), sub_self, zero_mul]
    rw [hsum, zero_div, hsqrt] at h
    exact h
  -- the gradients of the output layer
  have hgo : ∀ j, j < lastSize topology → net1.gradient (topology.length - 1) j = 0 := by
    intro j hj
    obtain ⟨x, y, hx, hy, hg⟩ := hout j hj
    rw [Net.gradient_of_neuron hy, hg, htv j hj, Net.outputVal_of_neuron hx, sub_self,
      zero_mul]
  -- the gradients of the hidden layers, from the last hidden layer down
  have hgh : ∀ d i, i + d = topology.length - 1 → 0 < i → 0 < d →
      ∀ j, j ≤ topology.getD i 0 → net1.gradient i j = 0 := by
    intro d
    induction d with
    | zero => intro i _ _ hd; exact absurd hd (Nat.lt_irrefl 0)
    | succ d ih =>
      intro i hid hi _ j hj
      obtain ⟨x, y, next, hx, hy, hnext, hg⟩ := hhid i hi (by omega) j hj
      rw [Net.gradient_of_neuron hy, hg]
      unfold Neuron.hiddenGradient
      have hsum : (∑ k in Finset.range (topology.getD (i + 1) 0),
          x.weightTo k * gradientAt next k) = 0 := by
        apply Finset.sum_eq_zero
        intro k hk
        have hk' := Finset.mem_range.1 hk
        rw [← Net.gradient_eq hnext k]
        by_cases hd : d = 0
        · have e : i + 1 = topology.length - 1 := by omega
          rw [e] at hk' ⊢
          rw [hgo k hk', mul_zero]
        · rw [ih (i + 1) (by omega) (by omega) (by omega) k (by omega), mul_zero]
      rw [hsum, zero_mul]
  have hgh' : ∀ i, 0 < i → i < topology.length - 1 → ∀ j, j ≤ topology.getD i 0 →
      net1.gradient i j = 0 := by
    intro i hi1 hi2 j hj
    exact hgh (topology.length - 1 - i) i (by omega) hi1 (by omega) j hj
  refine ⟨net1, hrun, herr, hgo, hgh', ?_⟩
  -- the connections
  apply Net.proj_ext _ (Net.shape_of_outShape hos)
  intro l p x y hx hy
  show y.m_outputWeights = x.m_outputWeights
  obtain ⟨layer, hlay, hxl⟩ := Net.neuron?_some hx
  have hl : l < topology.length := by
    have := (List.getElem?_eq_some.1 hlay).1
    rw [hs.1] at this
    exact this
  have hp : p ≤ topology.getD l 0 := by
    obtain ⟨layer', hlay', hsz⟩ := hs.layer hl
    have e : layer' = layer := Option.some.inj (hlay'.symm.trans hlay)
    subst e
    have := (List.getElem?_eq_some.1 hxl).1
    omega
  obtain ⟨x', hx', _, hw⟩ := hs.neuron hl hp
  have e : x' = x := Option.some.inj (hx'.symm.trans hx)
  subst e
  obtain ⟨y', hy', hyx⟩ := Net.proj_neuron Neuron.outShape hos hx
  have e2 : y' = y := Option.some.inj (hy'.symm.trans hy)
  subst e2
  simp only [Neuron.outShape, Prod.mk.injEq] at hyx
  have hlenw : y'.m_outputWeights.length = x'.m_outputWeights.length := hyx.2.2
  apply List.ext_getElem?
  intro j
  by_cases hj : j < x'.m_outputWeights.length
  · have hl1 : l + 1 < topology.length := by
      by_contra hc
      rw [if_neg hc] at hw
      omega
    rw [if_pos hl1] at hw
    obtain ⟨y2, g, c, hy2, hg, hc, hyc⟩ := hupd (l + 1) (by omega) hl1 j (by omega) p x' hx
    have e3 : y2 = y' := Option.some.inj (hy2.symm.trans hy)
    subst e3
    have hg0 : g.m_gradient = 0 := by
      rw [← Net.gradient_of_neuron hg]
      by_cases hlast : l + 1 = topology.length - 1
      · rw [hlast]
        refine hgo j ?_
        unfold lastSize
        rw [← hlast]
        omega
      · exact hgh' (l + 1) (by omega) (by omega) j (by omega)
    have hcd : c.deltaWeight = 0 :=
      hdelta layer (List.getElem?_mem hlay) x' (List.getElem?_mem hxl) c
        (List.getElem?_mem hc)
    rw [hyc, hg0, Connection.updated_fixed c _ hcd, hc]
  · rw [List.getElem?_eq_none (by omega), List.getElem?_eq_none (by omega)]

/-- C20 (witness): the network `trainedNet3`, whose connections all have `deltaWeight = 0`
and whose error and gradients are not `0` before the call, with the target `[1/7]`, the
output of its output neuron, and the real `sqrt`. -/
theorem C20_fixed_point_witness :
    Real.sqrt 0 = 0 ∧ (trainedNet3 ℝ).WellFormed [1, 1, 1] ∧ 2 ≤ [1, 1, 1].length ∧
      1 ≤ lastSize [1, 1, 1] ∧
      (∀ layer ∈ (trainedNet3 ℝ).m_layers, ∀ x ∈ layer, ∀ c ∈ x.m_outputWeights,
        c.deltaWeight = 0) ∧
      ([1/7] : List ℝ).length = lastSize [1, 1, 1] ∧
      (∀ n, n < lastSize [1, 1, 1] →
        ([1/7] : List ℝ).getD n 0 = (trainedNet3 ℝ).outputVal ([1, 1, 1].length - 1) n) ∧
      ∃ net1, (trainedNet3 ℝ).backProp Real.sqrt [1/7] = .done net1 ∧
        net1.m_error = 0 ∧
        (∀ j, j < lastSize [1, 1, 1] → net1.gradient ([1, 1, 1].length - 1) j = 0) ∧
        (∀ i, 0 < i → i < [1, 1, 1].length - 1 → ∀ j, j ≤ [1, 1, 1].getD i 0 →
          net1.gradient i j = 0) ∧
        net1.proj (fun x => x.m_outputWeights)
          = (trainedNet3 ℝ).proj (fun x => x.m_outputWeights) :=
  ⟨Real.sqrt_zero, by decide, by decide, by decide, by simp [trainedNet3], by decide,
    fun n hn => by
      have h0 : n = 0 := by
        have : lastSize [1, 1, 1] = 1 := rfl
        omega
      subst h0; rfl,
    C20_fixed_point Real.sqrt Real.sqrt_zero [1, 1, 1] (trainedNet3 ℝ) (by decide) (by decide)
      (by decide) (by simp [trainedNet3]) [1/7] (by decide)
      (fun n hn => by
        have h0 : n = 0 := by
          have : lastSize [1, 1, 1] = 1 := rfl
          omega
        subst h0; rfl)⟩

theorem Double.add_eq (a b : Double) : a + b = Double.add a b := rfl

theorem Double.sub_eq (a b : Double) : a - b = Double.sub a b := rfl

theorem Double.mul_eq (a b : Double) : a * b = Double.mul a b := rfl

theorem Double.div_eq (a b : Double) : a / b = Double.div a b := rfl

theorem Double.ofScientific_eq (m : Nat) (s : Bool) (e : Nat) :
    (OfScientific.ofScientific m s e : Double) = .finite (OfScientific.ofScientific m s e) := rfl

theorem Double.natCast_eq (n : Nat) : ((n : Nat) : Double) = .finite n := rfl

/-- C20 (counterexample): a network of topology `[1, 1]` with finite weights, every
`deltaWeight` at `0`, and the input `+inf`, a value of type `double` that `feedForward`
takes as any other.  After `feedForward([+inf])` the input neuron holds `+inf` and the
output neuron holds `tanh(+inf) = 1`, so `getResults` gives `[1]`.  With the target `[1]`,
the current output, `backProp` computes the gradient `0` for the output neuron, and then
`eta * inf * 0 + alpha * 0`, which is NaN: the connection of the input neuron, which had the
weight `1` and the `deltaWeight` `0`, ends with NaN in both, whatever `tanh` and `sqrt`
return for finite arguments. -/
theorem C20_counterexample :
    infNet.WellFormed [1, 1] ∧ 2 ≤ [1, 1].length ∧
      (∀ layer ∈ infNet.m_layers, ∀ x ∈ layer, ∀ c ∈ x.m_outputWeights,
        c.deltaWeight = .finite 0) ∧
      infNet.getResults [] = .done [.finite 1] ∧
      (infNet.neuron? 0 0).map (fun x => x.m_outputWeights)
        = some [{ weight := .finite 1, deltaWeight := .finite 0 }] ∧
      (∀ t : ℚ → ℚ, finiteNet.feedForward (Double.tanh t) [.posInf] = .done infNet) ∧
      ∀ s : ℚ → ℚ, ∃ net2, infNet.backProp (Double.sqrt s) [.finite 1] = .done net2 ∧
        (net2.neuron? 1 0).map (fun x => x.m_gradient) = some (.finite 0) ∧
        (net2.neuron? 0 0).map (fun x => x.m_outputWeights)
          = some [{ weight := .nan, deltaWeight := .nan }] := by
  refine ⟨by decide, by decide, by decide, rfl, rfl, fun _ => rfl, fun s => ?_⟩
  refine ⟨_, rfl, ?_, ?_⟩ <;>
  norm_num [infNet, Net.neuron?, Net.setNeuron, Net.setLayer, Net.backPropAverage,
    Neuron.calcOutputGradients, Neuron.transferFunctionDerivative, Neuron.eta, Neuron.alpha,
    Double.add_eq, Double.sub_eq, Double.mul_eq, Double.div_eq, Double.ofScientific_eq,
    Double.natCast_eq, Double.add, Double.sub, Double.mul, Double.div, Double.infOfSign,
    Double.sqrt, sizeSub]

end NeuralNet
